import Mathlib

/-!
# The Mercury runtime: abstract machine, engine and debugger command line

A shallow embedding of the stack, heap and nondet-stack macros of
`runtime/imp.h`, of `MR_setjmp` and `MR_longjmp` of
`runtime/mercury_engine.h`, of the functions of
`trace/mercury_trace_internal.c` that break a command line into words, parse
it, continue it and run the `retry` command, and of the ordering and marking of
the variables of a point in `trace/mercury_trace_vars.c`, and proofs about
them.

Conventions of the embedding of `runtime/imp.h`.

* `Word` is the machine word (`typedef uint Word`), an unsigned integer of 32
  bits: its values are the integers from 0 to `2 ^ 32 - 1`.  The type `Word`
  carries such a value as an integer, and the conversion `(Word)(w)` of an
  integer expression to a word is `to_word`, reduction modulo `2 ^ 32`.
  `imp.h` requires `sizeof(Word) == sizeof(Integer) == sizeof(Code*)`, so the
  casts between words, pointers and code addresses (`LVALUE_CAST`, `(Word)` of
  a pointer) keep the value.  Addresses and code addresses are integers.
* Addresses count words: `p + n` on a `Word *` is the address `p + n`.
  All the areas (det stack, nondet stack, heap) live in one memory `mem`.
* The machine registers `succip`, `sp`, `hp`, `maxfr`, `curfr` and the zone
  bounds (`heapmax`, `heapend`, `detstackmin`, ...) are fields of `Machine`.
* `GOTO(label)` is the portable definition `return (label)` (the branch
  without `USE_GCC_NONLOCAL_GOTOS`): the macro hands the label to the driver
  loop.  The field `pc` holds the label most recently handed over.  Under
  `USE_GCC_NONLOCAL_GOTOS` the same transfer is a computed `goto`, preceded
  without `SPEED` by `debuggoto`, which traces and asserts that the label is
  not null.
* The `debug...` hooks only print (they are `((void)0)` under `SPEED`) and
  are left out.
* `SPEED` is the flag `Config.speed`.  It selects the size of the nondet
  frame header and turns the overflow and underflow checks into no-ops.
* An assignment to a caller-supplied lvalue `dest` is modelled by returning
  the value assigned.
-/

namespace Mercury

/-- The machine word, `typedef uint Word`: an unsigned integer of 32 bits,
carried as an integer. -/
abbrev Word := Int

/-- The conversion `(Word)(w)` of an integer value to the unsigned 32-bit
`Word`: the value modulo `2 ^ 32`. -/
def to_word (w : Int) : Word :=
  w % 2 ^ 32

/-- A code address, `Code *`. -/
abbrev Code := Int

/-- Build configuration: `speed` is true when `SPEED` is defined. -/
structure Config where
  speed : Bool
  deriving DecidableEq, Repr

/-- The registers, the zone bounds and the memory of the abstract machine. -/
structure Machine where
  mem : Int → Word
  succip : Code
  sp : Int
  hp : Int
  maxfr : Int
  curfr : Int
  pc : Code
  heapmax : Int
  heapend : Int
  detstackmin : Int
  detstackmax : Int
  detstackend : Int
  nondstackmin : Int
  nondstackmax : Int
  nondstackend : Int

/-- A fatal error: the message given to `fatal_error` and the machine state in
which it was raised. -/
structure Fatal where
  msg : String
  state : Machine

/-- Outcome of an operation that may abort the process. -/
abbrev Result := Except Fatal Machine

/-- Modelled from the spec: `fatal_error` is declared outside `imp.h`; it
raises "a fatal, unrecoverable error (process abort with a descriptive
message)", so nothing after it is executed. -/
def fatal_error (msg : String) (s : Machine) : Result :=
  .error ⟨msg, s⟩

/-- The machine state at the end of an operation: the state returned, or the
state in which the fatal error was raised. -/
def Result.final : Result → Machine
  | .ok s => s
  | .error f => f.state

/-- The store `p[0] = v`. -/
def Machine.store (s : Machine) (a : Int) (v : Word) : Machine :=
  { s with mem := Function.update s.mem a v }

/-- `GOTO(label)`, that is `return (label)`. -/
def GOTO (label : Code) (s : Machine) : Machine :=
  { s with pc := label }

/-! ## Nondet stack frames -/

/-- `#define REDOIP (-0)`. -/
def REDOIP : Int := -0
/-- `#define PREVFR (-1)`. -/
def PREVFR : Int := -1
/-- `#define SUCCIP (-2)`. -/
def SUCCIP : Int := -2
/-- `#define SUCCFR (-3)`. -/
def SUCCFR : Int := -3
/-- `#define PREDNM (-4)`, defined when `SPEED` is not. -/
def PREDNM : Int := -4

/-- `NONDET_FIXED_SIZE`: 4 words under `SPEED`, 5 otherwise. -/
def NONDET_FIXED_SIZE (cfg : Config) : Int :=
  if cfg.speed then 4 else 5

/-- `#define SAVEVAL (-NONDET_FIXED_SIZE)`. -/
def SAVEVAL (cfg : Config) : Int := -(NONDET_FIXED_SIZE cfg)

/-- `bt_redoip(fr)` read as an rvalue. -/
def bt_redoip (s : Machine) (fr : Int) : Code := s.mem (fr + REDOIP)
/-- `bt_prevfr(fr)` read as an rvalue. -/
def bt_prevfr (s : Machine) (fr : Int) : Int := s.mem (fr + PREVFR)
/-- `bt_succip(fr)` read as an rvalue. -/
def bt_succip (s : Machine) (fr : Int) : Code := s.mem (fr + SUCCIP)
/-- `bt_succfr(fr)` read as an rvalue. -/
def bt_succfr (s : Machine) (fr : Int) : Int := s.mem (fr + SUCCFR)
/-- `bt_prednm(fr)` read as an rvalue (without `SPEED`). -/
def bt_prednm (s : Machine) (fr : Int) : Word := s.mem (fr + PREDNM)
/-- `bt_var(fr,n)` read as an rvalue. -/
def bt_var (cfg : Config) (s : Machine) (fr : Int) (n : Int) : Word :=
  s.mem (fr + (SAVEVAL cfg - n))

/-! ## Overflow checks -/

/-- `nondstack_overflow_check()`. -/
def nondstack_overflow_check (cfg : Config) (s : Machine) : Result :=
  if cfg.speed then .ok s
  else if s.maxfr ≥ s.nondstackend then fatal_error "nondstack overflow" s
  else if s.maxfr > s.nondstackmax then .ok { s with nondstackmax := s.maxfr }
  else .ok s

/-- `nondstack_underflow_check()`. -/
def nondstack_underflow_check (cfg : Config) (s : Machine) : Result :=
  if cfg.speed then .ok s
  else if s.maxfr < s.nondstackmin then fatal_error "nondstack underflow" s
  else .ok s

/-- `heap_overflow_check()`. -/
def heap_overflow_check (cfg : Config) (s : Machine) : Result :=
  if cfg.speed then .ok s
  else if s.hp ≥ s.heapend then fatal_error "heap overflow" s
  else if s.hp > s.heapmax then .ok { s with heapmax := s.hp }
  else .ok s

/-- `detstack_overflow_check()`. -/
def detstack_overflow_check (cfg : Config) (s : Machine) : Result :=
  if cfg.speed then .ok s
  else if s.sp ≥ s.detstackend then fatal_error "stack overflow" s
  else if s.sp > s.detstackmax then .ok { s with detstackmax := s.sp }
  else .ok s

/-- `detstack_underflow_check()`. -/
def detstack_underflow_check (cfg : Config) (s : Machine) : Result :=
  if cfg.speed then .ok s
  else if s.sp < s.detstackmin then fatal_error "stack underflow" s
  else .ok s

/-! ## Manipulating the nondet stack -/

/-- `mkframe_save_prednm(prednm)`: `curprednm = prednm` without `SPEED`,
nothing with it. -/
def mkframe_save_prednm (cfg : Config) (prednm : Word) (s : Machine) : Machine :=
  if cfg.speed then s else s.store (s.curfr + PREDNM) prednm

/-- `mkframe(prednm, n, redoip)`. -/
def mkframe (cfg : Config) (prednm : Word) (n : Int) (redoip : Code)
    (s : Machine) : Result :=
  let prevfr := s.maxfr
  let succfr := s.curfr
  let s := { s with maxfr := s.maxfr + (NONDET_FIXED_SIZE cfg + n) }
  let s := { s with curfr := s.maxfr }
  let s := s.store (s.curfr + REDOIP) redoip
  let s := s.store (s.curfr + PREVFR) prevfr
  let s := s.store (s.curfr + SUCCIP) s.succip
  let s := s.store (s.curfr + SUCCFR) succfr
  let s := mkframe_save_prednm cfg prednm s
  nondstack_overflow_check cfg s

/-- `modframe(redoip)`. -/
def modframe (redoip : Code) (s : Machine) : Machine :=
  s.store (s.curfr + REDOIP) redoip

/-- `succeed()`. -/
def succeed (s : Machine) : Machine :=
  let childfr := s.curfr
  let s := { s with curfr := bt_succfr s s.curfr }
  GOTO (bt_succip s childfr) s

/-- `succeed_discard()`. -/
def succeed_discard (s : Machine) : Machine :=
  let childfr := s.curfr
  let s := { s with maxfr := bt_prevfr s s.curfr }
  let s := { s with curfr := bt_succfr s s.curfr }
  GOTO (bt_succip s childfr) s

/-- `fail()`. -/
def fail (cfg : Config) (s : Machine) : Result := do
  let s := { s with maxfr := bt_prevfr s s.curfr }
  let s := { s with curfr := s.maxfr }
  let s ← nondstack_underflow_check cfg s
  pure (GOTO (bt_redoip s s.curfr) s)

/-- `redo()`. -/
def redo (s : Machine) : Machine :=
  let s := { s with curfr := s.maxfr }
  GOTO (bt_redoip s s.curfr) s

/-! ## Calls and returns -/

/-- `call(proc, succ_cont, current_label)`; `PROFILE` and
`set_prof_current_proc` are `((void)0)` without profiling. -/
def call (proc : Code) (succ_cont : Code) (s : Machine) : Machine :=
  let s := { s with succip := succ_cont }
  GOTO proc s

/-- `tailcall(proc, current_label)`. -/
def tailcall (proc : Code) (s : Machine) : Machine :=
  GOTO proc s

/-- `proceed()`. -/
def proceed (s : Machine) : Machine :=
  GOTO s.succip s

/-! ## Manipulating the heap (the branch without `CONSERVATIVE_GC`) -/

/-- `tag_incr_hp(dest,tag,count)`: the first component is the word assigned to
`dest`, the second the machine after `hp += (count)` and the overflow check.
`mkword` comes from `tags.h` and is a parameter. -/
def tag_incr_hp (mkword : Word → Word → Word) (cfg : Config) (tag : Word)
    (count : Int) (s : Machine) : Word × Result :=
  let dest := mkword tag s.hp
  let s := { s with hp := s.hp + count }
  (dest, heap_overflow_check cfg s)

/-- `mark_hp(dest)`: the word assigned to `dest`. -/
def mark_hp (s : Machine) : Word :=
  s.hp

/-- `restore_hp(src)`. -/
def restore_hp (src : Word) (s : Machine) : Machine :=
  { s with hp := src }

/-- A sequence of `tag_incr_hp(dest, tag, count)` calls, given by their
`(tag, count)` pairs; returns the words assigned to the successive `dest`s. -/
def allocate_all (mkword : Word → Word → Word) (cfg : Config) :
    List (Word × Int) → Machine → Except Fatal (List Word × Machine)
  | [], s => .ok ([], s)
  | (tag, count) :: rest, s =>
    match tag_incr_hp mkword cfg tag count s with
    | (dest, .ok s1) =>
      match allocate_all mkword cfg rest s1 with
      | .ok (dests, s2) => .ok (dest :: dests, s2)
      | .error f => .error f
    | (_, .error f) => .error f

/-! ## Manipulating the det stack -/

/-- `detstackvar(n)` read as an rvalue: `sp[-n]`. -/
def detstackvar (s : Machine) (n : Int) : Word :=
  s.mem (s.sp + -n)

/-- The assignment `detstackvar(n) = v` of a word `v`. -/
def set_detstackvar (n : Int) (v : Word) (s : Machine) : Machine :=
  s.store (s.sp + -n) v

/-- `incr_sp(n)`. -/
def incr_sp (cfg : Config) (n : Int) (s : Machine) : Result :=
  let s := { s with sp := s.sp + n }
  detstack_overflow_check cfg s

/-- `decr_sp(n)`. -/
def decr_sp (cfg : Config) (n : Int) (s : Machine) : Result :=
  let s := { s with sp := s.sp - n }
  detstack_underflow_check cfg s

/-- `push(w)`: the store is `*sp = (Word) (w)`. -/
def push (cfg : Config) (w : Int) (s : Machine) : Result :=
  let s := s.store s.sp (to_word w)
  let s := { s with sp := s.sp + 1 }
  detstack_overflow_check cfg s

/-- `pop()`: the value returned is `*sp` after the decrement and the check. -/
def pop (cfg : Config) (s : Machine) : Except Fatal (Word × Machine) :=
  let s := { s with sp := s.sp - 1 }
  match detstack_underflow_check cfg s with
  | .ok s => .ok (s.mem s.sp, s)
  | .error f => .error f

/-- An operation of a det stack sequence. -/
inductive DetOp where
  | push (w : Int)
  | pop
  deriving DecidableEq, Repr

/-- Run a sequence of `push`/`pop`, stopping at the first fatal error; returns
the values of the successive `pop()`s. -/
def run_det (cfg : Config) : List DetOp → Machine → Except Fatal (List Word × Machine)
  | [], s => .ok ([], s)
  | .push w :: ops, s =>
    match push cfg w s with
    | .ok s1 => run_det cfg ops s1
    | .error f => .error f
  | .pop :: ops, s =>
    match pop cfg s with
    | .ok (v, s1) =>
      match run_det cfg ops s1 with
      | .ok (vs, s2) => .ok (v :: vs, s2)
      | .error f => .error f
    | .error f => .error f

/-- The LIFO law in the spec's words: what each `pop` of a sequence must return,
namely "the most recent not-yet-popped pushed value"; `none` for a `pop` that
finds none of the values pushed by the sequence (the law says nothing then).
`pending` holds the arguments of the pushes not yet popped, most recent
first. -/
def lifo_expected : List DetOp → List Int → List (Option Int)
  | [], _ => []
  | .push w :: ops, pending => lifo_expected ops (w :: pending)
  | .pop :: ops, pending => pending.head? :: lifo_expected ops pending.tail

/-- Push the words of a list, first to last, stopping at the first fatal
error. -/
def push_all (cfg : Config) : List Int → Machine → Result
  | [], s => .ok s
  | w :: ws, s =>
    match push cfg w s with
    | .ok s1 => push_all cfg ws s1
    | .error f => .error f

/-- An operation that moves the det stack pointer. -/
inductive SpOp where
  | push (w : Int)
  | pop
  | incr_sp (n : Nat)
  | decr_sp (n : Nat)
  deriving DecidableEq, Repr

/-- Execute one det stack operation (the value of a `pop()` is dropped). -/
def SpOp.exec (cfg : Config) : SpOp → Machine → Result
  | .push w, s => Mercury.push cfg w s
  | .pop, s =>
    match Mercury.pop cfg s with
    | .ok (_, s1) => .ok s1
    | .error f => .error f
  | .incr_sp n, s => Mercury.incr_sp cfg n s
  | .decr_sp n, s => Mercury.decr_sp cfg n s

/-- Run a sequence of det stack operations up to the first fatal error; returns
the value of `sp` after each operation, in order, and the final machine. -/
def run_sp (cfg : Config) : List SpOp → Machine → Except Fatal (List Int × Machine)
  | [], s => .ok ([], s)
  | op :: ops, s =>
    match op.exec cfg s with
    | .ok s1 =>
      match run_sp cfg ops s1 with
      | .ok (sps, s2) => .ok (s1.sp :: sps, s2)
      | .error f => .error f
    | .error f => .error f

/-- The det stack zone invariant `detstackmin <= sp <= detstackmax <=
detstackend`. -/
def zone_ok (s : Machine) : Prop :=
  s.detstackmin ≤ s.sp ∧ s.sp ≤ s.detstackmax ∧ s.detstackmax ≤ s.detstackend

/-- The zone invariant can be decided. -/
instance zone_ok_decidable (s : Machine) : Decidable (zone_ok s) :=
  inferInstanceAs (Decidable (s.detstackmin ≤ s.sp ∧ s.sp ≤ s.detstackmax ∧
    s.detstackmax ≤ s.detstackend))

/-- The three assignments `detstackvar(1) = v1; detstackvar(2) = v2;
detstackvar(3) = v3`. -/
def write_frame3 (v1 v2 v3 : Word) (s : Machine) : Machine :=
  set_detstackvar 3 v3 (set_detstackvar 2 v2 (set_detstackvar 1 v1 s))

/-! ## Traces of nondet stack operations -/

/-- An operation on the nondet stack. -/
inductive NdOp where
  | mkframe (prednm : Word) (n : Nat) (redoip : Code)
  | modframe (redoip : Code)
  | succeed
  | succeed_discard
  | fail
  | redo
  deriving DecidableEq, Repr

/-- Execute one nondet stack operation. -/
def NdOp.exec (cfg : Config) : NdOp → Machine → Result
  | .mkframe prednm n redoip, s => Mercury.mkframe cfg prednm n redoip s
  | .modframe redoip, s => .ok (Mercury.modframe redoip s)
  | .succeed, s => .ok (Mercury.succeed s)
  | .succeed_discard, s => .ok (Mercury.succeed_discard s)
  | .fail, s => Mercury.fail cfg s
  | .redo, s => .ok (Mercury.redo s)

/-- A machine together with the record of frame creations: `born f` is the
value `maxfr` had just before the most recent `mkframe` that created the frame
at address `f`, and `none` when no `mkframe` created a frame there. -/
structure Traced where
  m : Machine
  born : Int → Option Int

/-- Execute one operation and keep the record: only `mkframe` adds to it. -/
def Traced.exec (cfg : Config) (op : NdOp) (t : Traced) : Except Fatal Traced :=
  match op.exec cfg t.m with
  | .ok m1 =>
    match op with
    | .mkframe _ _ _ => .ok ⟨m1, Function.update t.born m1.maxfr (some t.m.maxfr)⟩
    | _ => .ok ⟨m1, t.born⟩
  | .error f => .error f

/-- The operations that leave the frame at `curfr` (`succeed`,
`succeed_discard`, `fail`) are in order only when that frame was created by
`mkframe`; the others always are. -/
def NdOp.in_order (op : NdOp) (t : Traced) : Bool :=
  match op with
  | .succeed | .succeed_discard | .fail => (t.born t.m.curfr).isSome
  | _ => true

/-- Run a trace of operations, each one in order, up to the first fatal
error: `none` when an operation is out of order or raises a fatal error. -/
def Traced.run (cfg : Config) : List NdOp → Traced → Option Traced
  | [], t => some t
  | op :: ops, t =>
    if op.in_order t then
      match t.exec cfg op with
      | .ok t1 => Traced.run cfg ops t1
      | .error _ => none
    else none

/-- Run a trace of operations with no condition on them, up to the first fatal
error. -/
def run_nd (cfg : Config) : List NdOp → Machine → Result
  | [], s => .ok s
  | op :: ops, s =>
    match op.exec cfg s with
    | .ok s1 => run_nd cfg ops s1
    | .error f => .error f

/-- The frames of a chain, topmost first, above the bottom of the stack `base`:
each frame lies at least a header above the one before it, its `prevfr` slot
holds the frame before it (which is what `mkframe` recorded for it), and its
`succfr` slot holds a frame below it. -/
def frame_chain (cfg : Config) (mem : Int → Int) (born : Int → Option Int)
    (base : Int) : Int → List Int → Prop
  | top, [] => top = base
  | top, f :: rest =>
    top = f ∧ born f = some (mem (f + PREVFR)) ∧
    mem (f + PREVFR) + NONDET_FIXED_SIZE cfg ≤ f ∧
    (mem (f + SUCCFR) = base ∨ mem (f + SUCCFR) ∈ rest) ∧
    frame_chain cfg mem born base (mem (f + PREVFR)) rest

/-- A well-formed frame chain: the frames from `maxfr` down to `base` form a
chain, `curfr` is one of them or `base`, and no `mkframe` created `base`. -/
structure WellFormed (cfg : Config) (t : Traced) (base : Int) (frames : List Int) :
    Prop where
  chain : frame_chain cfg t.m.mem t.born base t.m.maxfr frames
  cur : t.m.curfr = base ∨ t.m.curfr ∈ frames
  base_unborn : t.born base = none

/-! ## `MR_setjmp` and `MR_longjmp` (`runtime/mercury_engine.h`)

`setjmp(env)` saves the C calling environment in `env` and returns 0;
`longjmp(env, 1)` resumes at that `setjmp`, which then returns 1.  All the model
keeps of the saved environment is the `MR_setjmp` site to resume at, named by
the `longjmp_label` of that site.  `MR_IF_USE_TRAIL(x)` (from
`mercury_context.h`) is `x` when the trail is in use and nothing otherwise. -/

/-- The Mercury state `MR_setjmp` deals with: the engine's `MR_eng_jmp_buf`, the
special registers, the real machine registers, and the label control is at. -/
structure Engine where
  MR_eng_jmp_buf : Word
  MR_succip : Word
  MR_sp : Word
  MR_curfr : Word
  MR_maxfr : Word
  MR_trail_ptr : Word
  MR_ticket_counter : Word
  MR_ticket_high_water : Word
  real_regs : List Word
  pc : Code

/-- The structure `MR_jmp_buf`. -/
structure MR_jmp_buf where
  mercury_env : Word
  env : Code
  saved_succip : Word
  saved_sp : Word
  saved_curfr : Word
  saved_maxfr : Word
  saved_trail_ptr : Word
  saved_ticket_counter : Word
  saved_ticket_high_water : Word
  regs : List Word

/-- The macros `MR_save_regs_to_mem` and `MR_restore_regs_from_mem`, which are
defined outside `mercury_engine.h`, as parameters. -/
structure RegMacros where
  MR_save_regs_to_mem : Engine → List Word
  MR_restore_regs_from_mem : List Word → Engine → Engine

/-- `MR_setjmp(setjmp_env, longjmp_label)` on the direct path, where `setjmp`
returns 0: the buffer as filled in, and the engine, which falls through. -/
def MR_setjmp (rm : RegMacros) (use_trail : Bool) (setjmp_env : MR_jmp_buf)
    (longjmp_label : Code) (e : Engine) : MR_jmp_buf × Engine :=
  let b := { setjmp_env with mercury_env := e.MR_eng_jmp_buf }
  let b := { b with regs := rm.MR_save_regs_to_mem e }
  let b := { b with saved_succip := e.MR_succip }
  let b := { b with saved_sp := e.MR_sp }
  let b := { b with saved_curfr := e.MR_curfr }
  let b := { b with saved_maxfr := e.MR_maxfr }
  let b := if use_trail then { b with saved_trail_ptr := e.MR_trail_ptr } else b
  let b := if use_trail then { b with saved_ticket_counter := e.MR_ticket_counter } else b
  let b := if use_trail then { b with saved_ticket_high_water := e.MR_ticket_high_water }
    else b
  let b := { b with env := longjmp_label }
  (b, e)

/-- `MR_longjmp(setjmp_env)`, that is `longjmp((setjmp_env)->env, 1)`: control
resumes in the `MR_setjmp` that filled `setjmp_env`, whose `setjmp` now returns
1, so that the body of its `if` runs. -/
def MR_longjmp (rm : RegMacros) (use_trail : Bool) (setjmp_env : MR_jmp_buf)
    (e : Engine) : Engine :=
  let e := { e with MR_eng_jmp_buf := setjmp_env.mercury_env }
  let e := rm.MR_restore_regs_from_mem setjmp_env.regs e
  let e := { e with MR_succip := setjmp_env.saved_succip }
  let e := { e with MR_sp := setjmp_env.saved_sp }
  let e := { e with MR_curfr := setjmp_env.saved_curfr }
  let e := { e with MR_maxfr := setjmp_env.saved_maxfr }
  let e := if use_trail then { e with MR_trail_ptr := setjmp_env.saved_trail_ptr } else e
  let e := if use_trail then { e with MR_ticket_counter := setjmp_env.saved_ticket_counter }
    else e
  let e := if use_trail then
    { e with MR_ticket_high_water := setjmp_env.saved_ticket_high_water } else e
  { e with pc := setjmp_env.env }

/-- Register macros that copy the real machine registers to the save area and
back. -/
def copy_regs : RegMacros where
  MR_save_regs_to_mem := fun e => e.real_regs
  MR_restore_regs_from_mem := fun regs e => { e with real_regs := regs }

/-- A sample engine state. -/
def sample_engine : Engine :=
  ⟨1, 2, 3, 4, 5, 6, 7, 8, [9, 10], 11⟩

/-- Another sample engine state, different in every field. -/
def other_engine : Engine :=
  ⟨21, 22, 23, 24, 25, 26, 27, 28, [29], 31⟩

/-- An `MR_jmp_buf` holding zeros. -/
def empty_jmp_buf : MR_jmp_buf :=
  ⟨0, 0, 0, 0, 0, 0, 0, 0, 0, []⟩

/-! ## The command line of the debugger (`trace/mercury_trace_internal.c`)

A line is a C string: the list of its characters, none of them NUL, with the
terminating NUL left implicit.  `char_at` reads the terminator at and after the
end of the list, and storing a NUL over the terminator changes nothing.
Positions are natural numbers (lines are shorter than `INT_MAX`).  Each loop
takes a bound on its number of iterations, one more than the length of the
line, and yields `none` if that bound is ever reached; `MR_fatal_error` ends
the run with its message.  `MR_isspace` comes from outside the file and is the
parameter `isspace`. -/

/-- The character NUL. -/
def NUL : Char := Char.ofNat 0

/-- `MR_MDB_QUOTE_CHAR`, the quote character (code 39). -/
def MR_MDB_QUOTE_CHAR : Char := Char.ofNat 39

/-- `MR_MDB_ESCAPE_CHAR`, the backslash (code 92). -/
def MR_MDB_ESCAPE_CHAR : Char := Char.ofNat 92

/-- Modelled from the spec: `MR_fatal_error` is defined outside the file; like
`fatal_error` it raises "a fatal, unrecoverable error (process abort with a
descriptive message)": the run ends with the message. -/
def MR_fatal_error {α : Type} (msg : String) : Except String α :=
  .error msg

/-- The read `line[i]`. -/
def char_at (line : List Char) (i : Nat) : Char :=
  line.getD i NUL

/-- The string at `line + off`: the characters from `off` up to the first
NUL. -/
def cstring (line : List Char) (off : Nat) : List Char :=
  (line.drop off).takeWhile fun c => c != NUL

/-- The loop of `MR_trace_break_off_one_word`; it yields the line, `char_pos`,
`lag`, `quoted` and `another` with which the loop is left. -/
def break_off_loop (isspace : Char → Bool) :
    Nat → List Char → Nat → Nat → Bool →
      Option (Except String (List Char × Nat × Nat × Bool × Bool))
  | 0, _, _, _, _ => none
  | fuel + 1, line, char_pos, lag, quoted =>
    if char_at line char_pos = NUL then
      some (.ok (line, char_pos, lag, quoted, false))
    else if !quoted && isspace (char_at line char_pos) then
      some (.ok (line, char_pos, lag, quoted, true))
    else if char_at line char_pos = MR_MDB_QUOTE_CHAR then
      break_off_loop isspace fuel line (char_pos + 1) (lag + 1) (!quoted)
    else if char_at line char_pos = MR_MDB_ESCAPE_CHAR then
      if char_at line (char_pos + 1) = NUL then
        some (MR_fatal_error "MR_trace_break_off_one_word: unhandled backslash")
      else
        break_off_loop isspace fuel
          (line.set (char_pos + 1 - (lag + 1)) (char_at line (char_pos + 1)))
          (char_pos + 1 + 1) (lag + 1) quoted
    else
      break_off_loop isspace fuel
        (if lag ≠ 0 then line.set (char_pos - lag) (char_at line char_pos) else line)
        (char_pos + 1) lag quoted

/-- `MR_trace_break_off_one_word(line, char_pos)`: the line as overwritten and
the value returned. -/
def MR_trace_break_off_one_word (isspace : Char → Bool) (line : List Char)
    (char_pos : Nat) : Option (Except String (List Char × Nat)) :=
  match break_off_loop isspace (line.length + 1) line char_pos 0 false with
  | none => none
  | some (.error msg) => some (.error msg)
  | some (.ok (line, char_pos, lag, quoted, another)) =>
    if quoted then
      some (MR_fatal_error "MR_trace_break_off_one_word: unmatched quote")
    else
      let line := line.set (char_pos - lag) NUL
      let char_pos := if another then char_pos + 1 else char_pos
      some (.ok (line, char_pos))

/-- The loop of `MR_trace_break_into_words` that skips spaces: it advances
`char_pos` while `line[char_pos]` is not NUL and is a space. -/
def skip_spaces (isspace : Char → Bool) : Nat → List Char → Nat → Option Nat
  | 0, _, _ => none
  | fuel + 1, line, char_pos =>
    if char_at line char_pos ≠ NUL ∧ isspace (char_at line char_pos) = true then
      skip_spaces isspace fuel line (char_pos + 1)
    else some char_pos

/-- The loop of `MR_trace_break_into_words`.  `words` holds the slots filled so
far, as offsets into the line; `MR_ensure_big_enough` makes room for slot
`token_number`, the first one not yet filled. -/
def break_into_words_loop (isspace : Char → Bool) :
    Nat → List Char → List Nat → Nat → Nat →
      Option (Except String (List Char × List Nat × Nat))
  | 0, _, _, _, _ => none
  | fuel + 1, line, words, token_number, char_pos =>
    match skip_spaces isspace (line.length + 1) line char_pos with
    | none => none
    | some char_pos =>
      if char_at line char_pos = NUL then
        some (.ok (line, words, token_number))
      else
        let words := words ++ [char_pos]
        match MR_trace_break_off_one_word isspace line char_pos with
        | none => none
        | some (.error msg) => some (.error msg)
        | some (.ok (line, char_pos)) =>
          break_into_words_loop isspace fuel line words (token_number + 1) char_pos

/-- `MR_trace_break_into_words(line, words_ptr, word_max_ptr)`: the line as
overwritten, the offsets stored in `*words_ptr`, and the value returned. -/
def MR_trace_break_into_words (isspace : Char → Bool) (line : List Char) :
    Option (Except String (List Char × List Nat × Nat)) :=
  break_into_words_loop isspace (line.length + 1) line [] 0 0

/-- The words a run of `MR_trace_break_into_words` leaves: the strings at the
offsets stored, read from the line as overwritten. -/
def words_left : Option (Except String (List Char × List Nat × Nat)) → Option (List (List Char))
  | some (.ok (line, words, _)) => some (words.map (cstring line))
  | _ => none

/-- The white-space characters of C's `isspace` in the C locale: space, and
tab to carriage return. -/
def c_isspace (c : Char) : Bool :=
  c.toNat = 32 || (9 ≤ c.toNat && c.toNat ≤ 13)

/-- The maximal runs of non-space characters of a line, left to right; `cur` is
the run being read. -/
def runs (isspace : Char → Bool) : List Char → List Char → List (List Char)
  | [], cur => if cur.isEmpty then [] else [cur]
  | c :: cs, cur =>
    if isspace c then
      if cur.isEmpty then runs isspace cs [] else cur :: runs isspace cs []
    else runs isspace cs (cur ++ [c])

/-- The number of unescaped quote characters of a line; `escaped` tells that
the character before was an escaping backslash. -/
def unescaped_quotes : List Char → Bool → Nat
  | [], _ => 0
  | _ :: cs, true => unescaped_quotes cs false
  | c :: cs, false =>
    if c = MR_MDB_ESCAPE_CHAR then unescaped_quotes cs true
    else if c = MR_MDB_QUOTE_CHAR then unescaped_quotes cs false + 1
    else unescaped_quotes cs false

/-- A source token with its unescaped quote characters and its escaping
backslashes removed, every other character kept in order. -/
def unquote : List Char → Bool → List Char
  | [], _ => []
  | c :: cs, true => c :: unquote cs false
  | c :: cs, false =>
    if c = MR_MDB_ESCAPE_CHAR then unquote cs true
    else if c = MR_MDB_QUOTE_CHAR then unquote cs false
    else c :: unquote cs false

/-- The source tokens of a line: a token ends only at an unquoted, unescaped
space (or at the end of the line), and spaces between tokens belong to none.
`cur` is the token being read, if one is; `quoted` and `escaped` tell whether
the reading is inside quotes, and right after an escaping backslash. -/
def source_tokens (isspace : Char → Bool) :
    List Char → Option (List Char) → Bool → Bool → List (List Char)
  | [], none, _, _ => []
  | [], some t, _, _ => [t]
  | c :: cs, cur, quoted, true =>
    source_tokens isspace cs (some (cur.getD [] ++ [c])) quoted false
  | c :: cs, cur, quoted, false =>
    if c = MR_MDB_ESCAPE_CHAR then
      source_tokens isspace cs (some (cur.getD [] ++ [c])) quoted true
    else if c = MR_MDB_QUOTE_CHAR then
      source_tokens isspace cs (some (cur.getD [] ++ [c])) (!quoted) false
    else if isspace c && !quoted then
      match cur with
      | none => source_tokens isspace cs none quoted false
      | some t => t :: source_tokens isspace cs none quoted false
    else source_tokens isspace cs (some (cur.getD [] ++ [c])) quoted false

/-- What the loop of `MR_trace_break_off_one_word` does to the characters not
yet read, as a function on lists: the characters kept, the characters left
unread, and `quoted` at the end; `escaped` tells that the character before was
an escaping backslash. -/
def scan_word (isspace : Char → Bool) :
    List Char → Bool → Bool → Except String (List Char × List Char × Bool)
  | [], quoted, escaped =>
    if escaped then .error "MR_trace_break_off_one_word: unhandled backslash"
    else .ok ([], [], quoted)
  | c :: cs, quoted, true =>
    match scan_word isspace cs quoted false with
    | .ok (w, r, q) => .ok (c :: w, r, q)
    | .error msg => .error msg
  | c :: cs, quoted, false =>
    if !quoted && isspace c then .ok ([], c :: cs, quoted)
    else if c = MR_MDB_QUOTE_CHAR then scan_word isspace cs (!quoted) false
    else if c = MR_MDB_ESCAPE_CHAR then scan_word isspace cs quoted true
    else
      match scan_word isspace cs quoted false with
      | .ok (w, r, q) => .ok (c :: w, r, q)
      | .error msg => .error msg

/-- What the loop of `MR_trace_break_into_words` does to the characters not yet
read, as a function on lists: the words, in order. -/
def words_of (isspace : Char → Bool) : Nat → List Char → Except String (List (List Char))
  | 0, _ => .ok []
  | fuel + 1, rest =>
    match rest.dropWhile isspace with
    | [] => .ok []
    | c :: cs =>
      match scan_word isspace (c :: cs) false false with
      | .error msg => .error msg
      | .ok (w, r, q) =>
        if q then .error "MR_trace_break_off_one_word: unmatched quote"
        else
          match words_of isspace fuel r.tail with
          | .ok ws => .ok (w :: ws)
          | .error msg => .error msg

/-- A sample command line without quote or backslash. -/
def plain_line : List Char :=
  "  step  10 now ".toList

/-- A sample command line with quotes and escapes: the characters of
`print 'a b'c\ d  x\'y ''`. -/
def quoted_line : List Char :=
  "print ".toList ++ [MR_MDB_QUOTE_CHAR] ++ "a b".toList ++ [MR_MDB_QUOTE_CHAR] ++
    "c".toList ++ [MR_MDB_ESCAPE_CHAR] ++ " d  x".toList ++
    [MR_MDB_ESCAPE_CHAR, MR_MDB_QUOTE_CHAR] ++ "y ".toList ++
    [MR_MDB_QUOTE_CHAR, MR_MDB_QUOTE_CHAR]

/-! ## Commands that carry a number (`MR_trace_parse_line`)

The words array holds `char *` values, which point into the line or into the
static array `count_buf`.  `MR_isdigit` and `MR_trace_is_natural_number` come
from outside the file and are the parameters `isdigit` and
`is_natural_number`; the latter yields the number it stores through its second
argument when it returns true. -/

/-- `MR_NUMBER_LEN`, "an upper bound on the maximum number of characters in a
number": the size of `count_buf`. -/
def MR_NUMBER_LEN : Nat := 80

/-- A `char *` held in the words array: it points into the line, or into the
static array `count_buf`. -/
inductive WordPtr
  | in_line (off : Nat)
  | in_count_buf (off : Nat)
deriving DecidableEq, Repr, Inhabited

/-- The pointer `s + 1`. -/
def WordPtr.advance : WordPtr → WordPtr
  | .in_line off => .in_line (off + 1)
  | .in_count_buf off => .in_count_buf (off + 1)

/-- The read `*s`. -/
def deref (line count_buf : List Char) : WordPtr → Char
  | .in_line off => char_at line off
  | .in_count_buf off => char_at count_buf off

/-- The string a word pointer points to. -/
def word_string (line count_buf : List Char) : WordPtr → List Char
  | .in_line off => cstring line off
  | .in_count_buf off => cstring count_buf off

/-- The conversion of an `int` to an eight-bit `char`, as the assignment to
`char raw_word_count` makes it: modulo 256, into -128..127 where `char` is a
signed type and into 0..255 where it is not. -/
def to_char (char_signed : Bool) (n : Int) : Int :=
  if char_signed then (n + 128) % 256 - 128 else n % 256

/-- The store `raw_words[k] = p`.  The slot after the last one filled is the
one `MR_ensure_big_enough` makes room for. -/
def store_word (raw_words : List WordPtr) (k : Nat) (p : WordPtr) : List WordPtr :=
  if k < raw_words.length then raw_words.set k p else raw_words ++ [p]

/-- The loop `for (i = raw_word_count; i > 0; i--) raw_words[i] = raw_words[i-1]`,
entered with the given `i`. -/
def shift_words : Nat → List WordPtr → List WordPtr
  | 0, raw_words => raw_words
  | i + 1, raw_words =>
    shift_words i (store_word raw_words (i + 1) (raw_words.getD i default))

/-- The loop of `MR_trace_parse_line` that copies the digits at `s` into
`count_buf`.  `stores` lists the indices of `count_buf` stored to so far, in
order; a store outside the array is listed and leaves the array as it is.  The
loop yields `count_buf` and `stores` as it leaves them, with `i` and `s`, or
with the message returned from inside it. -/
def copy_digits (isdigit : Char → Bool) (line : List Char) :
    Nat → List Char → List Nat → Nat → WordPtr →
      Option (List Char × List Nat × Except String (Nat × WordPtr))
  | 0, _, _, _, _ => none
  | fuel + 1, count_buf, stores, i, s =>
    if isdigit (deref line count_buf s) then
      if MR_NUMBER_LEN ≤ i then some (count_buf, stores, .error "too large a number")
      else
        copy_digits isdigit line fuel (count_buf.set i (deref line count_buf s))
          (stores ++ [i]) (i + 1) s.advance
    else some (count_buf, stores, .ok (i, s))

/-- What a call of `MR_trace_parse_line` leaves: the line and `count_buf` as
overwritten, the indices of `count_buf` stored to, in order, and the value
returned: an error message, or NULL together with `*words` and `*word_count`. -/
structure Parsed where
  line : List Char
  count_buf : List Char
  stores : List Nat
  returned : Except String (List WordPtr × Int)

/-- The first `if` of `MR_trace_parse_line`, which separates a number prefix
of the first word: `count_buf` and the stores into it, and the words array and
`raw_word_count` as left, or the message returned. -/
def separate_number (char_signed : Bool) (isdigit : Char → Bool)
    (line count_buf : List Char) (raw_words : List WordPtr) (raw_word_count : Int) :
    Option (List Char × List Nat × Except String (List WordPtr × Int)) :=
  if 0 < raw_word_count ∧ isdigit (deref line count_buf (raw_words.getD 0 default)) = true then
    match copy_digits isdigit line (MR_NUMBER_LEN + 1) count_buf [] 0
        (raw_words.getD 0 default) with
    | none => none
    | some (count_buf, stores, .error msg) => some (count_buf, stores, .error msg)
    | some (count_buf, stores, .ok (i, s)) =>
      let count_buf := count_buf.set i NUL
      let stores := stores ++ [i]
      if deref line count_buf s ≠ NUL then
        let raw_words := shift_words raw_word_count.toNat raw_words
        let raw_words := store_word raw_words 0 (.in_count_buf 0)
        let raw_words := store_word raw_words 1 s
        some (count_buf, stores, .ok (raw_words, to_char char_signed (raw_word_count + 1)))
      else some (count_buf, stores, .ok (raw_words, raw_word_count))
  else some (count_buf, [], .ok (raw_words, raw_word_count))

/-- The second `if` of `MR_trace_parse_line`, which exchanges the first two
words when the first is a number and the second is not. -/
def exchange_number (is_natural_number : List Char → Option Int)
    (line count_buf : List Char) (raw_words : List WordPtr) (raw_word_count : Int) :
    List WordPtr :=
  if 1 < raw_word_count
      ∧ (is_natural_number (word_string line count_buf (raw_words.getD 0 default))).isSome = true
      ∧ (is_natural_number (word_string line count_buf (raw_words.getD 1 default))).isSome
          = false
  then
    store_word (store_word raw_words 0 (raw_words.getD 1 default)) 1 (raw_words.getD 0 default)
  else raw_words

/-- `MR_trace_parse_line(line, words, word_max, word_count)`.  `char_signed`
tells whether `char` is a signed type, and `count_buf` is the static array as
the call finds it.  The outer `Except` is a fatal error of
`MR_trace_break_into_words`. -/
def MR_trace_parse_line (char_signed : Bool) (isspace isdigit : Char → Bool)
    (is_natural_number : List Char → Option Int) (count_buf line : List Char) :
    Option (Except String Parsed) :=
  match MR_trace_break_into_words isspace line with
  | none => none
  | some (.error msg) => some (.error msg)
  | some (.ok (line, offs, n)) =>
    match separate_number char_signed isdigit line count_buf
        (offs.map WordPtr.in_line) (to_char char_signed n) with
    | none => none
    | some (count_buf, stores, .error msg) =>
      some (.ok ⟨line, count_buf, stores, .error msg⟩)
    | some (count_buf, stores, .ok (raw_words, raw_word_count)) =>
      some (.ok ⟨line, count_buf, stores,
        .ok (exchange_number is_natural_number line count_buf raw_words raw_word_count,
          raw_word_count)⟩)

/-- The words a call of `MR_trace_parse_line` returns with NULL: the strings
the entries of `*words` point to, and `*word_count`. -/
def words_returned : Option (Except String Parsed) → Option (List (List Char) × Int)
  | some (.ok ⟨line, count_buf, _, .ok (words, word_count)⟩) =>
    some (words.map (word_string line count_buf), word_count)
  | _ => none

/-- The message a call of `MR_trace_parse_line` returns, if it returns one. -/
def message_returned : Option (Except String Parsed) → Option String
  | some (.ok ⟨_, _, _, .error msg⟩) => some msg
  | _ => none

/-- The indices of `count_buf` a call of `MR_trace_parse_line` stores to. -/
def stores_made : Option (Except String Parsed) → Option (List Nat)
  | some (.ok p) => some p.stores
  | _ => none

/-- The decimal digits of C's `isdigit`. -/
def c_isdigit (c : Char) : Bool :=
  48 ≤ c.toNat && c.toNat ≤ 57

/-- A recogniser of natural numbers for the examples: the non-empty words of
decimal digits, with their value. -/
def natural_number (w : List Char) : Option Int :=
  if !w.isEmpty && w.all c_isdigit then
    some (w.foldl (fun n c => n * 10 + (c.toNat - 48 : Nat)) (0 : Int))
  else none

/-! ## Lines that continue (`MR_trace_continue_line`) -/

/-- What a call of `MR_trace_continue_line` leaves: the line as overwritten,
`*quoted`, the line handed to `MR_insert_line_at_head` if one is, and the value
returned. -/
structure Continued where
  line : List Char
  quoted : Bool
  inserted : Option (List Char)
  returned : Bool
deriving DecidableEq, Repr

/-- The loop of `MR_trace_continue_line` with the statements after it. -/
def continue_loop : Nat → List Char → Nat → Bool → Bool → Option Continued
  | 0, _, _, _, _ => none
  | fuel + 1, line, ptr, quoted, escaped =>
    if char_at line ptr ≠ NUL then
      if escaped then
        continue_loop fuel line (ptr + 1) quoted false
      else if char_at line ptr = MR_MDB_ESCAPE_CHAR then
        continue_loop fuel line (ptr + 1) quoted true
      else if char_at line ptr = MR_MDB_QUOTE_CHAR then
        continue_loop fuel line (ptr + 1) (!quoted) false
      else if !quoted && char_at line ptr = ';' then
        some ⟨line.set ptr NUL, quoted, some (cstring line (ptr + 1)), false⟩
      else
        continue_loop fuel line (ptr + 1) quoted false
    else
      some ⟨if escaped then line.set (ptr - 1) ' ' else line, quoted, none, quoted || escaped⟩

/-- `MR_trace_continue_line(ptr, quoted)` on a line, `ptr` pointing at its
start. -/
def MR_trace_continue_line (line : List Char) (quoted : Bool) : Option Continued :=
  continue_loop (line.length + 1) line 0 quoted false

/-- Whether a line contains an unquoted, unescaped semicolon; `quoted` and
`escaped` tell whether the reading is inside quotes, and right after an
escaping backslash. -/
def has_open_semicolon : List Char → Bool → Bool → Bool
  | [], _, _ => false
  | _ :: cs, quoted, true => has_open_semicolon cs quoted false
  | c :: cs, quoted, false =>
    if c = MR_MDB_ESCAPE_CHAR then has_open_semicolon cs quoted true
    else if c = MR_MDB_QUOTE_CHAR then has_open_semicolon cs (!quoted) false
    else if !quoted && c = ';' then true
    else has_open_semicolon cs quoted false

/-- Whether the last character of a line is an unescaped backslash; `escaped`
tells that the character before was an escaping backslash. -/
def ends_in_open_backslash : List Char → Bool → Bool
  | [], escaped => escaped
  | _ :: cs, true => ends_in_open_backslash cs false
  | c :: cs, false => ends_in_open_backslash cs (c = MR_MDB_ESCAPE_CHAR)

/-- Whether the end of a line is inside quotes, for a line entered with the
flag `quoted`: the flag, toggled once for each unescaped quote character. -/
def ends_inside_quotes (line : List Char) (quoted : Bool) : Bool :=
  if unescaped_quotes line false % 2 = 1 then !quoted else quoted

/-! ## The `retry` command (`MR_trace_cmd_retry`) -/

/-- `MR_Next`. -/
inductive MR_Next
  | KEEP_INTERACTING
  | STOP_INTERACTING
deriving DecidableEq, Repr

/-- `MR_Retry_Across_Io`. -/
inductive MR_Retry_Across_Io
  | MR_RETRY_IO_FORCE
  | MR_RETRY_IO_INTERACTIVE
  | MR_RETRY_IO_ONLY_IF_SAFE
deriving DecidableEq, Repr

/-- `MR_Retry_Result`. -/
inductive MR_Retry_Result
  | MR_RETRY_OK_DIRECT
  | MR_RETRY_OK_FINISH_FIRST
  | MR_RETRY_OK_FAIL_FIRST
  | MR_RETRY_ERROR
deriving DecidableEq, Repr

/-- The values of `MR_trace_cmd` that `MR_trace_cmd_retry` stores. -/
inductive MR_Trace_Cmd_Type
  | MR_CMD_GOTO
  | MR_CMD_FINISH
  | MR_CMD_FAIL
deriving DecidableEq, Repr

/-- The fields of `MR_Trace_Cmd_Info` that `MR_trace_cmd_retry` stores to. -/
structure MR_Trace_Cmd_Info where
  MR_trace_cmd : Option MR_Trace_Cmd_Type
  MR_trace_stop_event : Int
  MR_trace_stop_depth : Int
  MR_trace_strict : Bool
  MR_trace_print_level : Int
deriving DecidableEq, Repr

/-- What `MR_trace_cmd_retry` reads from outside itself: whether the port of
the event is an entry port (`MR_port_is_entry`), the call depth of the event,
`MR_trace_event_number`, the two print levels, the problem and result of
`MR_trace_retry` for an ancestor level and options, and the value that a read
of an `int` never assigned yields. -/
structure RetryContext where
  port_is_entry : Bool
  MR_call_depth : Int
  MR_trace_event_number : Int
  MR_default_print_level : Int
  MR_PRINT_LEVEL_NONE : Int
  MR_trace_retry : Int → MR_Retry_Across_Io → Bool → MR_Retry_Result × String
  indeterminate : Int

/-- What a run of `MR_trace_cmd_retry` does: the value returned, `*cmd`, the
lines printed on `MR_mdb_err`, the lines handed to `MR_insert_line_at_head`,
the arguments of the call of `MR_trace_retry` if it is called, and whether
`ancestor_level` was read without ever having been assigned. -/
structure RetryRun where
  returned : MR_Next
  cmd : MR_Trace_Cmd_Info
  printed : List String
  inserted : List String
  retry_called : Option (Int × MR_Retry_Across_Io × Bool)
  read_unassigned : Bool
deriving DecidableEq, Repr

/-- The line `MR_trace_usage(cat, item)` prints on `MR_mdb_err`; "cat is unused
now". -/
def MR_trace_usage (_cat item : String) : String :=
  "mdb: " ++ item ++ ": usage error -- type " ++ String.mk [Char.ofNat 96] ++ "help "
    ++ item ++ String.mk [MR_MDB_QUOTE_CHAR] ++ " for help."

/-- The line `MR_trace_do_noop()` prints on `MR_mdb_err`. -/
def MR_trace_do_noop : String :=
  "This command is a no-op from this port."

/-- The loop of `MR_trace_options_retry` over the values `MR_getopt_long`
returns before `EOF`: whether every option was one of `a`, `f`, `i`, `o`, and
the options as set when the loop is left. -/
def options_retry_loop : List Char → MR_Retry_Across_Io → Bool →
    Bool × MR_Retry_Across_Io × Bool
  | [], across_io, assume_all_io_is_tabled => (true, across_io, assume_all_io_is_tabled)
  | c :: cs, across_io, assume_all_io_is_tabled =>
    if c = 'a' then options_retry_loop cs across_io true
    else if c = 'f' then options_retry_loop cs .MR_RETRY_IO_FORCE assume_all_io_is_tabled
    else if c = 'i' then options_retry_loop cs .MR_RETRY_IO_INTERACTIVE assume_all_io_is_tabled
    else if c = 'o' then options_retry_loop cs .MR_RETRY_IO_ONLY_IF_SAFE assume_all_io_is_tabled
    else (false, across_io, assume_all_io_is_tabled)

/-- `MR_trace_options_retry`.  `MR_getopt_long` comes from outside the file:
`getopt` gives the values it returns before `EOF` on the words, and the value
of `MR_optind` it leaves.  The result is the value returned (false after the
usage message was printed), with `*across_io`, `*assume_all_io_is_tabled`,
`*words` and `*word_count` as left. -/
def MR_trace_options_retry (getopt : List (List Char) → List Char × Nat)
    (across_io : MR_Retry_Across_Io) (assume_all_io_is_tabled : Bool)
    (words : List (List Char)) (word_count : Int) :
    Bool × MR_Retry_Across_Io × Bool × List (List Char) × Int :=
  match options_retry_loop (getopt words).1 across_io assume_all_io_is_tabled with
  | (false, across_io, assume_all_io_is_tabled) =>
    (false, across_io, assume_all_io_is_tabled, words, word_count)
  | (true, across_io, assume_all_io_is_tabled) =>
    (true, across_io, assume_all_io_is_tabled, words.drop ((getopt words).2 - 1),
      word_count - (getopt words).2 + 1)

/-- `MR_trace_cmd_retry(words, word_count, cmd, event_info, event_details,
jumpaddr)`.  The local `ancestor_level` is `none` until it is assigned. -/
def MR_trace_cmd_retry (getopt : List (List Char) → List Char × Nat)
    (is_natural_number : List Char → Option Int) (ctx : RetryContext)
    (words : List (List Char)) (word_count : Int) (cmd : MR_Trace_Cmd_Info) : RetryRun :=
  let parsed : Except RetryRun (Option Int × List String × MR_Retry_Across_Io × Bool) :=
    match MR_trace_options_retry getopt .MR_RETRY_IO_INTERACTIVE false words word_count with
    | (false, across_io, assume_all_io_is_tabled, _, _) =>
      -- the usage message has already been printed
      .ok (none, [MR_trace_usage "backward" "retry"], across_io, assume_all_io_is_tabled)
    | (true, across_io, assume_all_io_is_tabled, words, word_count) =>
      if word_count = 2 ∧ (is_natural_number (words.getD 1 [])).isSome = true then
        .ok (is_natural_number (words.getD 1 []), [], across_io, assume_all_io_is_tabled)
      else if word_count = 1 then
        .ok (some 0, [], across_io, assume_all_io_is_tabled)
      else
        .error ⟨.KEEP_INTERACTING, cmd, [MR_trace_usage "backward" "retry"], [], none, false⟩
  match parsed with
  | .error run => run
  | .ok (assigned, printed, across_io, assume_all_io_is_tabled) =>
    let ancestor_level := assigned.getD ctx.indeterminate
    let read_unassigned := assigned.isNone
    if ancestor_level = 0 ∧ ctx.port_is_entry = true then
      ⟨.KEEP_INTERACTING, cmd, printed ++ [MR_trace_do_noop], [],
        none, read_unassigned⟩
    else
      let called := some (ancestor_level, across_io, assume_all_io_is_tabled)
      match ctx.MR_trace_retry ancestor_level across_io assume_all_io_is_tabled with
      | (.MR_RETRY_OK_DIRECT, _) =>
        ⟨.STOP_INTERACTING,
          { cmd with
            MR_trace_cmd := some .MR_CMD_GOTO
            MR_trace_stop_event := ctx.MR_trace_event_number + 1
            MR_trace_strict := false
            MR_trace_print_level := ctx.MR_default_print_level },
          printed, [], called, read_unassigned⟩
      | (.MR_RETRY_OK_FINISH_FIRST, _) =>
        ⟨.STOP_INTERACTING,
          { cmd with
            MR_trace_cmd := some .MR_CMD_FINISH
            MR_trace_stop_depth := ctx.MR_call_depth - ancestor_level
            MR_trace_strict := true
            MR_trace_print_level := ctx.MR_PRINT_LEVEL_NONE },
          printed, ["retry -o"], called, read_unassigned⟩
      | (.MR_RETRY_OK_FAIL_FIRST, _) =>
        ⟨.STOP_INTERACTING,
          { cmd with
            MR_trace_cmd := some .MR_CMD_FAIL
            MR_trace_stop_depth := ctx.MR_call_depth - ancestor_level
            MR_trace_strict := true
            MR_trace_print_level := ctx.MR_PRINT_LEVEL_NONE },
          printed, ["retry -o"], called, read_unassigned⟩
      | (.MR_RETRY_ERROR, problem) =>
        ⟨.KEEP_INTERACTING, cmd, printed ++ [problem], [], called, read_unassigned⟩

/-- A stand-in for `MR_getopt_long` in the examples: the words after the first
that start with `-` are options of one letter each, up to the first word that
does not. -/
def sample_getopt (words : List (List Char)) : List Char × Nat :=
  let opts := (words.drop 1).takeWhile fun w => w.head? = some '-'
  (opts.map fun w => w.getD 1 '?', opts.length + 1)

/-- A context for the examples: an event at an entry port or not, at depth 5,
where `MR_trace_retry` succeeds directly. -/
def sample_context (port_is_entry : Bool) (indeterminate : Int) : RetryContext where
  port_is_entry := port_is_entry
  MR_call_depth := 5
  MR_trace_event_number := 100
  MR_default_print_level := 1
  MR_PRINT_LEVEL_NONE := 0
  MR_trace_retry := fun _ _ _ => (.MR_RETRY_OK_DIRECT, "")
  indeterminate := indeterminate

/-- A `*cmd` for the examples. -/
def sample_cmd : MR_Trace_Cmd_Info := ⟨none, 0, 0, false, 0⟩

/-! ## The variables of the current point (`trace/mercury_trace_vars.c`)

An `int` is 32 bits wide; `int_of` is the conversion of a result to `int`.
Names are the lists of their characters. -/

/-- `MR_ProgVarDetails`. -/
structure MR_ProgVarDetails where
  MR_var_fullname : List Char
  MR_var_basename : List Char
  MR_var_num_suffix : Int
  MR_var_has_suffix : Bool
  MR_var_is_headvar : Int
  MR_var_is_ambiguous : Bool
  MR_var_hlds_number : Int
  MR_var_seq_num_in_label : Int
deriving DecidableEq, Repr, Inhabited

/-- `MR_AttributeDetails`; `MR_attr_num` is an `unsigned`. -/
structure MR_AttributeDetails where
  MR_attr_num : Nat
  MR_attr_name : List Char
deriving DecidableEq, Repr, Inhabited

/-- `MR_ValueKind`: `MR_VALUE_ATTRIBUTE` is 0 and `MR_VALUE_PROG_VAR` is 1. -/
inductive MR_ValueKind
  | MR_VALUE_ATTRIBUTE
  | MR_VALUE_PROG_VAR
deriving DecidableEq, Repr, Inhabited

/-- The value of an enumeration constant of `MR_ValueKind`. -/
def MR_ValueKind.toInt : MR_ValueKind → Int
  | .MR_VALUE_ATTRIBUTE => 0
  | .MR_VALUE_PROG_VAR => 1

/-- `MR_ValueDetails`.  The two members of the union `MR_KindDetails` are kept
side by side; the one that `MR_value_kind` does not name holds whatever it
holds. -/
structure MR_ValueDetails where
  MR_value_kind : MR_ValueKind
  MR_value_var : MR_ProgVarDetails
  MR_value_attr : MR_AttributeDetails
  MR_value_type : Int
  MR_value_value : Int
deriving DecidableEq, Repr, Inhabited

/-- The conversion of an integer result to a 32-bit `int`. -/
def int_of (x : Int) : Int :=
  (x + 2 ^ 31) % 2 ^ 32 - 2 ^ 31

/-- C's `strcmp` on two strings: 0 for equal strings, and otherwise the
difference of the character codes at the first place where they differ, the
terminating NUL counting as code 0. -/
def strcmp : List Char → List Char → Int
  | [], [] => 0
  | [], c :: _ => -(c.toNat : Int)
  | c :: _, [] => (c.toNat : Int)
  | a :: as, b :: bs => if a = b then strcmp as bs else (a.toNat : Int) - (b.toNat : Int)

/-- `MR_trace_compare_attr_details(attr1, attr2)`: the difference of two
`unsigned` numbers, returned as an `int`. -/
def MR_trace_compare_attr_details (attr1 attr2 : MR_AttributeDetails) : Int :=
  int_of (((attr1.MR_attr_num : Int) - (attr2.MR_attr_num : Int)) % 2 ^ 32)

/-- `MR_trace_compare_var_details(var1, var2)`. -/
def MR_trace_compare_var_details (var1 var2 : MR_ProgVarDetails) : Int :=
  if var1.MR_var_is_headvar ≠ 0 ∧ var2.MR_var_is_headvar ≠ 0 then
    int_of (var1.MR_var_is_headvar - var2.MR_var_is_headvar)
  else if var1.MR_var_is_headvar ≠ 0 ∧ ¬ var2.MR_var_is_headvar ≠ 0 then -1
  else if ¬ var1.MR_var_is_headvar ≠ 0 ∧ var2.MR_var_is_headvar ≠ 0 then 1
  else if strcmp var1.MR_var_basename var2.MR_var_basename ≠ 0 then
    strcmp var1.MR_var_basename var2.MR_var_basename
  else if var1.MR_var_has_suffix = true ∧ var2.MR_var_has_suffix = false then -1
  else if var1.MR_var_has_suffix = false ∧ var2.MR_var_has_suffix = true then 1
  else if int_of (var1.MR_var_num_suffix - var2.MR_var_num_suffix) ≠ 0 then
    int_of (var1.MR_var_num_suffix - var2.MR_var_num_suffix)
  else int_of (var1.MR_var_hlds_number - var2.MR_var_hlds_number)

/-- `MR_trace_compare_value_details(arg1, arg2)`. -/
def MR_trace_compare_value_details (value1 value2 : MR_ValueDetails) : Int :=
  if value1.MR_value_kind ≠ value2.MR_value_kind then
    value1.MR_value_kind.toInt - value2.MR_value_kind.toInt
  else
    match value1.MR_value_kind with
    | .MR_VALUE_ATTRIBUTE =>
      MR_trace_compare_attr_details value1.MR_value_attr value2.MR_value_attr
    | .MR_VALUE_PROG_VAR =>
      MR_trace_compare_var_details value1.MR_value_var value2.MR_value_var

/-- The sign of a result of a comparison function: negative, zero or
positive. -/
def sign_of (r : Int) : Ordering :=
  compare r 0

/-- The documented order of two suffixes within one basename: numerically
increasing, "with any variable sharing the same name but without a numeric
suffix coming out last". -/
def suffix_order (var1 var2 : MR_ProgVarDetails) : Ordering :=
  match var1.MR_var_has_suffix, var2.MR_var_has_suffix with
  | true, true => compare var1.MR_var_num_suffix var2.MR_var_num_suffix
  | true, false => .lt
  | false, true => .gt
  | false, false => .eq

/-- The documented order of two program variables: head variables first, in
argument order; the others on basename in `strcmp` order, then on suffix, then
on HLDS number. -/
def documented_var_order (var1 var2 : MR_ProgVarDetails) : Ordering :=
  match decide (var1.MR_var_is_headvar = 0), decide (var2.MR_var_is_headvar = 0) with
  | false, false => compare var1.MR_var_is_headvar var2.MR_var_is_headvar
  | false, true => .lt
  | true, false => .gt
  | true, true =>
    ((sign_of (strcmp var1.MR_var_basename var2.MR_var_basename)).then
      (suffix_order var1 var2)).then
      (compare var1.MR_var_hlds_number var2.MR_var_hlds_number)

/-- The documented order of two values: attributes before program variables,
attributes on attribute number, variables as `documented_var_order` has it. -/
def documented_order (value1 value2 : MR_ValueDetails) : Ordering :=
  match value1.MR_value_kind, value2.MR_value_kind with
  | .MR_VALUE_ATTRIBUTE, .MR_VALUE_PROG_VAR => .lt
  | .MR_VALUE_PROG_VAR, .MR_VALUE_ATTRIBUTE => .gt
  | .MR_VALUE_ATTRIBUTE, .MR_VALUE_ATTRIBUTE =>
    compare value1.MR_value_attr.MR_attr_num value2.MR_value_attr.MR_attr_num
  | .MR_VALUE_PROG_VAR, .MR_VALUE_PROG_VAR =>
    documented_var_order value1.MR_value_var value2.MR_value_var

/-- The values `MR_trace_set_level_from_layout` builds: an attribute number is
a loop index held in an `int`; an argument number is 0 or counts from 1; a
suffix is the value of a run of digits, and -1 where there is none; an HLDS
number is not negative. -/
def MR_ValueDetails.built (v : MR_ValueDetails) : Prop :=
  match v.MR_value_kind with
  | .MR_VALUE_ATTRIBUTE => v.MR_value_attr.MR_attr_num < 2 ^ 31
  | .MR_VALUE_PROG_VAR =>
    0 ≤ v.MR_value_var.MR_var_is_headvar ∧ v.MR_value_var.MR_var_is_headvar < 2 ^ 31 ∧
    (if v.MR_value_var.MR_var_has_suffix = true then
      0 ≤ v.MR_value_var.MR_var_num_suffix ∧ v.MR_value_var.MR_var_num_suffix < 2 ^ 31
    else v.MR_value_var.MR_var_num_suffix = -1) ∧
    0 ≤ v.MR_value_var.MR_var_hlds_number ∧ v.MR_value_var.MR_var_hlds_number < 2 ^ 31

instance built_decidable (v : MR_ValueDetails) : Decidable v.built := by
  unfold MR_ValueDetails.built
  split <;> infer_instance

/-- The library function `qsort` with a comparison function: the array sorted
so that no entry compares greater than a later one (here by insertion). -/
def qsort (compar : MR_ValueDetails → MR_ValueDetails → Int) (base : List MR_ValueDetails) :
    List MR_ValueDetails :=
  base.insertionSort fun a b => compar a b ≤ 0

/-- The store `vars[k].MR_value_var.MR_var_is_ambiguous = MR_TRUE`. -/
def set_ambiguous (vars : List MR_ValueDetails) (k : Nat) : List MR_ValueDetails :=
  vars.set k
    { vars.getD k default with
      MR_value_var := { (vars.getD k default).MR_value_var with MR_var_is_ambiguous := true } }

/-- One turn of the loop of `MR_trace_set_level_from_layout` that drops the
repeated variables and marks the ambiguous names, for the index `i`: the array
and `slot` as left. -/
def mark_step (state : List MR_ValueDetails × Nat) (i : Nat) : List MR_ValueDetails × Nat :=
  if (state.1.getD i default).MR_value_var.MR_var_hlds_number
      = (state.1.getD (i - 1) default).MR_value_var.MR_var_hlds_number then
    state
  else
    let vars := state.1.set state.2 (state.1.getD i default)
    let vars :=
      if (vars.getD state.2 default).MR_value_var.MR_var_fullname
          = (vars.getD (state.2 - 1) default).MR_value_var.MR_var_fullname then
        set_ambiguous (set_ambiguous vars (state.2 - 1)) state.2
      else vars
    (vars, state.2 + 1)

/-- The last part of `MR_trace_set_level_from_layout`, from `slot_max = slot`
after the loops that fill the slots: `vars` holds the `slot_max` slots filled,
the attributes, `attr_count` of them, before the variables, each variable with
`MR_var_is_ambiguous` false.  It yields the array as left and the value stored
in `MR_point_var_count`. -/
def MR_trace_set_level_from_layout (attr_count : Nat) (vars : List MR_ValueDetails) :
    List MR_ValueDetails × Nat :=
  if 0 < vars.length then
    (List.range' (attr_count + 1) (vars.length - (attr_count + 1))).foldl mark_step
      (qsort MR_trace_compare_value_details vars, attr_count + 1)
  else (vars, vars.length)

/-- The variables of `MR_point` after the call: the first `MR_point_var_count`
entries of the array. -/
def point_vars (r : List MR_ValueDetails × Nat) : List MR_ValueDetails :=
  r.1.take r.2

/-- A program variable as the loop over the variables fills its slot: the
name `basename` followed by the digits of `suffix` if there is one, the
argument number, the HLDS number. -/
def sample_var (basename : String) (suffix : Option Nat) (is_headvar hlds_number : Nat) :
    MR_ValueDetails where
  MR_value_kind := .MR_VALUE_PROG_VAR
  MR_value_var :=
    { MR_var_fullname := basename.toList ++ (suffix.elim [] fun n => (Nat.repr n).toList)
      MR_var_basename := basename.toList
      MR_var_num_suffix := suffix.elim (-1) fun n => (n : Int)
      MR_var_has_suffix := suffix.isSome
      MR_var_is_headvar := is_headvar
      MR_var_is_ambiguous := false
      MR_var_hlds_number := hlds_number
      MR_var_seq_num_in_label := hlds_number }
  MR_value_attr := default
  MR_value_type := 0
  MR_value_value := 0

/-- An attribute as the loop over the attributes fills its slot. -/
def sample_attr (num : Nat) (name : String) : MR_ValueDetails where
  MR_value_kind := .MR_VALUE_ATTRIBUTE
  MR_value_var := default
  MR_value_attr := ⟨num, name.toList⟩
  MR_value_type := 0
  MR_value_value := 0

/-- The slots for the head variables `X` and `Y` (arguments 1 and 2) and a
variable of the body that is also named `X`. -/
def shadowed_vars : List MR_ValueDetails :=
  [sample_var "X" none 0 3, sample_var "Y" none 2 2, sample_var "X" none 1 1]

/-- The slots for the head variable `X` and a variable of the body that is also
named `X`. -/
def adjacent_vars : List MR_ValueDetails :=
  [sample_var "X" none 0 3, sample_var "X" none 1 1]

/-- The static array `count_buf` as the program starts: all NUL. -/
def blank_count_buf : List Char :=
  List.replicate MR_NUMBER_LEN NUL

/-- A command line whose first word is a number and a command run together. -/
def numbered_line : List Char :=
  "10step now".toList

/-- A command line whose first word is a number. -/
def number_first_line : List Char :=
  "10 step now".toList

/-- A command line whose first word is 81 digits and a command run together. -/
def long_number_line : List Char :=
  List.replicate 81 '7' ++ "step".toList

/-- A command line of one word of 80 digits. -/
def eighty_digits : List Char :=
  List.replicate 80 '7'

/-- A command line of 256 words of one letter, a space after each. -/
def many_words : List Char :=
  (List.replicate 256 ['a', ' ']).flatten

/-- A line that ends inside quotes, with a semicolon in the quotes: the
characters of `print 'a;b`. -/
def open_quote_line : List Char :=
  "print ".toList ++ [MR_MDB_QUOTE_CHAR] ++ "a;b".toList

/-! ## Concrete machines -/

/-- The diagnostic configuration (`SPEED` not defined). -/
def diag : Config := ⟨false⟩

/-- The configuration with `SPEED` defined. -/
def fast : Config := ⟨true⟩

/-- A machine with empty stacks and heap: the heap is `[1000, 2000)`, the det
stack `[0, 50)`, the nondet stack `[100, 200)`; every word of memory holds
`fill`. -/
def blank (fill : Word) : Machine where
  mem := fun _ => fill
  succip := 11
  sp := 0
  hp := 1000
  maxfr := 100
  curfr := 100
  pc := 0
  heapmax := 1000
  heapend := 2000
  detstackmin := 0
  detstackmax := 0
  detstackend := 50
  nondstackmin := 100
  nondstackmax := 100
  nondstackend := 200

/-- The blank machine after `mkframe(0, 0, 99)`: one frame, at 105, whose
`redoip` is 99. -/
def one_frame : Machine :=
  (mkframe diag 0 0 99 (blank 0)).final

/-- The machine `one_frame` after `mkframe(0, 2, 7)`: a second frame, at 112,
nested under the first. -/
def two_frames : Machine :=
  (mkframe diag 0 2 7 one_frame).final

/-- The label control is transferred to, when the operation returns. -/
def control (r : Result) : Option Code :=
  r.toOption.map fun s => s.pc

/-- The message of the fatal error an operation ends in, if it does. -/
def fatal_message {α : Type} : Except Fatal α → Option String
  | .ok _ => none
  | .error f => some f.msg

/-- A sample sequence of det stack operations. -/
def sample_det_ops : List DetOp :=
  [.push 5, .push 6, .pop, .push 7, .pop, .pop]

/-- A sequence that pushes two integers that are not values of `Word`, -1 and
`2 ^ 32 + 5`. -/
def wide_det_ops : List DetOp :=
  [.push (-1), .push 4294967301, .pop, .pop]

/-- A sample `mkword`: the tag in the low two bits of a four-byte-aligned
address. -/
def sample_mkword (tag p : Word) : Word :=
  4 * p + tag

/-- The blank machine with a det stack zone of one word: `detstackend` is
`detstackmin + 1`. -/
def one_word_stack : Machine :=
  { blank 0 with detstackend := 1 }

/-- The blank machine with an empty creation record. -/
def blank_traced (fill : Word) : Traced :=
  ⟨blank fill, fun _ => none⟩

/-- The state a trace of operations in order ends in (the starting state if it
does not run to its end). -/
def Traced.after (cfg : Config) (ops : List NdOp) (t : Traced) : Traced :=
  (Traced.run cfg ops t).getD t

/-- A sample trace: two nested frames, then `succeed()` out of the inner one. -/
def sample_trace : List NdOp :=
  [.mkframe 0 0 99, .mkframe 0 2 7, .succeed]

/-- The machine after the heap overflow checks of allocations of 2 and of 3
words on the blank machine. -/
def after_allocs : Machine :=
  { blank 0 with hp := 1005, heapmax := 1005 }

/-- A sample sequence of operations moving `sp`. -/
def sample_sp_ops : List SpOp :=
  [.incr_sp 3, .push 7, .pop, .decr_sp 2, .push 8]

/-! # Theorems -/

/-- What a returning `mkframe` leaves behind. -/
theorem mkframe_ok {cfg : Config} {prednm : Word} {n : Int} {R : Code} {s s1 : Machine}
    (h : mkframe cfg prednm n R s = .ok s1) :
    s1.maxfr = s.maxfr + (NONDET_FIXED_SIZE cfg + n) ∧
    s1.curfr = s1.maxfr ∧
    s1.mem s1.maxfr = R ∧
    s1.mem (s1.maxfr + PREVFR) = s.maxfr ∧
    s1.mem (s1.maxfr + SUCCIP) = s.succip ∧
    s1.mem (s1.maxfr + SUCCFR) = s.curfr ∧
    (∀ a, a + NONDET_FIXED_SIZE cfg ≤ s1.maxfr → s1.mem a = s.mem a) ∧
    s1.succip = s.succip ∧ s1.nondstackmin = s.nondstackmin ∧
    s1.nondstackend = s.nondstackend ∧
    (cfg.speed = true ∨ s1.maxfr < s.nondstackend) := by
  rcases cfg with ⟨_ | _⟩ <;>
    simp only [mkframe, nondstack_overflow_check, mkframe_save_prednm, fatal_error,
      Machine.store, NONDET_FIXED_SIZE, REDOIP, PREVFR, SUCCIP, SUCCFR, PREDNM,
      Bool.false_eq_true, if_true, if_false] at h ⊢ <;>
    (try split_ifs at h) <;>
    simp only [Except.ok.injEq, reduceCtorEq] at h <;>
    subst h <;> dsimp only <;>
    refine ⟨rfl, rfl, ?_, ?_, ?_, ?_, ?_, rfl, rfl, rfl, ?_⟩ <;>
    (try intro a ha) <;>
    (try simp only [Function.update_apply]) <;>
    (try split_ifs) <;>
    first | rfl | omega | simp

/-- A `mkframe` that does not reach `nondstackend` returns. -/
theorem mkframe_returns (cfg : Config) (prednm : Word) (n : Int) (R : Code) (s : Machine)
    (hov : cfg.speed = true ∨ s.maxfr + (NONDET_FIXED_SIZE cfg + n) < s.nondstackend) :
    ∃ s1, mkframe cfg prednm n R s = .ok s1 := by
  rcases cfg with ⟨_ | _⟩
  · have hlt : ¬ s.maxfr + (5 + n) ≥ s.nondstackend := by
      simpa [NONDET_FIXED_SIZE] using hov
    simp only [mkframe, nondstack_overflow_check, mkframe_save_prednm, Machine.store,
      NONDET_FIXED_SIZE, Bool.false_eq_true, if_false, hlt]
    split_ifs <;> exact ⟨_, rfl⟩
  · exact ⟨_, rfl⟩

/-- The state a `fail()` that does not underflow returns. -/
theorem fail_ok (cfg : Config) (s : Machine)
    (h : cfg.speed = true ∨ s.nondstackmin ≤ s.mem (s.curfr + PREVFR)) :
    fail cfg s = .ok { s with
      maxfr := s.mem (s.curfr + PREVFR)
      curfr := s.mem (s.curfr + PREVFR)
      pc := s.mem (s.mem (s.curfr + PREVFR) + REDOIP) } := by
  by_cases hs : cfg.speed = true
  · simp [fail, nondstack_underflow_check, hs, GOTO, bt_redoip, bt_prevfr, bind, Except.bind,
      pure, Except.pure]
  · have hlt : ¬ s.mem (s.curfr + PREVFR) < s.nondstackmin := not_lt.mpr (h.resolve_left hs)
    simp [fail, nondstack_underflow_check, hs, hlt, GOTO, bt_redoip, bt_prevfr, bind,
      Except.bind, pure, Except.pure]

/-- A value of `Word` is kept by the conversion to `Word`. -/
theorem to_word_of_word (w : Int) (h0 : 0 ≤ w) (h1 : w < 2 ^ 32) : to_word w = w := by
  unfold to_word
  exact Int.emod_eq_of_lt h0 h1

/-- A returning `push` stores the word at the old `sp` and moves `sp` up by
one. -/
theorem push_ok {cfg : Config} {w : Int} {s s1 : Machine} (h : push cfg w s = .ok s1) :
    s1.sp = s.sp + 1 ∧ s1.mem = Function.update s.mem s.sp (to_word w) ∧
    s1.detstackmin = s.detstackmin ∧ s1.detstackend = s.detstackend ∧
    (cfg.speed = true ∨ s.sp + 1 < s.detstackend) := by
  rcases cfg with ⟨_ | _⟩ <;>
    simp only [push, detstack_overflow_check, fatal_error, Machine.store,
      Bool.false_eq_true, if_true, if_false] at h ⊢ <;>
    (try split_ifs at h) <;>
    simp only [Except.ok.injEq, reduceCtorEq] at h <;>
    subst h <;> dsimp only <;>
    refine ⟨rfl, rfl, rfl, rfl, ?_⟩ <;>
    first | (right; omega) | simp

/-- A `push` that stays below `detstackend` returns. -/
theorem push_returns (cfg : Config) (w : Int) (s : Machine)
    (h : cfg.speed = true ∨ s.sp + 1 < s.detstackend) :
    ∃ s1, push cfg w s = .ok s1 := by
  rcases cfg with ⟨_ | _⟩
  · have hlt : ¬ s.sp + 1 ≥ s.detstackend := by simpa using h
    simp only [push, detstack_overflow_check, Machine.store, Bool.false_eq_true, if_false, hlt]
    split_ifs <;> exact ⟨_, rfl⟩
  · exact ⟨_, rfl⟩

/-- A returning `pop` moves `sp` down by one and returns the word now at
`sp`. -/
theorem pop_ok {cfg : Config} {v : Word} {s s1 : Machine} (h : pop cfg s = .ok (v, s1)) :
    s1.sp = s.sp - 1 ∧ s1.mem = s.mem ∧ v = s.mem (s.sp - 1) ∧
    s1.detstackmin = s.detstackmin ∧ s1.detstackend = s.detstackend := by
  rcases cfg with ⟨_ | _⟩ <;>
    simp only [pop, detstack_underflow_check, fatal_error,
      Bool.false_eq_true, if_true, if_false] at h <;>
    (try split_ifs at h) <;>
    simp only [Except.ok.injEq, reduceCtorEq, Prod.mk.injEq] at h <;>
    obtain ⟨hv, hs⟩ := h <;>
    subst hs <;> subst hv <;>
    exact ⟨rfl, rfl, rfl, rfl, rfl⟩

/-- A `pop` that stays at or above `detstackmin` returns. -/
theorem pop_returns (cfg : Config) (s : Machine)
    (h : cfg.speed = true ∨ s.detstackmin ≤ s.sp - 1) :
    ∃ s1, pop cfg s = .ok (s.mem (s.sp - 1), s1) := by
  rcases cfg with ⟨_ | _⟩
  · have hlt : ¬ s.sp - 1 < s.detstackmin := by simpa using h
    simp only [pop, detstack_underflow_check, Bool.false_eq_true, if_false, hlt]
    exact ⟨_, rfl⟩
  · exact ⟨_, rfl⟩

/-- The LIFO law with values pending on entry: if the words below `sp` are the
pending values converted to `Word`, most recent on top, every `pop` returns the
expected value converted to `Word`. -/
theorem run_det_lifo (cfg : Config) (ops : List DetOp) :
    ∀ (s : Machine) (pending : List Int) (vs : List Word) (s1 : Machine),
      (∀ (i : Nat) (w : Int), pending[i]? = some w → s.mem (s.sp - 1 - i) = to_word w) →
      run_det cfg ops s = .ok (vs, s1) →
      List.Forall₂ (fun v e => ∀ w, e = some w → v = to_word w) vs
        (lifo_expected ops pending) := by
  induction ops with
  | nil =>
    intro s pending vs s1 _ h
    simp only [run_det, Except.ok.injEq, Prod.mk.injEq] at h
    rw [← h.1]
    exact List.Forall₂.nil
  | cons op ops ih =>
    intro s pending vs s1 hinv h
    cases op with
    | push w =>
      simp only [run_det] at h
      cases hp : push cfg w s with
      | error f => simp [hp] at h
      | ok s2 =>
        simp only [hp] at h
        obtain ⟨hsp, hmem, -⟩ := push_ok hp
        refine ih s2 (w :: pending) vs s1 ?_ h
        intro i v hi
        rw [hsp, hmem]
        cases i with
        | zero =>
          simp only [List.getElem?_cons_zero, Option.some.injEq] at hi
          have e : s.sp + 1 - 1 - ((0 : Nat) : Int) = s.sp := by omega
          rw [e, Function.update_same, hi]
        | succ j =>
          simp only [List.getElem?_cons_succ] at hi
          have hne : s.sp + 1 - 1 - ((j + 1 : Nat) : Int) ≠ s.sp := by omega
          rw [Function.update_noteq hne]
          have := hinv j v hi
          rw [← this]; congr 1; omega
    | pop =>
      simp only [run_det] at h
      cases hp : pop cfg s with
      | error f => simp [hp] at h
      | ok r =>
        obtain ⟨v, s2⟩ := r
        simp only [hp] at h
        obtain ⟨hsp, hmem, hv, -⟩ := pop_ok hp
        cases hr : run_det cfg ops s2 with
        | error f => simp [hr] at h
        | ok r2 =>
          obtain ⟨vs2, s3⟩ := r2
          simp only [hr, Except.ok.injEq, Prod.mk.injEq] at h
          rw [← h.1]
          simp only [lifo_expected]
          refine List.Forall₂.cons ?_ (ih s2 pending.tail vs2 s3 ?_ hr)
          · intro w hw
            have := hinv 0 w (by simpa [List.head?_eq_getElem?] using hw)
            rw [hv, ← this]; congr 1; omega
          · intro i w hi
            have := hinv (i + 1) w (by simpa [List.getElem?_tail] using hi)
            rw [hsp, hmem, ← this]; congr 1; push_cast; omega

/-- Under `SPEED` no check aborts: every sequence of `push`/`pop` returns. -/
theorem run_det_returns (ops : List DetOp) :
    ∀ s : Machine, ∃ vs s1, run_det fast ops s = .ok (vs, s1) := by
  induction ops with
  | nil => intro s; exact ⟨_, _, rfl⟩
  | cons op ops ih =>
    intro s
    cases op with
    | push w =>
      obtain ⟨vs, s1, h⟩ := ih (push fast w s).final
      exact ⟨vs, s1, by simpa [run_det, push, detstack_overflow_check, fast, Result.final] using h⟩
    | pop =>
      obtain ⟨vs, s1, h⟩ := ih { s with sp := s.sp - 1 }
      refine ⟨s.mem (s.sp - 1) :: vs, s1, ?_⟩
      simp only [run_det, pop, detstack_underflow_check, fast, if_true]
      simp only [fast] at h
      rw [h]

/-- The heap overflow check changes `heapmax` at most. -/
theorem heap_overflow_check_ok {cfg : Config} {s s1 : Machine}
    (h : heap_overflow_check cfg s = .ok s1) :
    s1 = { s with heapmax := s1.heapmax } := by
  rcases cfg with ⟨_ | _⟩ <;>
    simp only [heap_overflow_check, fatal_error, Bool.false_eq_true, if_true, if_false] at h <;>
    (try split_ifs at h) <;>
    simp only [Except.ok.injEq, reduceCtorEq] at h <;>
    subst h <;> rfl

/-- A returning sequence of allocations changes `hp` and `heapmax` at most. -/
theorem allocate_all_ok (mkword : Word → Word → Word) (cfg : Config)
    (allocs : List (Word × Int)) :
    ∀ (s : Machine) (dests : List Word) (s1 : Machine),
      allocate_all mkword cfg allocs s = .ok (dests, s1) →
      s1 = { s with hp := s1.hp, heapmax := s1.heapmax } := by
  induction allocs with
  | nil =>
    intro s dests s1 h
    simp only [allocate_all, Except.ok.injEq, Prod.mk.injEq] at h
    rw [← h.2]
  | cons a rest ih =>
    intro s dests s1 h
    obtain ⟨tag, count⟩ := a
    simp only [allocate_all, tag_incr_hp] at h
    cases hc : heap_overflow_check cfg { s with hp := s.hp + count } with
    | error f => simp [hc] at h
    | ok s2 =>
      simp only [hc] at h
      cases hr : allocate_all mkword cfg rest s2 with
      | error f => simp [hr] at h
      | ok r =>
        obtain ⟨ds, s3⟩ := r
        simp only [hr, Except.ok.injEq, Prod.mk.injEq] at h
        have h3 := ih s2 ds s3 hr
        have h2 := heap_overflow_check_ok hc
        rw [← h.2, h3, h2]

/-- Pushing `ws` then `w` is pushing `ws`, then pushing `w` if that returned. -/
theorem push_all_append (cfg : Config) (ws : List Int) (w : Int) :
    ∀ s : Machine, push_all cfg (ws ++ [w]) s =
      match push_all cfg ws s with
      | .ok s1 => push cfg w s1
      | .error f => .error f := by
  induction ws with
  | nil =>
    intro s
    simp only [List.nil_append, push_all]
    cases push cfg w s <;> rfl
  | cons v ws ih =>
    intro s
    simp only [List.cons_append, push_all]
    cases push cfg v s with
    | error f => rfl
    | ok s1 => exact ih s1

/-- Pushes that stay below `detstackend` all return. -/
theorem push_all_returns (cfg : Config) (ws : List Int) :
    ∀ s : Machine, s.sp + ws.length < s.detstackend →
      ∃ s1, push_all cfg ws s = .ok s1 ∧ s1.sp = s.sp + ws.length ∧
        s1.detstackend = s.detstackend := by
  induction ws with
  | nil => intro s _; exact ⟨s, rfl, by simp, rfl⟩
  | cons v ws ih =>
    intro s h
    simp only [List.length_cons, Nat.cast_add, Nat.cast_one] at h
    obtain ⟨s1, h1⟩ := push_returns cfg v s (Or.inr (by omega))
    obtain ⟨hsp, -, -, hend, -⟩ := push_ok h1
    obtain ⟨s2, h2, hsp2, hend2⟩ := ih s1 (by rw [hsp, hend]; omega)
    refine ⟨s2, ?_, ?_, ?_⟩
    · simp only [push_all, h1]; exact h2
    · rw [hsp2, hsp]; simp only [List.length_cons, Nat.cast_add, Nat.cast_one]; omega
    · rw [hend2, hend]

/-- Without `SPEED`, a `push` that brings `sp` to `detstackend` or beyond raises
the fatal stack overflow. -/
theorem push_overflows (w : Int) (s : Machine) (h : s.detstackend ≤ s.sp + 1) :
    fatal_message (push diag w s) = some "stack overflow" := by
  have hge : s.sp + 1 ≥ s.detstackend := h
  simp [push, detstack_overflow_check, diag, Machine.store, hge, fatal_error, fatal_message]

/-- The frame header is at least four words. -/
theorem nondet_fixed_size_ge (cfg : Config) : 4 ≤ NONDET_FIXED_SIZE cfg := by
  unfold NONDET_FIXED_SIZE; split_ifs <;> omega

/-- The top of a chain is its first frame, or `base` when it has none. -/
theorem frame_chain_top {cfg : Config} {mem : Int → Int} {born : Int → Option Int}
    {base top : Int} {frames : List Int}
    (h : frame_chain cfg mem born base top frames) : top = base ∨ top ∈ frames := by
  cases frames with
  | nil => exact Or.inl h
  | cons f rest => exact Or.inr (by rw [h.1]; exact List.mem_cons_self _ _)

/-- The frames of a chain lie above `base` and at or below its top. -/
theorem frame_chain_bounds {cfg : Config} {mem : Int → Int} {born : Int → Option Int}
    {base : Int} (frames : List Int) :
    ∀ top, frame_chain cfg mem born base top frames →
      base ≤ top ∧ ∀ f ∈ frames, base < f ∧ f ≤ top := by
  induction frames with
  | nil =>
    intro top h
    exact ⟨le_of_eq h.symm, fun f hf => absurd hf (List.not_mem_nil f)⟩
  | cons g rest ih =>
    intro top h
    obtain ⟨htop, -, hgap, -, hrest⟩ := h
    obtain ⟨hb, hall⟩ := ih _ hrest
    have hsz := nondet_fixed_size_ge cfg
    refine ⟨by omega, ?_⟩
    intro f hf
    rcases List.mem_cons.mp hf with hfg | hfr
    · subst hfg; exact ⟨by omega, by omega⟩
    · obtain ⟨h1, h2⟩ := hall f hfr
      exact ⟨h1, by omega⟩

/-- A chain only depends on the `prevfr` and `succfr` slots of its frames and on
their creation records. -/
theorem frame_chain_congr {cfg : Config} {mem mem1 : Int → Int}
    {born born1 : Int → Option Int} {base : Int} (frames : List Int) :
    ∀ top, (∀ f ∈ frames, mem1 (f + PREVFR) = mem (f + PREVFR) ∧
        mem1 (f + SUCCFR) = mem (f + SUCCFR) ∧ born1 f = born f) →
      frame_chain cfg mem born base top frames →
      frame_chain cfg mem1 born1 base top frames := by
  induction frames with
  | nil => intro top _ h; exact h
  | cons g rest ih =>
    intro top hsame h
    obtain ⟨htop, hb, hgap, hs, hrest⟩ := h
    obtain ⟨hp, hsf, hbn⟩ := hsame g (List.mem_cons_self _ _)
    refine ⟨htop, by rw [hbn, hp]; exact hb, by rw [hp]; exact hgap, by rw [hsf]; exact hs, ?_⟩
    rw [hp]
    exact ih _ (fun f hf => hsame f (List.mem_cons_of_mem _ hf)) hrest

/-- Below a frame of a chain there is a chain again, starting at the frame its
`prevfr` slot holds. -/
theorem frame_chain_mem {cfg : Config} {mem : Int → Int} {born : Int → Option Int}
    {base : Int} (frames : List Int) :
    ∀ top, frame_chain cfg mem born base top frames → ∀ f ∈ frames,
      ∃ rest, (∀ x ∈ rest, x ∈ frames) ∧
        frame_chain cfg mem born base (mem (f + PREVFR)) rest ∧
        born f = some (mem (f + PREVFR)) ∧
        mem (f + PREVFR) + NONDET_FIXED_SIZE cfg ≤ f ∧
        (mem (f + SUCCFR) = base ∨ mem (f + SUCCFR) ∈ rest) ∧ f ≤ top := by
  induction frames with
  | nil => intro top _ f hf; exact absurd hf (List.not_mem_nil f)
  | cons g rest ih =>
    intro top h f hf
    obtain ⟨htop, hb, hgap, hs, hrest⟩ := h
    rcases List.mem_cons.mp hf with hfg | hfr
    · subst hfg
      exact ⟨rest, fun x hx => List.mem_cons_of_mem _ hx, hrest, hb, hgap, hs, by omega⟩
    · obtain ⟨r, hsub, hch, hbn, hg, hsf, hle⟩ := ih _ hrest f hfr
      have hsz := nondet_fixed_size_ge cfg
      exact ⟨r, fun x hx => List.mem_cons_of_mem _ (hsub x hx), hch, hbn, hg, hsf, by omega⟩

/-- No frame of a chain, nor `base`, is the `prevfr` or `succfr` slot of a frame
of the chain. -/
theorem frame_chain_apart {cfg : Config} {mem : Int → Int} {born : Int → Option Int}
    {base : Int} (frames : List Int) :
    ∀ top, frame_chain cfg mem born base top frames → ∀ f ∈ frames,
      ∀ a, (a = base ∨ a ∈ frames) → a ≠ f + PREVFR ∧ a ≠ f + SUCCFR := by
  induction frames with
  | nil => intro top _ f hf; exact absurd hf (List.not_mem_nil f)
  | cons g rest ih =>
    intro top h f hf a ha
    obtain ⟨htop, hb, hgap, hs, hrest⟩ := h
    obtain ⟨hbase, hall⟩ := frame_chain_bounds rest _ hrest
    have hsz := nondet_fixed_size_ge cfg
    simp only [PREVFR, SUCCFR] at *
    rcases List.mem_cons.mp hf with hfg | hfr
    · subst hfg
      rcases ha with ha | ha
      · subst ha; exact ⟨by omega, by omega⟩
      · rcases List.mem_cons.mp ha with hag | har
        · subst hag; exact ⟨by omega, by omega⟩
        · have := (hall a har).2
          exact ⟨by omega, by omega⟩
    · have hfle := (hall f hfr).2
      rcases ha with ha | ha
      · exact ih _ hrest f hfr a (Or.inl ha)
      · rcases List.mem_cons.mp ha with hag | har
        · subst hag; exact ⟨by omega, by omega⟩
        · exact ih _ hrest f hfr a (Or.inr har)

/-- One operation in order, executed on a well-formed chain without a fatal
error, leaves a well-formed chain on the same base and moves `maxfr` as
claimed. -/
theorem wellformed_step (cfg : Config) (t t1 : Traced) (base : Int) (frames : List Int)
    (op : NdOp) (hwf : WellFormed cfg t base frames) (hin : op.in_order t = true)
    (hex : t.exec cfg op = .ok t1) :
    (∃ frames1, WellFormed cfg t1 base frames1) ∧
    ((op ≠ .fail ∧ op ≠ .succeed_discard) → t.m.maxfr ≤ t1.m.maxfr) ∧
    ((∀ p n r, op ≠ .mkframe p n r) → t1.m.maxfr ≤ t.m.maxfr) ∧
    ((op = .fail ∨ op = .succeed_discard) →
      t1.m.maxfr < t.m.maxfr ∧ t.born t.m.curfr = some t1.m.maxfr) := by
  obtain ⟨hchain, hcur, hbase⟩ := hwf
  obtain ⟨hble, hall⟩ := frame_chain_bounds frames _ hchain
  have hsz := nondet_fixed_size_ge cfg
  have hcurmem : ∀ b, t.born t.m.curfr = some b → t.m.curfr ∈ frames := by
    intro b hb
    rcases hcur with hc | hc
    · rw [hc, hbase] at hb; exact absurd hb (by simp)
    · exact hc
  cases op with
  | mkframe p n r =>
    simp only [Traced.exec, NdOp.exec] at hex
    cases hm : mkframe cfg p (n : Int) r t.m with
    | error f => simp [hm] at hex
    | ok m1 =>
      simp only [hm, Except.ok.injEq] at hex
      subst hex
      obtain ⟨hmax, hc1, -, hprev, -, hsucc, hmem, -⟩ := mkframe_ok hm
      dsimp only
      refine ⟨⟨m1.maxfr :: frames, ⟨?_, ?_, ?_⟩⟩, fun _ => by omega, ?_, ?_⟩
      · refine ⟨rfl, ?_, ?_, ?_, ?_⟩
        · simp [hprev]
        · rw [hprev]; omega
        · rw [hsucc]; exact hcur
        · rw [hprev]
          refine frame_chain_congr frames _ ?_ hchain
          intro f hf
          have hfle := (hall f hf).2
          refine ⟨hmem _ ?_, hmem _ ?_, ?_⟩
          · simp only [PREVFR]; omega
          · simp only [SUCCFR]; omega
          · have hne : f ≠ m1.maxfr := by omega
            simp [Function.update_apply, hne]
      · exact Or.inr (by rw [hc1]; exact List.mem_cons_self _ _)
      · have hne : base ≠ m1.maxfr := by omega
        simp [Function.update_apply, hne, hbase]
      · intro h; exact absurd rfl (h p n r)
      · intro h; rcases h with h | h <;> exact absurd h (by simp)
  | modframe r =>
    simp only [Traced.exec, NdOp.exec, Except.ok.injEq] at hex
    subst hex
    refine ⟨⟨frames, ⟨?_, hcur, hbase⟩⟩, fun _ => le_refl _, fun _ => le_refl _, ?_⟩
    · refine frame_chain_congr frames _ ?_ hchain
      intro f hf
      obtain ⟨h1, h2⟩ := frame_chain_apart frames _ hchain f hf t.m.curfr hcur
      have e1 : f + PREVFR ≠ t.m.curfr + REDOIP := by
        simp only [REDOIP]; intro h; exact h1 (by omega)
      have e2 : f + SUCCFR ≠ t.m.curfr + REDOIP := by
        simp only [REDOIP]; intro h; exact h2 (by omega)
      simp [modframe, Machine.store, Function.update_apply, e1, e2]
    · intro h; rcases h with h | h <;> exact absurd h (by simp)
  | succeed =>
    simp only [Traced.exec, NdOp.exec, Except.ok.injEq] at hex
    subst hex
    simp only [NdOp.in_order, Option.isSome_iff_exists] at hin
    obtain ⟨b, hb⟩ := hin
    obtain ⟨rest, hsub, -, -, -, hsf, -⟩ := frame_chain_mem frames _ hchain _ (hcurmem b hb)
    refine ⟨⟨frames, ⟨hchain, ?_, hbase⟩⟩, fun _ => le_refl _, fun _ => le_refl _, ?_⟩
    · rcases hsf with h | h
      · exact Or.inl h
      · exact Or.inr (hsub _ h)
    · intro h; rcases h with h | h <;> exact absurd h (by simp)
  | succeed_discard =>
    simp only [Traced.exec, NdOp.exec, Except.ok.injEq] at hex
    subst hex
    simp only [NdOp.in_order, Option.isSome_iff_exists] at hin
    obtain ⟨b, hb⟩ := hin
    have hcm := hcurmem b hb
    obtain ⟨rest, hsub, hch, hbn, hgap, hsf, hle⟩ := frame_chain_mem frames _ hchain _ hcm
    have hmx : (succeed_discard t.m).maxfr = t.m.mem (t.m.curfr + PREVFR) := rfl
    refine ⟨⟨rest, ⟨hch, hsf, hbase⟩⟩, fun h => absurd rfl h.2, fun _ => ?_, fun _ => ⟨?_, hbn⟩⟩
    · dsimp only; rw [hmx]; omega
    · dsimp only; rw [hmx]; omega
  | fail =>
    simp only [NdOp.in_order, Option.isSome_iff_exists] at hin
    obtain ⟨b, hb⟩ := hin
    have hcm := hcurmem b hb
    obtain ⟨rest, hsub, hch, hbn, hgap, hsf, hle⟩ := frame_chain_mem frames _ hchain _ hcm
    simp only [Traced.exec, NdOp.exec] at hex
    cases hf : fail cfg t.m with
    | error f => simp [hf] at hex
    | ok m1 =>
      simp only [hf, Except.ok.injEq] at hex
      subst hex
      have hm1 : m1.maxfr = t.m.mem (t.m.curfr + PREVFR) ∧ m1.curfr = m1.maxfr ∧
          m1.mem = t.m.mem := by
        rcases cfg with ⟨_ | _⟩ <;>
          simp only [fail, nondstack_underflow_check, fatal_error, bt_prevfr, bt_redoip, GOTO,
            bind, Except.bind, pure, Except.pure, Bool.false_eq_true, if_true, if_false] at hf <;>
          (try split_ifs at hf) <;>
          simp only [Except.ok.injEq, reduceCtorEq] at hf <;>
          subst hf <;> exact ⟨rfl, rfl, rfl⟩
      obtain ⟨hmx, hc1, hmm⟩ := hm1
      dsimp only
      refine ⟨⟨rest, ⟨?_, ?_, hbase⟩⟩, fun h => absurd rfl h.1, fun _ => ?_, fun _ => ⟨?_, ?_⟩⟩
      · dsimp only; rw [hmx, hmm]; exact hch
      · dsimp only; rw [hc1, hmx]; exact frame_chain_top hch
      · rw [hmx]; omega
      · rw [hmx]; omega
      · rw [hmx]; exact hbn
  | redo =>
    simp only [Traced.exec, NdOp.exec, Except.ok.injEq] at hex
    subst hex
    refine ⟨⟨frames, ⟨hchain, frame_chain_top hchain, hbase⟩⟩, fun _ => le_refl _,
      fun _ => le_refl _, ?_⟩
    intro h; rcases h with h | h <;> exact absurd h (by simp)

/-- A trace of operations in order, run from a well-formed chain without a fatal
error, ends in a well-formed chain on the same base. -/
theorem wellformed_run (cfg : Config) (base : Int) (ops : List NdOp) :
    ∀ (t t1 : Traced) (frames : List Int), WellFormed cfg t base frames →
      Traced.run cfg ops t = some t1 → ∃ frames1, WellFormed cfg t1 base frames1 := by
  induction ops with
  | nil =>
    intro t t1 frames hwf h
    simp only [Traced.run, Option.some.injEq] at h
    subst h; exact ⟨frames, hwf⟩
  | cons op ops ih =>
    intro t t1 frames hwf h
    simp only [Traced.run] at h
    split_ifs at h with hin
    cases hex : t.exec cfg op with
    | error f => simp [hex] at h
    | ok t2 =>
      simp only [hex] at h
      obtain ⟨frames2, hwf2⟩ := (wellformed_step cfg t t2 base frames op hwf hin hex).1
      exact ih t2 t1 frames2 hwf2 h

/-- One det stack operation that returns, without `SPEED`, from a state in which
the zone invariant holds: the invariant holds again, the zone bounds are
unchanged, and `detstackmax` is the larger of the old mark and the new `sp`. -/
theorem sp_op_zone {op : SpOp} {s s1 : Machine} (hz : zone_ok s)
    (h : op.exec diag s = .ok s1) :
    zone_ok s1 ∧ s1.detstackmax = max s.detstackmax s1.sp ∧
    s1.detstackmin = s.detstackmin ∧ s1.detstackend = s.detstackend := by
  obtain ⟨h1, h2, h3⟩ := hz
  cases op with
  | push w =>
    simp only [SpOp.exec, push, detstack_overflow_check, diag, fatal_error, Machine.store,
      Bool.false_eq_true, if_false] at h
    split_ifs at h <;>
      simp only [Except.ok.injEq, reduceCtorEq] at h <;>
      subst h <;> unfold zone_ok <;>
      refine ⟨⟨?_, ?_, ?_⟩, ?_, rfl, rfl⟩ <;> dsimp only <;> omega
  | pop =>
    simp only [SpOp.exec, pop, detstack_underflow_check, diag, fatal_error,
      Bool.false_eq_true, if_false] at h
    split_ifs at h
    simp only [Except.ok.injEq] at h
    subst h
    unfold zone_ok
    refine ⟨⟨?_, ?_, ?_⟩, ?_, rfl, rfl⟩ <;> dsimp only <;> omega
  | incr_sp n =>
    simp only [SpOp.exec, incr_sp, detstack_overflow_check, diag, fatal_error,
      Bool.false_eq_true, if_false] at h
    split_ifs at h <;>
      simp only [Except.ok.injEq, reduceCtorEq] at h <;>
      subst h <;> unfold zone_ok <;>
      refine ⟨⟨?_, ?_, ?_⟩, ?_, rfl, rfl⟩ <;> dsimp only <;> omega
  | decr_sp n =>
    simp only [SpOp.exec, decr_sp, detstack_underflow_check, diag, fatal_error,
      Bool.false_eq_true, if_false] at h
    split_ifs at h
    simp only [Except.ok.injEq] at h
    subst h
    unfold zone_ok
    refine ⟨⟨?_, ?_, ?_⟩, ?_, rfl, rfl⟩ <;> dsimp only <;> omega

/-- Reading at a position where the unread part is `c :: cs` gives `c`. -/
theorem char_at_of_drop {line : List Char} {p : Nat} {c : Char} {cs : List Char}
    (h : line.drop p = c :: cs) : char_at line p = c := by
  have h0 : (line.drop p)[0]? = some c := by rw [h]; simp
  rw [List.getElem?_drop] at h0
  simp only [char_at, List.getD_eq_getElem?_getD]
  simp only [Nat.add_zero] at h0
  rw [h0]; rfl

/-- Reading at or after the end of the line gives NUL. -/
theorem char_at_of_drop_nil {line : List Char} {p : Nat} (h : line.drop p = []) :
    char_at line p = NUL := by
  have hle : line.length ≤ p := List.drop_eq_nil_iff.mp h
  simp only [char_at, List.getD_eq_getElem?_getD, List.getElem?_eq_none hle]
  rfl

/-- The unread part after one more character. -/
theorem drop_succ_of_drop {line : List Char} {p : Nat} {c : Char} {cs : List Char}
    (h : line.drop p = c :: cs) : line.drop (p + 1) = cs := by
  have := List.tail_drop line p
  rw [h] at this
  simpa using this.symm

/-- A position whose unread part is not empty is inside the line. -/
theorem lt_length_of_drop {line : List Char} {p : Nat} {c : Char} {cs : List Char}
    (h : line.drop p = c :: cs) : p < line.length := by
  by_contra hge
  have : line.drop p = [] := List.drop_eq_nil_iff.mpr (by omega)
  rw [this] at h; exact absurd h (by simp)

/-- Reading after a store. -/
theorem char_at_set (line : List Char) (i j : Nat) (c : Char) :
    char_at (line.set i c) j = if i = j ∧ i < line.length then c else char_at line j := by
  simp only [char_at, List.getD_eq_getElem?_getD, List.getElem?_set]
  by_cases hij : i = j
  · subst hij
    by_cases hlt : i < line.length
    · simp [hlt]
    · simp [hlt, List.getElem?_eq_none (Nat.le_of_not_lt hlt)]
  · simp [hij]

/-- The loop of `MR_trace_break_off_one_word` against `scan_word`: started with
the characters `rest` unread, it ends in a fatal error when `scan_word` does,
and otherwise it leaves the kept characters stored from `char_pos - lag` on, the
line before that and the unread characters as they were. -/
theorem break_off_loop_spec (isspace : Char → Bool) :
    ∀ (fuel : Nat) (line : List Char) (char_pos lag : Nat) (quoted : Bool)
      (rest : List Char),
      line.drop char_pos = rest → NUL ∉ rest → rest.length < fuel → lag ≤ char_pos →
      (∀ msg, scan_word isspace rest quoted false = .error msg →
        break_off_loop isspace fuel line char_pos lag quoted = some (.error msg)) ∧
      (∀ w r q, scan_word isspace rest quoted false = .ok (w, r, q) →
        ∃ line1 char_pos1 lag1,
          break_off_loop isspace fuel line char_pos lag quoted
            = some (.ok (line1, char_pos1, lag1, q, !r.isEmpty)) ∧
          line1.length = line.length ∧ line1.drop char_pos1 = r ∧
          lag1 ≤ char_pos1 ∧ char_pos1 - lag1 = char_pos - lag + w.length ∧
          (∀ i, i < char_pos - lag → char_at line1 i = char_at line i) ∧
          (∀ j, j < w.length → char_at line1 (char_pos - lag + j) = w.getD j NUL)) := by
  intro fuel
  induction fuel with
  | zero => intro line char_pos lag quoted rest _ _ hlen; exact absurd hlen (Nat.not_lt_zero _)
  | succ fuel ih =>
    intro line char_pos lag quoted rest hdrop hnul hlen hlag
    cases rest with
    | nil =>
      have hc : char_at line char_pos = NUL := char_at_of_drop_nil hdrop
      simp only [break_off_loop, hc, if_true, scan_word, Bool.false_eq_true, if_false]
      refine ⟨fun msg h => by simp at h, ?_⟩
      intro w r q h
      simp only [Except.ok.injEq, Prod.mk.injEq] at h
      obtain ⟨hw, hr, hq⟩ := h
      subst hw; subst hr; subst hq
      exact ⟨line, char_pos, lag, rfl, rfl, hdrop, hlag, by simp, fun _ _ => rfl,
        fun j hj => absurd hj (by simp)⟩
    | cons c cs =>
      have hc : char_at line char_pos = c := char_at_of_drop hdrop
      have hcs : line.drop (char_pos + 1) = cs := drop_succ_of_drop hdrop
      have hcn : c ≠ NUL := fun h => hnul (by rw [← h]; exact List.mem_cons_self _ _)
      have hnul' : NUL ∉ cs := fun h => hnul (List.mem_cons_of_mem _ h)
      have hlen' : cs.length < fuel := by simp only [List.length_cons] at hlen; omega
      have hpos : char_pos < line.length := lt_length_of_drop hdrop
      simp only [break_off_loop, hc, hcn, if_false, scan_word, MR_fatal_error]
      by_cases hsp : (!quoted && isspace c) = true
      · simp only [hsp, if_true]
        refine ⟨fun msg h => by simp at h, ?_⟩
        intro w r q h
        simp only [Except.ok.injEq, Prod.mk.injEq] at h
        obtain ⟨hw, hr, hq⟩ := h
        subst hw; subst hr; subst hq
        exact ⟨line, char_pos, lag, rfl, rfl, hdrop, hlag, by simp, fun _ _ => rfl,
          fun j hj => absurd hj (by simp)⟩
      · simp only [hsp, if_false, Bool.false_eq_true]
        by_cases hq : c = MR_MDB_QUOTE_CHAR
        · simp only [hq, if_true]
          obtain ⟨ih1, ih2⟩ := ih line (char_pos + 1) (lag + 1) (!quoted) cs hcs hnul' hlen'
            (by omega)
          refine ⟨ih1, ?_⟩
          intro w r q h
          obtain ⟨line1, cp1, lag1, e1, e2, e3, e4, e5, e6, e7⟩ := ih2 w r q h
          refine ⟨line1, cp1, lag1, e1, e2, e3, e4, by omega, ?_, ?_⟩
          · intro i hi; exact e6 i (by omega)
          · intro j hj
            have := e7 j hj
            rwa [show char_pos + 1 - (lag + 1) + j = char_pos - lag + j by omega] at this
        · simp only [hq, if_false]
          by_cases he : c = MR_MDB_ESCAPE_CHAR
          · simp only [he, if_true]
            cases cs with
            | nil =>
              have hn : char_at line (char_pos + 1) = NUL := char_at_of_drop_nil hcs
              simp only [hn, if_true, scan_word]
              exact ⟨fun msg h => by simpa using h, fun w r q h => by simp at h⟩
            | cons d ds =>
              have hd : char_at line (char_pos + 1) = d := char_at_of_drop hcs
              have hdn : d ≠ NUL :=
                fun h => hnul' (by rw [← h]; exact List.mem_cons_self _ _)
              have hds : line.drop (char_pos + 1 + 1) = ds := drop_succ_of_drop hcs
              have hds' : (line.set (char_pos + 1 - (lag + 1)) d).drop (char_pos + 1 + 1) = ds := by
                rw [List.drop_set_of_lt _ _ (by omega)]; exact hds
              have hlen2 : ds.length < fuel := by
                simp only [List.length_cons] at hlen'; omega
              obtain ⟨ih1, ih2⟩ := ih (line.set (char_pos + 1 - (lag + 1)) d)
                (char_pos + 1 + 1) (lag + 1) quoted ds hds'
                (fun h => hnul' (List.mem_cons_of_mem _ h)) hlen2 (by omega)
              simp only [hd, hdn, if_false, scan_word]
              constructor
              · intro msg h
                cases hs : scan_word isspace ds quoted false with
                | error m =>
                  rw [hs] at h
                  simp only [Except.error.injEq] at h
                  subst h
                  exact ih1 m hs
                | ok x =>
                  obtain ⟨w, r, q⟩ := x
                  rw [hs] at h; simp at h
              · intro w r q h
                cases hs : scan_word isspace ds quoted false with
                | error m => rw [hs] at h; simp at h
                | ok x =>
                  obtain ⟨w1, r1, q1⟩ := x
                  rw [hs] at h
                  simp only [Except.ok.injEq, Prod.mk.injEq] at h
                  obtain ⟨hw, hr, hq1⟩ := h
                  subst hw; subst hr; subst hq1
                  obtain ⟨line1, cp1, lag1, e1, e2, e3, e4, e5, e6, e7⟩ := ih2 w1 r1 q1 hs
                  refine ⟨line1, cp1, lag1, e1, by rw [e2, List.length_set], e3, e4, ?_, ?_, ?_⟩
                  · simp only [List.length_cons]; omega
                  · intro i hi
                    rw [e6 i (by omega), char_at_set]
                    have : ¬ (char_pos + 1 - (lag + 1) = i ∧
                        char_pos + 1 - (lag + 1) < line.length) := by omega
                    rw [if_neg this]
                  · intro j hj
                    cases j with
                    | zero =>
                      rw [Nat.add_zero, e6 _ (by omega), char_at_set]
                      have : char_pos + 1 - (lag + 1) = char_pos - lag ∧
                          char_pos + 1 - (lag + 1) < line.length := by omega
                      rw [if_pos this]
                      rfl
                    | succ j =>
                      simp only [List.length_cons] at hj
                      have := e7 j (by omega)
                      rw [show char_pos + 1 + 1 - (lag + 1) + j = char_pos - lag + (j + 1) by
                        omega] at this
                      rw [this]; rfl
          · simp only [he, if_false]
            have hset : ∀ i, char_at
                (if lag ≠ 0 then line.set (char_pos - lag) c else line) i
                = if i = char_pos - lag then c else char_at line i := by
              intro i
              by_cases hl : lag = 0
              · subst hl
                simp only [ne_eq, not_true_eq_false, if_false, Nat.sub_zero]
                split_ifs with hi
                · rw [hi, hc]
                · rfl
              · simp only [ne_eq, hl, not_false_eq_true, if_true, char_at_set]
                by_cases hi : i = char_pos - lag
                · have : char_pos - lag = i ∧ char_pos - lag < line.length := by omega
                  rw [if_pos this, if_pos hi]
                · have : ¬ (char_pos - lag = i ∧ char_pos - lag < line.length) := by omega
                  rw [if_neg this, if_neg hi]
            have hdrop' : (if lag ≠ 0 then line.set (char_pos - lag) c else line).drop
                (char_pos + 1) = cs := by
              split_ifs
              · rw [List.drop_set_of_lt _ _ (by omega)]; exact hcs
              · exact hcs
            have hlen1 : (if lag ≠ 0 then line.set (char_pos - lag) c else line).length
                = line.length := by
              split_ifs <;> simp
            obtain ⟨ih1, ih2⟩ := ih (if lag ≠ 0 then line.set (char_pos - lag) c else line)
              (char_pos + 1) lag quoted cs hdrop' hnul' hlen' (by omega)
            constructor
            · intro msg h
              cases hs : scan_word isspace cs quoted false with
              | error m =>
                rw [hs] at h
                simp only [Except.error.injEq] at h
                subst h
                exact ih1 m hs
              | ok x =>
                obtain ⟨w, r, q⟩ := x
                rw [hs] at h; simp at h
            · intro w r q h
              cases hs : scan_word isspace cs quoted false with
              | error m => rw [hs] at h; simp at h
              | ok x =>
                obtain ⟨w1, r1, q1⟩ := x
                rw [hs] at h
                simp only [Except.ok.injEq, Prod.mk.injEq] at h
                obtain ⟨hw, hr, hq1⟩ := h
                subst hw; subst hr; subst hq1
                obtain ⟨line1, cp1, lag1, e1, e2, e3, e4, e5, e6, e7⟩ := ih2 w1 r1 q1 hs
                refine ⟨line1, cp1, lag1, e1, by rw [e2, hlen1], e3, e4, ?_, ?_, ?_⟩
                · simp only [List.length_cons]; omega
                · intro i hi
                  rw [e6 i (by omega), hset]
                  have : i ≠ char_pos - lag := by omega
                  rw [if_neg this]
                · intro j hj
                  cases j with
                  | zero =>
                    rw [Nat.add_zero, e6 _ (by omega), hset, if_pos rfl]
                    rfl
                  | succ j =>
                    simp only [List.length_cons] at hj
                    have := e7 j (by omega)
                    rw [show char_pos + 1 - lag + j = char_pos - lag + (j + 1) by omega] at this
                    rw [this]; rfl

/-- Reading at or after the end of the line gives NUL. -/
theorem char_at_of_length_le {line : List Char} {p : Nat} (h : line.length ≤ p) :
    char_at line p = NUL :=
  char_at_of_drop_nil (List.drop_eq_nil_iff.mpr h)

/-- The characters `scan_word` keeps and those it leaves unread are characters
of its input, and it leaves no more unread than it was given. -/
theorem scan_word_parts (isspace : Char → Bool) (l : List Char) :
    ∀ (quoted escaped : Bool) (w r : List Char) (q : Bool),
      scan_word isspace l quoted escaped = .ok (w, r, q) →
      r.length ≤ l.length ∧ (∀ x ∈ w, x ∈ l) ∧ (∀ x ∈ r, x ∈ l) := by
  induction l with
  | nil =>
    intro quoted escaped w r q h
    cases escaped <;> simp [scan_word] at h
    obtain ⟨h1, h2, -⟩ := h
    subst h1; subst h2
    simp
  | cons c cs ih =>
    intro quoted escaped w r q h
    cases escaped with
    | true =>
      simp only [scan_word] at h
      cases hs : scan_word isspace cs quoted false with
      | error m => rw [hs] at h; simp at h
      | ok x =>
        obtain ⟨w1, r1, q1⟩ := x
        rw [hs] at h
        simp only [Except.ok.injEq, Prod.mk.injEq] at h
        obtain ⟨hw, hr, -⟩ := h
        subst hw; subst hr
        obtain ⟨e1, e2, e3⟩ := ih quoted false w1 r1 q1 hs
        refine ⟨by simp only [List.length_cons]; omega, ?_, fun x hx => List.mem_cons_of_mem _ (e3 x hx)⟩
        intro x hx
        rcases List.mem_cons.mp hx with hx | hx
        · rw [hx]; exact List.mem_cons_self _ _
        · exact List.mem_cons_of_mem _ (e2 x hx)
    | false =>
      simp only [scan_word] at h
      split_ifs at h with h1 h2 h3
      · simp only [Except.ok.injEq, Prod.mk.injEq] at h
        obtain ⟨hw, hr, -⟩ := h
        subst hw; subst hr
        exact ⟨le_refl _, fun x hx => absurd hx (List.not_mem_nil x), fun x hx => hx⟩
      · obtain ⟨e1, e2, e3⟩ := ih (!quoted) false w r q h
        exact ⟨by simp only [List.length_cons]; omega,
          fun x hx => List.mem_cons_of_mem _ (e2 x hx),
          fun x hx => List.mem_cons_of_mem _ (e3 x hx)⟩
      · obtain ⟨e1, e2, e3⟩ := ih quoted true w r q h
        exact ⟨by simp only [List.length_cons]; omega,
          fun x hx => List.mem_cons_of_mem _ (e2 x hx),
          fun x hx => List.mem_cons_of_mem _ (e3 x hx)⟩
      · cases hs : scan_word isspace cs quoted false with
        | error m => rw [hs] at h; simp at h
        | ok x =>
          obtain ⟨w1, r1, q1⟩ := x
          rw [hs] at h
          simp only [Except.ok.injEq, Prod.mk.injEq] at h
          obtain ⟨hw, hr, -⟩ := h
          subst hw; subst hr
          obtain ⟨e1, e2, e3⟩ := ih quoted false w1 r1 q1 hs
          refine ⟨by simp only [List.length_cons]; omega, ?_,
            fun x hx => List.mem_cons_of_mem _ (e3 x hx)⟩
          intro x hx
          rcases List.mem_cons.mp hx with hx | hx
          · rw [hx]; exact List.mem_cons_self _ _
          · exact List.mem_cons_of_mem _ (e2 x hx)

/-- The string at an offset where the characters of `w`, none of them NUL, are
followed by a NUL is `w`. -/
theorem cstring_eq (l : List Char) (w : List Char) :
    ∀ off : Nat, (∀ j, j < w.length → char_at l (off + j) = w.getD j NUL) →
      NUL ∉ w → char_at l (off + w.length) = NUL → cstring l off = w := by
  induction w with
  | nil =>
    intro off _ _ hend
    simp only [List.length_nil, Nat.add_zero] at hend
    unfold cstring
    cases hd : l.drop off with
    | nil => rfl
    | cons c cs =>
      have := char_at_of_drop hd
      rw [hend] at this
      subst this
      simp
  | cons c w ih =>
    intro off hw hn hend
    have h0 : char_at l off = c := by
      have := hw 0 (by simp)
      simpa using this
    have hcn : c ≠ NUL := fun h => hn (by rw [← h]; exact List.mem_cons_self _ _)
    have hlt : off < l.length := by
      by_contra hge
      have := @char_at_of_length_le l off (by omega)
      rw [h0] at this; exact hcn this
    have hd : l.drop off = c :: l.drop (off + 1) := by
      rw [List.drop_eq_getElem_cons hlt]
      congr 1
      have : char_at l off = l[off] := by
        simp [char_at, List.getD_eq_getElem?_getD, List.getElem?_eq_getElem hlt]
      rw [← this, h0]
    have ih' := ih (off + 1) (fun j hj => by
        have := hw (j + 1) (by simp only [List.length_cons]; omega)
        rw [show off + 1 + j = off + (j + 1) by omega]
        simpa using this)
      (fun h => hn (List.mem_cons_of_mem _ h))
      (by rw [show off + 1 + w.length = off + (c :: w).length by
            simp only [List.length_cons]; omega]; exact hend)
    unfold cstring at ih' ⊢
    rw [hd, List.takeWhile_cons_of_pos (by simpa using hcn), ih']

/-- The loop that skips spaces stops at the first unread character that is not
a space. -/
theorem skip_spaces_spec (isspace : Char → Bool) :
    ∀ (fuel : Nat) (line : List Char) (char_pos : Nat) (rest : List Char),
      line.drop char_pos = rest → NUL ∉ rest → rest.length < fuel →
      ∃ p, skip_spaces isspace fuel line char_pos = some p ∧
        line.drop p = rest.dropWhile isspace ∧ char_pos ≤ p := by
  intro fuel
  induction fuel with
  | zero => intro line char_pos rest _ _ hlen; exact absurd hlen (Nat.not_lt_zero _)
  | succ fuel ih =>
    intro line char_pos rest hdrop hnul hlen
    cases rest with
    | nil =>
      have hc : char_at line char_pos = NUL := char_at_of_drop_nil hdrop
      exact ⟨char_pos, by simp [skip_spaces, hc], by simpa using hdrop, le_refl _⟩
    | cons c cs =>
      have hc : char_at line char_pos = c := char_at_of_drop hdrop
      have hcn : c ≠ NUL := fun h => hnul (by rw [← h]; exact List.mem_cons_self _ _)
      by_cases hsp : isspace c = true
      · obtain ⟨p, h1, h2, h3⟩ := ih line (char_pos + 1) cs (drop_succ_of_drop hdrop)
          (fun h => hnul (List.mem_cons_of_mem _ h))
          (by simp only [List.length_cons] at hlen; omega)
        refine ⟨p, ?_, ?_, by omega⟩
        · simp only [skip_spaces, hc, ne_eq, hcn, not_false_eq_true, hsp, and_self, if_true]
          exact h1
        · rw [h2, List.dropWhile_cons_of_pos hsp]
      · refine ⟨char_pos, ?_, ?_, le_refl _⟩
        · simp [skip_spaces, hc, hsp]
        · rw [hdrop, List.dropWhile_cons_of_neg hsp]

/-- `MR_trace_break_off_one_word` against `scan_word`, started with `lag = 0`
and outside quotes on the unread characters `rest`. -/
theorem break_off_one_word_spec (isspace : Char → Bool) (line : List Char)
    (char_pos : Nat) (rest : List Char) (hdrop : line.drop char_pos = rest)
    (hnul : NUL ∉ rest) :
    (∀ msg, scan_word isspace rest false false = .error msg →
      MR_trace_break_off_one_word isspace line char_pos = some (.error msg)) ∧
    (∀ w r, scan_word isspace rest false false = .ok (w, r, true) →
      MR_trace_break_off_one_word isspace line char_pos
        = some (.error "MR_trace_break_off_one_word: unmatched quote")) ∧
    (∀ w r, scan_word isspace rest false false = .ok (w, r, false) →
      ∃ line1 p1, MR_trace_break_off_one_word isspace line char_pos = some (.ok (line1, p1)) ∧
        line1.length = line.length ∧ line1.drop p1 = r.tail ∧
        (∀ i, i < char_pos → char_at line1 i = char_at line i) ∧
        (∀ j, j < w.length → char_at line1 (char_pos + j) = w.getD j NUL) ∧
        char_at line1 (char_pos + w.length) = NUL ∧
        (char_pos + w.length < p1 ∨ line.length ≤ p1)) := by
  have hlen : rest.length < line.length + 1 := by
    rw [← hdrop, List.length_drop]; omega
  obtain ⟨h1, h2⟩ := break_off_loop_spec isspace (line.length + 1) line char_pos 0 false rest
    hdrop hnul hlen (Nat.zero_le _)
  refine ⟨?_, ?_, ?_⟩
  · intro msg h
    simp only [MR_trace_break_off_one_word, h1 msg h]
  · intro w r h
    obtain ⟨line1, cp1, lag1, e1, -⟩ := h2 w r true h
    simp only [MR_trace_break_off_one_word, e1, if_true, MR_fatal_error]
  · intro w r h
    obtain ⟨line1, cp1, lag1, e1, e2, e3, e4, e5, e6, e7⟩ := h2 w r false h
    simp only [Nat.sub_zero] at e5 e6 e7
    simp only [MR_trace_break_off_one_word, e1, Bool.false_eq_true, if_false]
    refine ⟨_, _, rfl, by rw [List.length_set, e2], ?_, ?_, ?_, ?_, ?_⟩
    · cases r with
      | nil =>
        have hge : line1.length ≤ cp1 := List.drop_eq_nil_iff.mp e3
        simp only [List.isEmpty_nil, Bool.not_true, Bool.false_eq_true, if_false, List.tail_nil]
        exact List.drop_eq_nil_iff.mpr (by rw [List.length_set]; exact hge)
      | cons s r1 =>
        simp only [List.isEmpty_cons, Bool.not_false, if_true, List.tail_cons]
        rw [List.drop_set_of_lt _ _ (by omega)]
        exact drop_succ_of_drop e3
    · intro i hi
      rw [char_at_set, if_neg (by omega)]
      exact e6 i hi
    · intro j hj
      rw [char_at_set, if_neg (by omega)]
      exact e7 j hj
    · rw [char_at_set]
      split_ifs with hc
      · rfl
      · exact char_at_of_length_le (by omega)
    · cases r with
      | nil =>
        have hge : line1.length ≤ cp1 := List.drop_eq_nil_iff.mp e3
        simp only [List.isEmpty_nil, Bool.not_true, Bool.false_eq_true, if_false]
        right; omega
      | cons s r1 =>
        simp only [List.isEmpty_cons, Bool.not_false, if_true]
        left; omega

/-- The loop of `MR_trace_break_into_words` against `words_of`: started with the
characters `rest` unread, it ends in a fatal error when `words_of` does, and
otherwise it appends one offset per word, the strings left at these offsets
being the words, and returns the count of words. -/
theorem break_into_words_loop_spec (isspace : Char → Bool) :
    ∀ (fuel : Nat) (line : List Char) (words : List Nat) (token_number char_pos : Nat)
      (rest : List Char),
      line.drop char_pos = rest → NUL ∉ rest → rest.length < fuel →
      (∀ msg, words_of isspace fuel rest = .error msg →
        break_into_words_loop isspace fuel line words token_number char_pos
          = some (.error msg)) ∧
      (∀ ws, words_of isspace fuel rest = .ok ws →
        ∃ line1 offs,
          break_into_words_loop isspace fuel line words token_number char_pos
            = some (.ok (line1, words ++ offs, token_number + ws.length)) ∧
          line1.length = line.length ∧
          (∀ i, i < char_pos → char_at line1 i = char_at line i) ∧
          offs.map (cstring line1) = ws) := by
  intro fuel
  induction fuel with
  | zero =>
    intro line words token_number char_pos rest _ _ hlen
    exact absurd hlen (Nat.not_lt_zero _)
  | succ fuel ih =>
    intro line words token_number char_pos rest hdrop hnul hlen
    have hlen0 : rest.length < line.length + 1 := by
      rw [← hdrop, List.length_drop]; omega
    obtain ⟨p, hp1, hp2, hp3⟩ := skip_spaces_spec isspace (line.length + 1) line char_pos rest
      hdrop hnul hlen0
    have hsuf : rest.dropWhile isspace <:+ rest := List.dropWhile_suffix _
    simp only [break_into_words_loop, hp1, words_of]
    cases hl : rest.dropWhile isspace with
    | nil =>
      rw [hl] at hp2
      have hc : char_at line p = NUL := char_at_of_drop_nil hp2
      simp only [hc, if_true]
      refine ⟨fun msg h => by simp at h, ?_⟩
      intro ws h
      simp only [Except.ok.injEq] at h
      subst h
      exact ⟨line, [], by simp, rfl, fun _ _ => rfl, rfl⟩
    | cons c cs =>
      rw [hl] at hp2 hsuf
      have hnul1 : NUL ∉ c :: cs := fun h => hnul (hsuf.subset h)
      have hlen1 : (c :: cs).length ≤ rest.length := hsuf.length_le
      have hc : char_at line p = c := char_at_of_drop hp2
      have hcn : c ≠ NUL := fun h => hnul1 (by rw [← h]; exact List.mem_cons_self _ _)
      simp only [hc, hcn, if_false]
      obtain ⟨o1, o2, o3⟩ := break_off_one_word_spec isspace line p (c :: cs) hp2 hnul1
      cases hs : scan_word isspace (c :: cs) false false with
      | error m =>
        simp only [o1 m hs]
        exact ⟨fun msg h => by simpa using h, fun ws h => by simp at h⟩
      | ok x =>
        obtain ⟨w, r, q⟩ := x
        obtain ⟨hr1, hr2, hr3⟩ := scan_word_parts isspace (c :: cs) false false w r q hs
        cases q with
        | true =>
          simp only [o2 w r hs, if_true]
          exact ⟨fun msg h => by simpa using h, fun ws h => by simp at h⟩
        | false =>
          obtain ⟨line1, p1, e1, e2, e3, e4, e5, e6, e7⟩ := o3 w r hs
          simp only [e1, Bool.false_eq_true, if_false]
          have hnult : NUL ∉ r.tail :=
            fun h => hnul1 (hr3 _ (List.mem_of_mem_tail h))
          have hlent : r.tail.length < fuel := by
            rw [List.length_tail]
            simp only [List.length_cons] at hlen1 hr1
            omega
          obtain ⟨ih1, ih2⟩ := ih line1 (words ++ [p]) (token_number + 1) p1 r.tail e3
            hnult hlent
          constructor
          · intro msg h
            cases hw : words_of isspace fuel r.tail with
            | error m =>
              rw [hw] at h
              simp only [Except.error.injEq] at h
              subst h
              exact ih1 m hw
            | ok ws1 => rw [hw] at h; simp at h
          · intro ws h
            cases hw : words_of isspace fuel r.tail with
            | error m => rw [hw] at h; simp at h
            | ok ws1 =>
              rw [hw] at h
              simp only [Except.ok.injEq] at h
              subst h
              obtain ⟨line2, offs, f1, f2, f3, f4⟩ := ih2 ws1 hw
              have hwn : NUL ∉ w := fun h => hnul1 (hr2 _ h)
              have hplt : p < line.length := lt_length_of_drop hp2
              have hpp1 : p < p1 := by omega
              refine ⟨line2, p :: offs, ?_, by rw [f2, e2], ?_, ?_⟩
              · rw [f1]
                simp only [List.append_assoc, List.singleton_append, List.length_cons]
                rw [show token_number + 1 + ws1.length = token_number + (ws1.length + 1) by
                  omega]
              · intro i hi
                rw [f3 i (by omega), e4 i (by omega)]
              · simp only [List.map_cons, f4, List.cons.injEq, and_true]
                apply cstring_eq
                · intro j hj
                  rcases e7 with h7 | h7
                  · rw [f3 _ (by omega)]; exact e5 j hj
                  · rcases Nat.lt_or_ge (p + j) p1 with hlt | hge
                    · rw [f3 _ hlt]; exact e5 j hj
                    · have h1 : char_at line2 (p + j) = NUL :=
                        char_at_of_length_le (by rw [f2, e2]; omega)
                      have h2 : char_at line1 (p + j) = NUL :=
                        char_at_of_length_le (by rw [e2]; omega)
                      exact h1.trans (h2.symm.trans (e5 j hj))
                · exact hwn
                · rcases e7 with h7 | h7
                  · rw [f3 _ h7]; exact e6
                  · rcases Nat.lt_or_ge (p + w.length) p1 with hlt | hge
                    · rw [f3 _ hlt]; exact e6
                    · exact char_at_of_length_le (by rw [f2, e2]; omega)

/-- `MR_trace_break_into_words` against `words_of`. -/
theorem break_into_words_spec (isspace : Char → Bool) (line : List Char)
    (hnul : NUL ∉ line) :
    (∀ msg, words_of isspace (line.length + 1) line = .error msg →
      MR_trace_break_into_words isspace line = some (.error msg)) ∧
    (∀ ws, words_of isspace (line.length + 1) line = .ok ws →
      ∃ line1 offs, MR_trace_break_into_words isspace line
          = some (.ok (line1, offs, ws.length)) ∧
        offs.map (cstring line1) = ws) := by
  obtain ⟨h1, h2⟩ := break_into_words_loop_spec isspace (line.length + 1) line [] 0 0 line
    rfl hnul (Nat.lt_succ_self _)
  refine ⟨h1, ?_⟩
  intro ws h
  obtain ⟨line1, offs, e1, -, -, e4⟩ := h2 ws h
  refine ⟨line1, offs, ?_, e4⟩
  simpa [MR_trace_break_into_words] using e1

/-- The first character left by dropping the leading spaces is not a space. -/
theorem head_dropWhile_not_space (isspace : Char → Bool) (l : List Char) (c : Char)
    (cs : List Char) (h : l.dropWhile isspace = c :: cs) : isspace c = false := by
  induction l with
  | nil => simp at h
  | cons x xs ih =>
    by_cases hx : isspace x = true
    · rw [List.dropWhile_cons_of_pos hx] at h; exact ih h
    · rw [List.dropWhile_cons_of_neg hx] at h
      simp only [List.cons.injEq] at h
      rw [← h.1]; simpa using hx

/-- On a line without quote or backslash, `scan_word` keeps the characters up to
the first space. -/
theorem scan_word_plain (isspace : Char → Bool) (l : List Char)
    (hq : MR_MDB_QUOTE_CHAR ∉ l) (he : MR_MDB_ESCAPE_CHAR ∉ l) :
    scan_word isspace l false false
      = .ok (l.takeWhile (fun c => !isspace c), l.dropWhile (fun c => !isspace c), false) := by
  induction l with
  | nil => rfl
  | cons c cs ih =>
    have hcq : c ≠ MR_MDB_QUOTE_CHAR := fun h => hq (by rw [← h]; exact List.mem_cons_self _ _)
    have hce : c ≠ MR_MDB_ESCAPE_CHAR := fun h => he (by rw [← h]; exact List.mem_cons_self _ _)
    have ih' := ih (fun h => hq (List.mem_cons_of_mem _ h)) (fun h => he (List.mem_cons_of_mem _ h))
    by_cases hsp : isspace c = true
    · simp [scan_word, hsp]
    · simp [scan_word, hsp, hcq, hce, ih']

/-- The runs of a line, split at the end of the run being read. -/
theorem runs_split (isspace : Char → Bool) (l : List Char) :
    ∀ cur : List Char, runs isspace l cur =
      if (cur ++ l.takeWhile (fun c => !isspace c)).isEmpty
      then runs isspace (l.dropWhile (fun c => !isspace c)).tail []
      else (cur ++ l.takeWhile (fun c => !isspace c))
        :: runs isspace (l.dropWhile (fun c => !isspace c)).tail [] := by
  induction l with
  | nil =>
    intro cur
    cases cur <;> simp [runs]
  | cons c cs ih =>
    intro cur
    by_cases hsp : isspace c = true
    · cases cur <;> simp [runs, hsp]
    · simp only [runs, hsp, Bool.false_eq_true, if_false]
      rw [ih (cur ++ [c])]
      simp [hsp]

/-- Leading spaces start no run. -/
theorem runs_dropWhile (isspace : Char → Bool) (l : List Char) :
    runs isspace l [] = runs isspace (l.dropWhile isspace) [] := by
  induction l with
  | nil => rfl
  | cons c cs ih =>
    by_cases hsp : isspace c = true
    · rw [List.dropWhile_cons_of_pos hsp, ← ih]
      simp [runs, hsp]
    · rw [List.dropWhile_cons_of_neg hsp]

/-- On a line without quote or backslash, the words are the runs of non-space
characters. -/
theorem words_of_plain (isspace : Char → Bool) :
    ∀ (fuel : Nat) (rest : List Char), MR_MDB_QUOTE_CHAR ∉ rest →
      MR_MDB_ESCAPE_CHAR ∉ rest → rest.length < fuel →
      words_of isspace fuel rest = .ok (runs isspace rest []) := by
  intro fuel
  induction fuel with
  | zero => intro rest _ _ hlen; exact absurd hlen (Nat.not_lt_zero _)
  | succ fuel ih =>
    intro rest hq he hlen
    have hsuf : rest.dropWhile isspace <:+ rest := List.dropWhile_suffix _
    rw [runs_dropWhile]
    simp only [words_of]
    cases hl : rest.dropWhile isspace with
    | nil => rfl
    | cons c cs =>
      rw [hl] at hsuf
      have hq1 : MR_MDB_QUOTE_CHAR ∉ c :: cs := fun h => hq (hsuf.subset h)
      have he1 : MR_MDB_ESCAPE_CHAR ∉ c :: cs := fun h => he (hsuf.subset h)
      have hlen1 : (c :: cs).length ≤ rest.length := hsuf.length_le
      have hc : isspace c = false := head_dropWhile_not_space isspace rest c cs hl
      have hsuf2 : ((c :: cs).dropWhile (fun c => !isspace c)).tail <:+ c :: cs :=
        (List.tail_suffix _).trans (List.dropWhile_suffix _)
      have hlen2 : ((c :: cs).dropWhile (fun c => !isspace c)).tail.length < fuel := by
        have h1 : ((c :: cs).dropWhile (fun c => !isspace c)).length ≤ cs.length := by
          rw [List.dropWhile_cons_of_pos (by simp [hc])]
          exact (List.dropWhile_suffix _).length_le
        rw [List.length_tail]
        simp only [List.length_cons] at hlen1
        omega
      simp only [scan_word_plain isspace (c :: cs) hq1 he1, Bool.false_eq_true, if_false]
      rw [ih _ (fun h => hq1 (hsuf2.subset h)) (fun h => he1 (hsuf2.subset h)) hlen2]
      rw [runs_split isspace (c :: cs) []]
      simp [hc]

/-- The quote character is not the escape character. -/
theorem quote_ne_escape : MR_MDB_QUOTE_CHAR ≠ MR_MDB_ESCAPE_CHAR := by decide

/-- `scan_word` against the reading of a line as source tokens: the characters
it consumes are a source token `t`, the characters it keeps are `t` unquoted,
the token ends at an unquoted space or at the end of the line, and the parity
of the unescaped quotes is carried along. -/
theorem scan_word_token (isspace : Char → Bool)
    (hq : isspace MR_MDB_QUOTE_CHAR = false) (he : isspace MR_MDB_ESCAPE_CHAR = false)
    (l : List Char) :
    ∀ (cur : List Char) (quoted escaped : Bool) (w r : List Char) (q : Bool),
      scan_word isspace l quoted escaped = .ok (w, r, q) →
      ∃ t, l = t ++ r ∧ unquote t escaped = w ∧
        source_tokens isspace l (some cur) quoted escaped
          = (cur ++ t) :: source_tokens isspace r.tail none false false ∧
        (r = [] ∨ (q = false ∧ ∃ s r1, r = s :: r1 ∧ isspace s = true)) ∧
        (unescaped_quotes l escaped + quoted.toNat) % 2
          = (unescaped_quotes r false + q.toNat) % 2 := by
  induction l with
  | nil =>
    intro cur quoted escaped w r q h
    cases escaped <;> simp [scan_word] at h
    obtain ⟨h1, h2, h3⟩ := h
    subst h1; subst h2; subst h3
    exact ⟨[], rfl, rfl, by simp [source_tokens], Or.inl rfl, rfl⟩
  | cons c cs ih =>
    intro cur quoted escaped w r q h
    cases escaped with
    | true =>
      simp only [scan_word] at h
      cases hs : scan_word isspace cs quoted false with
      | error m => rw [hs] at h; simp at h
      | ok x =>
        obtain ⟨w1, r1, q1⟩ := x
        rw [hs] at h
        simp only [Except.ok.injEq, Prod.mk.injEq] at h
        obtain ⟨hw, hr, hq1⟩ := h
        subst hw; subst hr; subst hq1
        obtain ⟨t, e1, e2, e3, e4, e5⟩ := ih (cur ++ [c]) quoted false w1 r1 q1 hs
        refine ⟨c :: t, by rw [e1]; rfl, by simp [unquote, e2], ?_, e4, ?_⟩
        · simp only [source_tokens, Option.getD_some, e3]
          simp
        · simpa [unescaped_quotes] using e5
    | false =>
      simp only [scan_word] at h
      split_ifs at h with h1 h2 h3
      · simp only [Except.ok.injEq, Prod.mk.injEq] at h
        obtain ⟨hw, hr, hq1⟩ := h
        subst hw; subst hr; subst hq1
        simp only [Bool.and_eq_true, Bool.not_eq_true'] at h1
        obtain ⟨hqf, hsp⟩ := h1
        subst hqf
        have hce : c ≠ MR_MDB_ESCAPE_CHAR := fun h => by rw [h, he] at hsp; simp at hsp
        have hcq : c ≠ MR_MDB_QUOTE_CHAR := fun h => by rw [h, hq] at hsp; simp at hsp
        refine ⟨[], rfl, rfl, ?_, Or.inr ⟨rfl, c, cs, rfl, hsp⟩, rfl⟩
        simp [source_tokens, hce, hcq, hsp]
      · subst h2
        obtain ⟨t, e1, e2, e3, e4, e5⟩ := ih (cur ++ [MR_MDB_QUOTE_CHAR]) (!quoted) false w r q h
        refine ⟨MR_MDB_QUOTE_CHAR :: t, by rw [e1]; rfl, ?_, ?_, e4, ?_⟩
        · simp [unquote, quote_ne_escape, e2]
        · simp only [source_tokens, quote_ne_escape, if_false, if_true, Option.getD_some, e3]
          simp
        · simp only [unescaped_quotes, quote_ne_escape, if_false, if_true]
          rw [← e5]
          cases quoted <;> simp
          omega
      · subst h3
        obtain ⟨t, e1, e2, e3, e4, e5⟩ := ih (cur ++ [MR_MDB_ESCAPE_CHAR]) quoted true w r q h
        refine ⟨MR_MDB_ESCAPE_CHAR :: t, by rw [e1]; rfl, ?_, ?_, e4, ?_⟩
        · simp [unquote, e2]
        · simp only [source_tokens, if_true, Option.getD_some, e3]
          simp
        · simpa [unescaped_quotes] using e5
      · cases hs : scan_word isspace cs quoted false with
        | error m => rw [hs] at h; simp at h
        | ok x =>
          obtain ⟨w1, r1, q1⟩ := x
          rw [hs] at h
          simp only [Except.ok.injEq, Prod.mk.injEq] at h
          obtain ⟨hw, hr, hq1⟩ := h
          subst hw; subst hr; subst hq1
          obtain ⟨t, e1, e2, e3, e4, e5⟩ := ih (cur ++ [c]) quoted false w1 r1 q1 hs
          have hns : (isspace c && !quoted) = false := by
            cases quoted <;> cases hc : isspace c <;> simp_all
          refine ⟨c :: t, by rw [e1]; rfl, by simp [unquote, h2, h3, e2], ?_, e4, ?_⟩
          · simp only [source_tokens, h2, h3, if_false, hns, Bool.false_eq_true,
              Option.getD_some, e3]
            simp
          · simpa [unescaped_quotes, h2, h3] using e5

/-- `scan_word` ends in a fatal error only on a backslash at the very end of
the line. -/
theorem scan_word_error (isspace : Char → Bool) (l : List Char) :
    ∀ (quoted escaped : Bool) (msg : String),
      scan_word isspace l quoted escaped = .error msg →
      (l = [] ∧ escaped = true) ∨ l.getLast? = some MR_MDB_ESCAPE_CHAR := by
  induction l with
  | nil =>
    intro quoted escaped msg h
    cases escaped <;> simp [scan_word] at h ⊢
  | cons c cs ih =>
    intro quoted escaped msg h
    right
    cases escaped with
    | true =>
      simp only [scan_word] at h
      cases hs : scan_word isspace cs quoted false with
      | ok x => obtain ⟨w1, r1, q1⟩ := x; rw [hs] at h; simp at h
      | error m =>
        rcases ih quoted false m hs with ⟨-, h2⟩ | h2
        · simp at h2
        · cases cs with
          | nil => simp at h2
          | cons d ds => simpa [List.getLast?_cons_cons] using h2
    | false =>
      simp only [scan_word] at h
      split_ifs at h with h1 h2 h3
      · rcases ih (!quoted) false msg h with ⟨-, h2⟩ | h2
        · simp at h2
        · cases cs with
          | nil => simp at h2
          | cons d ds => simpa [List.getLast?_cons_cons] using h2
      · rcases ih quoted true msg h with ⟨h4, -⟩ | h4
        · subst h4; subst h3; rfl
        · cases cs with
          | nil => simp at h4
          | cons d ds => simpa [List.getLast?_cons_cons] using h4
      · cases hs : scan_word isspace cs quoted false with
        | ok x => obtain ⟨w1, r1, q1⟩ := x; rw [hs] at h; simp at h
        | error m =>
          rcases ih quoted false m hs with ⟨-, h2⟩ | h2
          · simp at h2
          · cases cs with
            | nil => simp at h2
            | cons d ds => simpa [List.getLast?_cons_cons] using h2

/-- Leading spaces belong to no source token and hold no quote. -/
theorem source_tokens_dropWhile (isspace : Char → Bool)
    (hq : isspace MR_MDB_QUOTE_CHAR = false) (he : isspace MR_MDB_ESCAPE_CHAR = false)
    (l : List Char) :
    source_tokens isspace l none false false
      = source_tokens isspace (l.dropWhile isspace) none false false ∧
    unescaped_quotes l false = unescaped_quotes (l.dropWhile isspace) false := by
  induction l with
  | nil => exact ⟨rfl, rfl⟩
  | cons c cs ih =>
    by_cases hsp : isspace c = true
    · have hce : c ≠ MR_MDB_ESCAPE_CHAR := fun h => by rw [h, he] at hsp; simp at hsp
      have hcq : c ≠ MR_MDB_QUOTE_CHAR := fun h => by rw [h, hq] at hsp; simp at hsp
      rw [List.dropWhile_cons_of_pos hsp, ← ih.1, ← ih.2]
      simp [source_tokens, unescaped_quotes, hce, hcq, hsp]
    · rw [List.dropWhile_cons_of_neg hsp]
      exact ⟨rfl, rfl⟩

/-- A character that is not a space starts a token. -/
theorem source_tokens_start (isspace : Char → Bool) (c : Char) (cs : List Char)
    (hc : isspace c = false) :
    source_tokens isspace (c :: cs) none false false
      = source_tokens isspace (c :: cs) (some []) false false := by
  simp [source_tokens, hc]

/-- A suffix that is not empty ends as the whole list does. -/
theorem getLast?_of_suffix {l rest : List Char} (hs : l <:+ rest) (hl : l ≠ []) :
    rest.getLast? = l.getLast? := by
  obtain ⟨pre, hpre⟩ := hs
  rw [← hpre, List.getLast?_append_of_ne_nil _ hl]

/-- On a line with balanced unescaped quotes and no backslash at the very end,
the words are the source tokens, unquoted. -/
theorem words_of_tokens (isspace : Char → Bool)
    (hq : isspace MR_MDB_QUOTE_CHAR = false) (he : isspace MR_MDB_ESCAPE_CHAR = false) :
    ∀ (fuel : Nat) (rest : List Char), rest.length < fuel →
      rest.getLast? ≠ some MR_MDB_ESCAPE_CHAR → unescaped_quotes rest false % 2 = 0 →
      words_of isspace fuel rest
        = .ok ((source_tokens isspace rest none false false).map fun t => unquote t false) := by
  intro fuel
  induction fuel with
  | zero => intro rest hlen; exact absurd hlen (Nat.not_lt_zero _)
  | succ fuel ih =>
    intro rest hlen hlast hbal
    have hsuf : rest.dropWhile isspace <:+ rest := List.dropWhile_suffix _
    obtain ⟨hd1, hd2⟩ := source_tokens_dropWhile isspace hq he rest
    rw [hd1]
    rw [hd2] at hbal
    simp only [words_of]
    cases hl : rest.dropWhile isspace with
    | nil => rfl
    | cons c cs =>
      rw [hl] at hsuf hbal
      have hlen1 : (c :: cs).length ≤ rest.length := hsuf.length_le
      have hc : isspace c = false := head_dropWhile_not_space isspace rest c cs hl
      have hlast1 : (c :: cs).getLast? ≠ some MR_MDB_ESCAPE_CHAR := by
        rw [← getLast?_of_suffix hsuf (by simp)]; exact hlast
      cases hs : scan_word isspace (c :: cs) false false with
      | error m =>
        rcases scan_word_error isspace (c :: cs) false false m hs with ⟨h1, -⟩ | h1
        · simp at h1
        · exact absurd h1 hlast1
      | ok x =>
        obtain ⟨w, r, q⟩ := x
        obtain ⟨t, e1, e2, e3, e4, e5⟩ := scan_word_token isspace hq he (c :: cs) [] false false
          w r q hs
        obtain ⟨hr1, -, -⟩ := scan_word_parts isspace (c :: cs) false false w r q hs
        have hrsuf : r <:+ c :: cs := ⟨t, e1.symm⟩
        have htsuf : r.tail <:+ rest := ((List.tail_suffix r).trans hrsuf).trans hsuf
        simp only [Bool.toNat_false, Nat.add_zero] at e5
        have hqf : q = false := by
          rcases e4 with h4 | ⟨h4, -⟩
          · subst h4
            cases q with
            | false => rfl
            | true =>
              rw [show unescaped_quotes ([] : List Char) false = 0 from rfl] at e5
              simp only [Bool.toNat_true] at e5
              omega
          · exact h4
        subst hqf
        simp only [Bool.toNat_false, Nat.add_zero] at e5
        have hlent : r.tail.length < fuel := by
          rw [List.length_tail]
          simp only [List.length_cons] at hlen1 hr1
          omega
        have hlastt : r.tail.getLast? ≠ some MR_MDB_ESCAPE_CHAR := by
          by_cases hnil : r.tail = []
          · rw [hnil]; simp
          · rw [← getLast?_of_suffix htsuf hnil]; exact hlast
        have hbalt : unescaped_quotes r.tail false % 2 = 0 := by
          rcases e4 with h4 | ⟨-, s, r1, h4, hsp⟩
          · subst h4; rfl
          · subst h4
            have hce : s ≠ MR_MDB_ESCAPE_CHAR := fun h => by rw [h, he] at hsp; simp at hsp
            have hcq : s ≠ MR_MDB_QUOTE_CHAR := fun h => by rw [h, hq] at hsp; simp at hsp
            have hs1 : unescaped_quotes (s :: r1) false = unescaped_quotes r1 false := by
              simp [unescaped_quotes, hce, hcq]
            rw [hs1] at e5
            simp only [List.tail_cons]
            omega
        simp only [hs, Bool.false_eq_true, if_false, ih r.tail hlent hlastt hbalt]
        rw [source_tokens_start isspace c cs hc, e3]
        simp [e2]

/-- `MR_trace_break_into_words` returns or ends in a fatal error on every line:
the bounds on the iterations of its loops are never reached. -/
theorem break_into_words_total (isspace : Char → Bool) (line : List Char)
    (hnul : NUL ∉ line) : MR_trace_break_into_words isspace line ≠ none := by
  obtain ⟨h1, h2⟩ := break_into_words_spec isspace line hnul
  cases hw : words_of isspace (line.length + 1) line with
  | error msg => rw [h1 msg hw]; simp
  | ok ws =>
    obtain ⟨line1, offs, e1, -⟩ := h2 ws hw
    rw [e1]; simp

/-- The runs with a run being read, through the library's `splitOnP`. -/
theorem runs_eq_splitOnP_aux (isspace : Char → Bool) (l : List Char) :
    ∀ cur : List Char, runs isspace l cur =
      ((l.splitOnP isspace).modifyHead fun x => cur ++ x).filter fun w => !w.isEmpty := by
  induction l with
  | nil =>
    intro cur
    cases cur <;> simp [runs, List.splitOnP_nil]
  | cons c cs ih =>
    intro cur
    rw [List.splitOnP_cons]
    by_cases hsp : isspace c = true
    · have h0 := ih []
      simp only [List.nil_append] at h0
      have hid : (fun x : List Char => x) = id := rfl
      rw [hid, List.modifyHead_id] at h0
      simp only [id] at h0
      cases cur <;> simp [runs, hsp, h0]
    · simp only [runs, hsp, Bool.false_eq_true, if_false, ih (cur ++ [c]),
        List.modifyHead_modifyHead]
      congr 2
      funext x
      simp

/-- All-space lines have no run. -/
theorem runs_all_space (isspace : Char → Bool) (l : List Char)
    (h : ∀ c ∈ l, isspace c = true) : runs isspace l [] = [] := by
  induction l with
  | nil => rfl
  | cons c cs ih =>
    have hc := h c (List.mem_cons_self _ _)
    simp [runs, hc, ih (fun x hx => h x (List.mem_cons_of_mem _ hx))]

/-- The runs of non-space characters are the pieces, other than empty ones, into
which the library's `splitOnP` splits the line at its spaces. -/
theorem runs_eq_splitOnP (isspace : Char → Bool) (l : List Char) :
    runs isspace l [] = (l.splitOnP isspace).filter fun w => !w.isEmpty := by
  have h := runs_eq_splitOnP_aux isspace l []
  simp only [List.nil_append] at h
  have hid : (fun x : List Char => x) = id := rfl
  rw [hid, List.modifyHead_id] at h
  exact h


/-- A count that fits a `char` of either kind is kept by the conversion. -/
theorem to_char_small (char_signed : Bool) (n : Int) (h0 : 0 ≤ n) (h1 : n ≤ 127) :
    to_char char_signed n = n := by
  unfold to_char
  cases char_signed
  · simp only [Bool.false_eq_true, if_false]; omega
  · simp only [if_true]; omega

/-- The characters of the string at an offset are read there in order, none of
them is NUL, and a NUL is read after them. -/
theorem cstring_chars (l : List Char) :
    ∀ (w : List Char) (off : Nat), cstring l off = w →
      (∀ j, j < w.length → char_at l (off + j) = w.getD j NUL) ∧
      char_at l (off + w.length) = NUL ∧ NUL ∉ w := by
  intro w
  induction w with
  | nil =>
    intro off h
    refine ⟨fun j hj => absurd hj (by simp), ?_, by simp⟩
    simp only [List.length_nil, Nat.add_zero]
    cases hd : l.drop off with
    | nil => exact char_at_of_drop_nil hd
    | cons c cs =>
      unfold cstring at h
      rw [hd] at h
      rw [char_at_of_drop hd]
      by_cases hcn : c = NUL
      · exact hcn
      · rw [List.takeWhile_cons_of_pos (by simpa using hcn)] at h
        exact absurd h (by simp)
  | cons a w ih =>
    intro off h
    cases hd : l.drop off with
    | nil => unfold cstring at h; rw [hd] at h; simp at h
    | cons c cs =>
      have hc := char_at_of_drop hd
      have hd1 := drop_succ_of_drop hd
      unfold cstring at h
      rw [hd] at h
      by_cases hcn : c = NUL
      · rw [List.takeWhile_cons_of_neg (by simp [hcn])] at h; simp at h
      · rw [List.takeWhile_cons_of_pos (by simpa using hcn)] at h
        simp only [List.cons.injEq] at h
        obtain ⟨rfl, h⟩ := h
        obtain ⟨i1, i2, i3⟩ := ih (off + 1) (by unfold cstring; rw [hd1]; exact h)
        refine ⟨?_, ?_, ?_⟩
        · intro j hj
          cases j with
          | zero => simpa using hc
          | succ j =>
            have := i1 j (by simp only [List.length_cons] at hj; omega)
            rw [show off + (j + 1) = off + 1 + j by omega]
            simpa using this
        · rw [show off + (c :: w).length = off + 1 + w.length by
            simp only [List.length_cons]; omega]
          exact i2
        · simp only [List.mem_cons, not_or]
          exact ⟨fun h => hcn h.symm, i3⟩

/-- The string that starts `k` characters into a string is the string without
its first `k` characters. -/
theorem cstring_drop (l w : List Char) (off k : Nat) (h : cstring l off = w)
    (hk : k ≤ w.length) : cstring l (off + k) = w.drop k := by
  obtain ⟨h1, h2, h3⟩ := cstring_chars l w off h
  apply cstring_eq
  · intro j hj
    rw [List.length_drop] at hj
    have := h1 (k + j) (by omega)
    rw [show off + k + j = off + (k + j) by omega, this]
    simp [List.getD_eq_getElem?_getD, List.getElem?_drop]
  · exact fun hm => h3 (List.mem_of_mem_drop hm)
  · rw [List.length_drop, show off + k + (w.length - k) = off + w.length by omega]
    exact h2

/-- The loop that copies digits, on a run of digits that fits `count_buf`: it
stores the digits in order from index `i` on, and stops at the character after
them. -/
theorem copy_digits_ok (isdigit : Char → Bool) (line : List Char) :
    ∀ (ds : List Char) (fuel : Nat) (count_buf : List Char) (stores : List Nat) (i off : Nat),
      (∀ j, j < ds.length → char_at line (off + j) = ds.getD j NUL) →
      (∀ d ∈ ds, isdigit d = true) → isdigit (char_at line (off + ds.length)) = false →
      ds.length < fuel → i + ds.length ≤ MR_NUMBER_LEN → count_buf.length = MR_NUMBER_LEN →
      ∃ cb, copy_digits isdigit line fuel count_buf stores i (.in_line off)
          = some (cb, stores ++ List.range' i ds.length,
              .ok (i + ds.length, .in_line (off + ds.length))) ∧
        cb.length = MR_NUMBER_LEN ∧
        (∀ j, j < ds.length → char_at cb (i + j) = ds.getD j NUL) ∧
        (∀ j, j < i → char_at cb j = char_at count_buf j) := by
  intro ds
  induction ds with
  | nil =>
    intro fuel count_buf stores i off _ _ hstop hf _ hcb
    obtain ⟨fuel, rfl⟩ : ∃ k, fuel = k + 1 := ⟨fuel - 1, by simp at hf; omega⟩
    simp only [List.length_nil, Nat.add_zero] at hstop
    refine ⟨count_buf, ?_, hcb, fun j hj => absurd hj (by simp), fun _ _ => rfl⟩
    simp [copy_digits, deref, hstop]
  | cons d ds ih =>
    intro fuel count_buf stores i off hch hdig hstop hf hi hcb
    obtain ⟨fuel, rfl⟩ : ∃ k, fuel = k + 1 := ⟨fuel - 1, by omega⟩
    simp only [List.length_cons] at hf hi hstop
    have h0 : char_at line off = d := by
      have := hch 0 (by simp)
      simpa using this
    have hd : isdigit d = true := hdig d (List.mem_cons_self _ _)
    have hlt : ¬ MR_NUMBER_LEN ≤ i := by omega
    obtain ⟨cb, e1, e2, e3, e4⟩ := ih fuel (count_buf.set i d) (stores ++ [i]) (i + 1) (off + 1)
      (fun j hj => by
        have := hch (j + 1) (by simp only [List.length_cons]; omega)
        rw [show off + 1 + j = off + (j + 1) by omega]
        simpa using this)
      (fun x hx => hdig x (List.mem_cons_of_mem _ hx))
      (by rw [show off + 1 + ds.length = off + (ds.length + 1) by omega]; exact hstop)
      (by omega) (by omega) (by simpa using hcb)
    refine ⟨cb, ?_, e2, ?_, ?_⟩
    · simp only [copy_digits, deref, h0, hd, if_true, hlt, if_false, WordPtr.advance, e1,
        List.length_cons]
      simp only [List.append_assoc, List.singleton_append, List.range'_succ]
      rw [show i + 1 + ds.length = i + (ds.length + 1) by omega,
        show off + 1 + ds.length = off + (ds.length + 1) by omega]
    · intro j hj
      cases j with
      | zero =>
        rw [Nat.add_zero, e4 i (by omega), char_at_set]
        simp only [true_and, List.getD_cons_zero]
        rw [if_pos (by omega)]
      | succ j =>
        have := e3 j (by simp only [List.length_cons] at hj; omega)
        rw [show i + (j + 1) = i + 1 + j by omega]
        simpa using this
    · intro j hj
      rw [e4 j (by omega), char_at_set]
      rw [if_neg (by omega)]

/-- The loop that copies digits, on a run of digits that does not fit
`count_buf`: it returns the message, and the stores it makes are inside the
array. -/
theorem copy_digits_rejects (isdigit : Char → Bool) (line : List Char) :
    ∀ (ds : List Char) (fuel : Nat) (count_buf : List Char) (stores : List Nat) (i off : Nat),
      (∀ j, j < ds.length → char_at line (off + j) = ds.getD j NUL) →
      (∀ d ∈ ds, isdigit d = true) → MR_NUMBER_LEN < i + ds.length →
      MR_NUMBER_LEN + 1 ≤ fuel + i → i ≤ MR_NUMBER_LEN →
      ∃ cb st, copy_digits isdigit line fuel count_buf stores i (.in_line off)
          = some (cb, st, .error "too large a number") ∧
        ∀ k ∈ st, k ∈ stores ∨ k < MR_NUMBER_LEN := by
  intro ds
  induction ds with
  | nil =>
    intro fuel count_buf stores i off _ _ hbig _ hi
    simp only [List.length_nil, Nat.add_zero] at hbig
    omega
  | cons d ds ih =>
    intro fuel count_buf stores i off hch hdig hbig hf hi
    obtain ⟨fuel, rfl⟩ : ∃ k, fuel = k + 1 := ⟨fuel - 1, by omega⟩
    simp only [List.length_cons] at hbig
    have h0 : char_at line off = d := by
      have := hch 0 (by simp)
      simpa using this
    have hd : isdigit d = true := hdig d (List.mem_cons_self _ _)
    by_cases hge : MR_NUMBER_LEN ≤ i
    · refine ⟨count_buf, stores, ?_, fun k hk => Or.inl hk⟩
      simp only [copy_digits, deref, h0, hd, if_true, hge]
    · obtain ⟨cb, st, e1, e2⟩ := ih fuel (count_buf.set i d) (stores ++ [i]) (i + 1) (off + 1)
        (fun j hj => by
          have := hch (j + 1) (by simp only [List.length_cons]; omega)
          rw [show off + 1 + j = off + (j + 1) by omega]
          simpa using this)
        (fun x hx => hdig x (List.mem_cons_of_mem _ hx))
        (by omega) (by omega) (by omega)
      refine ⟨cb, st, ?_, ?_⟩
      · simp only [copy_digits, deref, h0, hd, if_true, hge, if_false, WordPtr.advance, e1]
      · intro k hk
        rcases e2 k hk with h | h
        · rcases List.mem_append.mp h with h | h
          · exact Or.inl h
          · right
            simp only [List.mem_singleton] at h
            omega
        · exact Or.inr h

/-- The loop that shifts the words, entered at the index of the word `x`, puts
every word before `x` one slot further on, over `x`. -/
theorem shift_words_spec (x : WordPtr) :
    ∀ (a t : List WordPtr) (y : WordPtr),
      shift_words a.length (a ++ y :: t) = (a ++ [y]).headD x :: (a ++ t) := by
  intro a
  induction a using List.reverseRecOn with
  | nil => intro t y; simp [shift_words]
  | append_singleton a z ih =>
    intro t y
    have hlen : (a ++ [z]).length = a.length + 1 := by simp
    rw [hlen]
    simp only [shift_words]
    have hget : (a ++ [z] ++ y :: t).getD a.length default = z := by
      rw [List.getD_eq_getElem?_getD, List.append_assoc,
        List.getElem?_append_right (le_refl _)]
      simp
    have hst : store_word (a ++ [z] ++ y :: t) (a.length + 1) z = a ++ z :: z :: t := by
      unfold store_word
      rw [if_pos (by simp)]
      have : a ++ [z] ++ y :: t = (a ++ [z]) ++ y :: t := rfl
      rw [this, ← hlen, List.set_append_right _ _ (le_refl _)]
      simp
    rw [hget, hst, ih (z :: t) z]
    congr 1
    · cases a <;> simp
    · simp

/-- The stores into slots 0 and 1 of an array of at least two words. -/
theorem store_two_words (p q a b : WordPtr) (t : List WordPtr) :
    store_word (store_word (p :: q :: t) 0 a) 1 b = a :: b :: t := by
  simp [store_word]

/-- What `MR_trace_break_into_words` does on a line that it leaves words of. -/
theorem break_into_words_of_left (isspace : Char → Bool) (line : List Char)
    (hnul : NUL ∉ line) (ws : List (List Char))
    (hw : words_left (MR_trace_break_into_words isspace line) = some ws) :
    ∃ line1 offs, MR_trace_break_into_words isspace line
        = some (.ok (line1, offs, ws.length)) ∧
      offs.map (cstring line1) = ws := by
  obtain ⟨h1, h2⟩ := break_into_words_spec isspace line hnul
  cases hwo : words_of isspace (line.length + 1) line with
  | error msg =>
    rw [h1 msg hwo] at hw
    simp [words_left] at hw
  | ok ws1 =>
    obtain ⟨line1, offs, e1, e2⟩ := h2 ws1 hwo
    rw [e1] at hw
    simp only [words_left, Option.some.injEq] at hw
    rw [e2] at hw
    subst hw
    exact ⟨line1, offs, e1, e2⟩

/-- The loop that shifts the words, entered at the count of the words filled,
puts every word one slot further on and leaves the first where it was. -/
theorem shift_words_all (l : List WordPtr) (hne : l ≠ []) :
    shift_words l.length l = l.headD default :: l := by
  rcases List.eq_nil_or_concat l with h | ⟨a, y, rfl⟩
  · exact absurd h hne
  · simp only [List.concat_eq_append] at hne ⊢
    have hlen : (a ++ [y]).length = a.length + 1 := by simp
    rw [hlen]
    simp only [shift_words]
    have hget : (a ++ [y]).getD a.length default = y := by
      rw [List.getD_eq_getElem?_getD, List.getElem?_append_right (le_refl _)]
      simp
    have hst : store_word (a ++ [y]) (a.length + 1) y = a ++ y :: [y] := by
      unfold store_word
      rw [if_neg (by simp)]
      simp
    rw [hget, hst, shift_words_spec default a [y] y]

/-- The first `if` of `MR_trace_parse_line` on a first word that is a run of
digits followed by a character that is not a digit: the digits are copied into
`count_buf`, which becomes the first word, and the rest of the word becomes the
second. -/
theorem separate_number_split (char_signed : Bool) (isdigit : Char → Bool)
    (line count_buf : List Char) (o0 : Nat) (otl : List Nat) (digits : List Char) (c : Char)
    (r : List Char) (hs : cstring line o0 = digits ++ c :: r) (hne : digits ≠ [])
    (hdig : ∀ d ∈ digits, isdigit d = true) (hc : isdigit c = false)
    (hlen : digits.length < MR_NUMBER_LEN) (hcb : count_buf.length = MR_NUMBER_LEN)
    (hn : otl.length + 2 ≤ 127) :
    ∃ cb stores, separate_number char_signed isdigit line count_buf
        ((o0 :: otl).map WordPtr.in_line) (to_char char_signed ((otl.length + 1 : Nat) : Int))
        = some (cb, stores, .ok (.in_count_buf 0 :: .in_line (o0 + digits.length)
            :: otl.map WordPtr.in_line, (otl.length : Int) + 2)) ∧
      cstring cb 0 = digits ∧ ∀ k ∈ stores, k < MR_NUMBER_LEN := by
  obtain ⟨h1, h2, h3⟩ := cstring_chars line _ o0 hs
  have hk : digits.length < (digits ++ c :: r).length := by simp
  have hch : ∀ j, j < digits.length → char_at line (o0 + j) = digits.getD j NUL := by
    intro j hj
    rw [h1 j (by omega)]
    simp [List.getD_eq_getElem?_getD, List.getElem?_append_left hj]
  have hcc : char_at line (o0 + digits.length) = c := by
    rw [h1 _ hk, List.getD_eq_getElem?_getD, List.getElem?_append_right (le_refl _)]
    simp
  have hcn : c ≠ NUL := fun h => h3 (by rw [← h]; simp)
  have hdn : NUL ∉ digits := fun h => h3 (List.mem_append_left _ h)
  have hfirst : isdigit (char_at line o0) = true := by
    obtain ⟨d0, dt, rfl⟩ := List.exists_cons_of_ne_nil hne
    have := hch 0 (by simp)
    simp only [Nat.add_zero, List.getD_cons_zero] at this
    rw [this]
    exact hdig d0 (List.mem_cons_self _ _)
  obtain ⟨cb, e1, e2, e3, e4⟩ := copy_digits_ok isdigit line digits (MR_NUMBER_LEN + 1)
    count_buf [] 0 o0 hch hdig (by rw [hcc]; exact hc) (by omega) (by omega) hcb
  have htc : to_char char_signed ((otl.length + 1 : Nat) : Int) = (otl.length : Int) + 1 := by
    rw [to_char_small _ _ (by omega) (by omega)]
    push_cast
    rfl
  have htc2 : to_char char_signed ((otl.length : Int) + 1 + 1) = (otl.length : Int) + 2 := by
    rw [to_char_small _ _ (by omega) (by omega)]
    omega
  have hpos : (0 : Int) < (otl.length : Int) + 1 := by omega
  have htn : ((otl.length : Int) + 1).toNat
      = (WordPtr.in_line o0 :: otl.map WordPtr.in_line).length := by
    simp only [List.length_cons, List.length_map]
    omega
  simp only [Nat.zero_add, List.nil_append] at e1
  refine ⟨cb.set digits.length NUL, List.range' 0 digits.length ++ [digits.length], ?_, ?_, ?_⟩
  · unfold separate_number
    rw [htc]
    simp only [List.map_cons, List.getD_cons_zero, deref, hfirst, hpos, and_self, if_true, e1,
      hcc, ne_eq, hcn, not_false_eq_true, htc2]
    rw [htn, shift_words_all _ (by simp)]
    simp only [List.headD_cons]
    rw [store_two_words]
  · apply cstring_eq
    · intro j hj
      rw [Nat.zero_add, char_at_set, if_neg (by omega)]
      have := e3 j hj
      rwa [Nat.zero_add] at this
    · exact hdn
    · rw [Nat.zero_add, char_at_set, if_pos ⟨rfl, by omega⟩]
  · intro k hk
    rcases List.mem_append.mp hk with h | h
    · have := (List.mem_range'_1.mp h).2
      omega
    · simp only [List.mem_singleton] at h
      omega

/-- The first `if` of `MR_trace_parse_line` on a first word that is a run of
digits up to its end: the words and their count stay as they are. -/
theorem separate_number_whole (char_signed : Bool) (isdigit : Char → Bool)
    (line count_buf : List Char) (o0 : Nat) (otl : List Nat) (w0 : List Char)
    (hs : cstring line o0 = w0) (hne : w0 ≠ [])
    (hdig : ∀ d ∈ w0, isdigit d = true) (hd0 : isdigit NUL = false)
    (hlen : w0.length < MR_NUMBER_LEN) (hcb : count_buf.length = MR_NUMBER_LEN)
    (hn : otl.length + 1 ≤ 127) :
    ∃ cb stores, separate_number char_signed isdigit line count_buf
        ((o0 :: otl).map WordPtr.in_line) (to_char char_signed ((otl.length + 1 : Nat) : Int))
        = some (cb, stores, .ok ((o0 :: otl).map WordPtr.in_line, (otl.length : Int) + 1)) ∧
      ∀ k ∈ stores, k < MR_NUMBER_LEN := by
  obtain ⟨h1, h2, h3⟩ := cstring_chars line _ o0 hs
  have hfirst : isdigit (char_at line o0) = true := by
    obtain ⟨d0, dt, rfl⟩ := List.exists_cons_of_ne_nil hne
    have := h1 0 (by simp)
    simp only [Nat.add_zero, List.getD_cons_zero] at this
    rw [this]
    exact hdig d0 (List.mem_cons_self _ _)
  obtain ⟨cb, e1, e2, e3, e4⟩ := copy_digits_ok isdigit line w0 (MR_NUMBER_LEN + 1)
    count_buf [] 0 o0 h1 hdig (by rw [h2]; exact hd0) (by omega) (by omega) hcb
  have htc : to_char char_signed ((otl.length + 1 : Nat) : Int) = (otl.length : Int) + 1 := by
    rw [to_char_small _ _ (by omega) (by omega)]
    push_cast
    rfl
  have hpos : (0 : Int) < (otl.length : Int) + 1 := by omega
  simp only [Nat.zero_add, List.nil_append] at e1
  refine ⟨cb.set w0.length NUL, List.range' 0 w0.length ++ [w0.length], ?_, ?_⟩
  · unfold separate_number
    rw [htc]
    simp only [List.map_cons, List.getD_cons_zero, deref, hfirst, hpos, and_self, if_true, e1,
      h2, ne_eq, not_true_eq_false, if_false]
  · intro k hk
    rcases List.mem_append.mp hk with h | h
    · have := (List.mem_range'_1.mp h).2
      omega
    · simp only [List.mem_singleton] at h
      omega

/-- The first `if` of `MR_trace_parse_line` on a first word that starts with
more digits than `count_buf` holds: it returns the message, having stored
inside the array only. -/
theorem separate_number_rejects (char_signed : Bool) (isdigit : Char → Bool)
    (line count_buf : List Char) (o0 : Nat) (otl : List Nat) (digits rem : List Char)
    (hs : cstring line o0 = digits ++ rem)
    (hdig : ∀ d ∈ digits, isdigit d = true) (hbig : MR_NUMBER_LEN < digits.length)
    (hn : otl.length + 1 ≤ 127) :
    ∃ cb stores, separate_number char_signed isdigit line count_buf
        ((o0 :: otl).map WordPtr.in_line) (to_char char_signed ((otl.length + 1 : Nat) : Int))
        = some (cb, stores, .error "too large a number") ∧
      ∀ k ∈ stores, k < MR_NUMBER_LEN := by
  obtain ⟨h1, h2, h3⟩ := cstring_chars line _ o0 hs
  have hch : ∀ j, j < digits.length → char_at line (o0 + j) = digits.getD j NUL := by
    intro j hj
    rw [h1 j (by simp only [List.length_append]; omega)]
    simp [List.getD_eq_getElem?_getD, List.getElem?_append_left hj]
  have hfirst : isdigit (char_at line o0) = true := by
    have hne : digits ≠ [] := by
      intro h
      rw [h] at hbig
      simp at hbig
    obtain ⟨d0, dt, rfl⟩ := List.exists_cons_of_ne_nil hne
    have := hch 0 (by simp)
    simp only [Nat.add_zero, List.getD_cons_zero] at this
    rw [this]
    exact hdig d0 (List.mem_cons_self _ _)
  obtain ⟨cb, st, e1, e2⟩ := copy_digits_rejects isdigit line digits (MR_NUMBER_LEN + 1)
    count_buf [] 0 o0 hch hdig (by omega) (by omega) (by omega)
  have htc : to_char char_signed ((otl.length + 1 : Nat) : Int) = (otl.length : Int) + 1 := by
    rw [to_char_small _ _ (by omega) (by omega)]
    push_cast
    rfl
  have hpos : (0 : Int) < (otl.length : Int) + 1 := by omega
  refine ⟨cb, st, ?_, ?_⟩
  · unfold separate_number
    rw [htc]
    simp only [List.map_cons, List.getD_cons_zero, deref, hfirst, hpos, and_self, if_true, e1]
  · intro k hk
    rcases e2 k hk with h | h
    · simp at h
    · exact h

/-- The second `if` of `MR_trace_parse_line` exchanges the first two words when
the first is a number and the second is not. -/
theorem exchange_number_swaps (is_natural_number : List Char → Option Int)
    (line count_buf : List Char) (p q : WordPtr) (t : List WordPtr) (n : Int) (hn : 1 < n)
    (hp : (is_natural_number (word_string line count_buf p)).isSome = true)
    (hq : (is_natural_number (word_string line count_buf q)).isSome = false) :
    exchange_number is_natural_number line count_buf (p :: q :: t) n = q :: p :: t := by
  unfold exchange_number
  simp only [List.getD_cons_zero, List.getD_cons_succ, hp, hq, hn, and_self, if_true]
  exact store_two_words p q q p t

/-- The strings of words that point into the line do not depend on
`count_buf`. -/
theorem word_string_in_line (line count_buf : List Char) (offs : List Nat) :
    (offs.map WordPtr.in_line).map (word_string line count_buf) = offs.map (cstring line) := by
  simp [List.map_map, Function.comp_def, word_string]

/-- On a line with so many words that their count, converted to `char`, is not
positive, `MR_trace_parse_line` leaves the words as they are and reports the
converted count. -/
theorem parse_line_count_converted (char_signed : Bool) (isspace isdigit : Char → Bool)
    (is_natural_number : List Char → Option Int) (count_buf line : List Char)
    (ws : List (List Char)) (hnul : NUL ∉ line)
    (hw : words_of isspace (line.length + 1) line = .ok ws)
    (hc : to_char char_signed (ws.length : Int) ≤ 0) :
    words_returned (MR_trace_parse_line char_signed isspace isdigit is_natural_number
        count_buf line)
      = some (ws, to_char char_signed (ws.length : Int)) := by
  obtain ⟨line1, offs, e1, e2⟩ := (break_into_words_spec isspace line hnul).2 ws hw
  have h0 : ¬ (0 : Int) < to_char char_signed (ws.length : Int) := by omega
  have h1 : ¬ (1 : Int) < to_char char_signed (ws.length : Int) := by omega
  unfold MR_trace_parse_line
  simp only [e1, separate_number, h0, false_and, if_false, exchange_number, h1, words_returned,
    word_string_in_line, e2]

/-- The recogniser of the examples accepts the non-empty words of digits. -/
theorem natural_number_isSome (w : List Char) :
    (natural_number w).isSome = (!w.isEmpty && w.all c_isdigit) := by
  unfold natural_number
  split <;> simp_all

/-- The sign of the difference of two `int` values that are not negative,
converted to `int`, is their order. -/
theorem sign_of_int_sub (a b : Int) (ha0 : 0 ≤ a) (ha : a < 2 ^ 31) (hb0 : 0 ≤ b)
    (hb : b < 2 ^ 31) : sign_of (int_of (a - b)) = compare a b := by
  have he : int_of (a - b) = a - b := by
    unfold int_of
    norm_num at ha hb ⊢
    omega
  rw [he, sign_of]
  rcases lt_trichotomy a b with h | h | h
  · rw [compare_lt_iff_lt.mpr h, compare_lt_iff_lt.mpr (by omega)]
  · rw [compare_eq_iff_eq.mpr h, compare_eq_iff_eq.mpr (by omega)]
  · rw [compare_gt_iff_gt.mpr h, compare_gt_iff_gt.mpr (by omega)]

/-- The sign of the difference of two `unsigned` values below `2 ^ 31`,
converted to `int`, is their order. -/
theorem sign_of_unsigned_sub (a b : Nat) (ha : a < 2 ^ 31) (hb : b < 2 ^ 31) :
    sign_of (int_of (((a : Int) - (b : Int)) % 2 ^ 32)) = compare a b := by
  have he : int_of (((a : Int) - (b : Int)) % 2 ^ 32) = (a : Int) - (b : Int) := by
    unfold int_of
    norm_num at ha hb ⊢
    omega
  rw [he, sign_of]
  rcases lt_trichotomy a b with h | h | h
  · rw [compare_lt_iff_lt.mpr h, compare_lt_iff_lt.mpr (by omega)]
  · rw [compare_eq_iff_eq.mpr h, compare_eq_iff_eq.mpr (by omega)]
  · rw [compare_gt_iff_gt.mpr h, compare_gt_iff_gt.mpr (by omega)]

/-- `MR_trace_compare_var_details` against the documented order. -/
theorem compare_var_details_spec (var1 var2 : MR_ProgVarDetails)
    (h1 : 0 ≤ var1.MR_var_is_headvar ∧ var1.MR_var_is_headvar < 2 ^ 31)
    (h2 : 0 ≤ var2.MR_var_is_headvar ∧ var2.MR_var_is_headvar < 2 ^ 31)
    (s1 : if var1.MR_var_has_suffix = true then
        0 ≤ var1.MR_var_num_suffix ∧ var1.MR_var_num_suffix < 2 ^ 31
      else var1.MR_var_num_suffix = -1)
    (s2 : if var2.MR_var_has_suffix = true then
        0 ≤ var2.MR_var_num_suffix ∧ var2.MR_var_num_suffix < 2 ^ 31
      else var2.MR_var_num_suffix = -1)
    (n1 : 0 ≤ var1.MR_var_hlds_number ∧ var1.MR_var_hlds_number < 2 ^ 31)
    (n2 : 0 ≤ var2.MR_var_hlds_number ∧ var2.MR_var_hlds_number < 2 ^ 31) :
    sign_of (MR_trace_compare_var_details var1 var2) = documented_var_order var1 var2 := by
  unfold MR_trace_compare_var_details documented_var_order
  by_cases z1 : var1.MR_var_is_headvar = 0
  · by_cases z2 : var2.MR_var_is_headvar = 0
    · simp only [z1, z2, ne_eq, not_true_eq_false, and_self, if_false, not_false_eq_true,
        and_false, false_and, decide_True]
      have hn := sign_of_int_sub _ _ n1.1 n1.2 n2.1 n2.2
      by_cases hs : strcmp var1.MR_var_basename var2.MR_var_basename = 0
      · have h0 : sign_of (0 : Int) = .eq := rfl
        simp only [hs, not_true_eq_false, if_false, h0, Ordering.then]
        unfold suffix_order
        cases e1 : var1.MR_var_has_suffix <;> cases e2 : var2.MR_var_has_suffix <;>
          simp only [e1, e2, if_true, Bool.false_eq_true, if_false] at s1 s2 ⊢
        · have hz : int_of (var1.MR_var_num_suffix - var2.MR_var_num_suffix) = 0 := by
            rw [s1, s2]; rfl
          simp only [hz, and_self, if_false, and_false, false_and, not_true_eq_false,
            reduceCtorEq]
          exact hn
        · simp only [and_self, if_true, and_false, if_false, reduceCtorEq]
          rfl
        · simp only [and_self, if_true, reduceCtorEq]
          rfl
        · have hc := sign_of_int_sub _ _ s1.1 s1.2 s2.1 s2.2
          simp only [and_false, false_and, if_false, reduceCtorEq]
          by_cases hd : int_of (var1.MR_var_num_suffix - var2.MR_var_num_suffix) = 0
          · rw [hd] at hc
            simp only [hd, not_true_eq_false, if_false, ← hc, h0]
            exact hn
          · simp only [hd, not_false_eq_true, if_true, ← hc]
            have : sign_of (int_of (var1.MR_var_num_suffix - var2.MR_var_num_suffix)) ≠ .eq := by
              intro h
              exact hd (compare_eq_iff_eq.mp h)
            revert this
            cases sign_of (int_of (var1.MR_var_num_suffix - var2.MR_var_num_suffix)) <;> simp
      · simp only [hs, not_false_eq_true, if_true]
        have : sign_of (strcmp var1.MR_var_basename var2.MR_var_basename) ≠ .eq := by
          intro h
          exact hs (compare_eq_iff_eq.mp h)
        revert this
        cases sign_of (strcmp var1.MR_var_basename var2.MR_var_basename) <;>
          simp [Ordering.then]
    · simp only [z1, z2, ne_eq, not_true_eq_false, not_false_eq_true, and_true, false_and,
        if_false, and_self, if_true, decide_True, decide_False]
      rfl
  · by_cases z2 : var2.MR_var_is_headvar = 0
    · simp only [z1, z2, ne_eq, not_true_eq_false, not_false_eq_true, and_false, if_false,
        and_self, if_true, decide_True, decide_False]
      rfl
    · simp only [z1, z2, ne_eq, not_false_eq_true, and_self, if_true, decide_False]
      exact sign_of_int_sub _ _ h1.1 h1.2 h2.1 h2.2

/-- The loop of `MR_trace_continue_line` on a line whose unread part has no
unquoted, unescaped semicolon: it returns, hands no line back, leaves `*quoted`
toggled once for each unescaped quote character, and returns true exactly when
that is true or the last character is an unescaped backslash. -/
theorem continue_loop_spec (line : List Char) :
    ∀ (rest : List Char) (fuel ptr : Nat) (quoted escaped : Bool),
      line.drop ptr = rest → NUL ∉ rest → rest.length < fuel →
      has_open_semicolon rest quoted escaped = false →
      ∃ r, continue_loop fuel line ptr quoted escaped = some r ∧
        r.quoted = (if unescaped_quotes rest escaped % 2 = 1 then !quoted else quoted) ∧
        r.returned = (r.quoted || ends_in_open_backslash rest escaped) ∧
        r.inserted = none := by
  intro rest
  induction rest with
  | nil =>
    intro fuel ptr quoted escaped hd _ hf _
    obtain ⟨fuel, rfl⟩ : ∃ k, fuel = k + 1 := ⟨fuel - 1, by simp at hf; omega⟩
    have hc : char_at line ptr = NUL := char_at_of_drop_nil hd
    simp only [continue_loop, hc, ne_eq, not_true_eq_false, if_false]
    refine ⟨_, rfl, ?_, ?_, rfl⟩
    · cases escaped <;> simp [unescaped_quotes]
    · cases escaped <;> simp [ends_in_open_backslash]
  | cons c cs ih =>
    intro fuel ptr quoted escaped hd hn hf hs
    obtain ⟨fuel, rfl⟩ : ∃ k, fuel = k + 1 := ⟨fuel - 1, by simp at hf; omega⟩
    have hc : char_at line ptr = c := char_at_of_drop hd
    have hcn : c ≠ NUL := fun h => hn (by rw [← h]; exact List.mem_cons_self _ _)
    have hd1 : line.drop (ptr + 1) = cs := drop_succ_of_drop hd
    have hn1 : NUL ∉ cs := fun h => hn (List.mem_cons_of_mem _ h)
    have hf1 : cs.length < fuel := by simp only [List.length_cons] at hf; omega
    simp only [continue_loop, hc, ne_eq, hcn, not_false_eq_true, if_true]
    cases escaped with
    | true =>
      simp only [if_true]
      simp only [has_open_semicolon] at hs
      obtain ⟨r, e1, e2, e3, e4⟩ := ih fuel (ptr + 1) quoted false hd1 hn1 hf1 hs
      exact ⟨r, e1, by simpa [unescaped_quotes] using e2,
        by simpa [ends_in_open_backslash] using e3, e4⟩
    | false =>
      simp only [Bool.false_eq_true, if_false]
      by_cases hce : c = MR_MDB_ESCAPE_CHAR
      · simp only [hce, if_true]
        simp only [has_open_semicolon, hce, if_true] at hs
        obtain ⟨r, e1, e2, e3, e4⟩ := ih fuel (ptr + 1) quoted true hd1 hn1 hf1 hs
        exact ⟨r, e1, by simpa [unescaped_quotes, hce] using e2,
          by simpa [ends_in_open_backslash, hce] using e3, e4⟩
      · simp only [hce, if_false]
        by_cases hcq : c = MR_MDB_QUOTE_CHAR
        · simp only [hcq, if_true]
          simp only [has_open_semicolon, hce, hcq, if_true, if_false] at hs
          have hqe : MR_MDB_QUOTE_CHAR ≠ MR_MDB_ESCAPE_CHAR := quote_ne_escape
          simp only [hqe, if_false] at hs
          obtain ⟨r, e1, e2, e3, e4⟩ := ih fuel (ptr + 1) (!quoted) false hd1 hn1 hf1 hs
          refine ⟨r, e1, ?_, ?_, e4⟩
          · rw [e2]
            simp only [unescaped_quotes, hqe, if_false, if_true]
            rcases Nat.mod_two_eq_zero_or_one (unescaped_quotes cs false) with h | h
            · have h2 : (unescaped_quotes cs false + 1) % 2 = 1 := by omega
              simp [h, h2]
            · have h2 : (unescaped_quotes cs false + 1) % 2 = 0 := by omega
              simp [h, h2]
          · rw [e3]
            simp [ends_in_open_backslash, hqe]
        · simp only [hcq, if_false]
          simp only [has_open_semicolon, hce, hcq, if_false] at hs
          by_cases hsc : (!quoted && decide (c = ';')) = true
          · simp only [hsc, if_true] at hs
            exact absurd hs (by simp)
          · simp only [hsc, Bool.false_eq_true, if_false] at hs ⊢
            obtain ⟨r, e1, e2, e3, e4⟩ := ih fuel (ptr + 1) quoted false hd1 hn1 hf1 hs
            exact ⟨r, e1, by simpa [unescaped_quotes, hce, hcq] using e2,
              by simpa [ends_in_open_backslash, hce] using e3, e4⟩

/-- C1: for every `n >= 0`, at the end of `mkframe(prednm, n, R)` (whether its
closing overflow check returns or aborts) `maxfr` is the old `maxfr` plus
`NONDET_FIXED_SIZE + n`, `curfr = maxfr`, and the header of the new frame holds
`prevfr` = old `maxfr`, `succfr` = old `curfr`, `succip` = the `succip`
register and `redoip = R`; the check aborts only without `SPEED` and only
when the new `maxfr` has reached `nondstackend`. -/
theorem mkframe_contract (cfg : Config) (prednm : Word) (n : Nat) (R : Code)
    (s : Machine) :
    (mkframe cfg prednm n R s).final.maxfr = s.maxfr + (NONDET_FIXED_SIZE cfg + n) ∧
    (mkframe cfg prednm n R s).final.curfr = (mkframe cfg prednm n R s).final.maxfr ∧
    bt_prevfr (mkframe cfg prednm n R s).final (mkframe cfg prednm n R s).final.curfr
      = s.maxfr ∧
    bt_succfr (mkframe cfg prednm n R s).final (mkframe cfg prednm n R s).final.curfr
      = s.curfr ∧
    bt_succip (mkframe cfg prednm n R s).final (mkframe cfg prednm n R s).final.curfr
      = s.succip ∧
    bt_redoip (mkframe cfg prednm n R s).final (mkframe cfg prednm n R s).final.curfr
      = R ∧
    (mkframe cfg prednm n R s).final.succip = s.succip ∧
    ((∃ f, mkframe cfg prednm n R s = .error f) ↔
      (cfg.speed = false ∧ s.nondstackend ≤ s.maxfr + (NONDET_FIXED_SIZE cfg + n))) := by
  rcases cfg with ⟨_ | _⟩ <;>
    simp only [mkframe, nondstack_overflow_check, mkframe_save_prednm, fatal_error,
      Machine.store, NONDET_FIXED_SIZE, REDOIP, PREVFR, SUCCIP, SUCCFR, PREDNM,
      bt_prevfr, bt_succfr, bt_succip, bt_redoip] <;>
    split_ifs <;>
    simp_all [Result.final, Function.update]

/-- C2: when `fail()` does not underflow (under `SPEED`, or when the `prevfr` of
the frame at `curfr` is not below `nondstackmin`), it returns with `maxfr` =
that `prevfr`, `curfr` = the new `maxfr`, control at the `redoip` stored in the
frame now at `curfr`, and the memory (hence every stack word) unchanged. -/
theorem fail_contract (cfg : Config) (s : Machine)
    (h : cfg.speed = true ∨ s.nondstackmin ≤ bt_prevfr s s.curfr) :
    ∃ s1, fail cfg s = .ok s1 ∧
      s1.maxfr = bt_prevfr s s.curfr ∧
      s1.curfr = s1.maxfr ∧
      s1.pc = bt_redoip s1 s1.curfr ∧
      s1.pc = bt_redoip s (bt_prevfr s s.curfr) ∧
      s1.mem = s.mem :=
  ⟨_, fail_ok cfg s h, rfl, rfl, rfl, rfl, rfl⟩

/-- Witness of C2: failing out of the single frame of `one_frame`. -/
theorem fail_contract_witness :
    (diag.speed = true ∨ one_frame.nondstackmin ≤ bt_prevfr one_frame one_frame.curfr) ∧
    ∃ s1, fail diag one_frame = .ok s1 ∧
      s1.maxfr = bt_prevfr one_frame one_frame.curfr ∧
      s1.curfr = s1.maxfr ∧
      s1.pc = bt_redoip s1 s1.curfr ∧
      s1.pc = bt_redoip one_frame (bt_prevfr one_frame one_frame.curfr) ∧
      s1.mem = one_frame.mem :=
  ⟨Or.inr (by decide), fail_contract diag one_frame (Or.inr (by decide))⟩

/-- C3, counterexample: in `one_frame` the frame on top has `redoip` 99.
`mkframe(0, 0, 7)` followed immediately by `fail()` returns with control at 99,
not at 7; with `modframe(8)` in between, control is at 99 as well, not at 8. -/
theorem mkframe_fail_counterexample :
    control (mkframe diag 0 0 7 one_frame >>= fail diag) = some 99 ∧
    control (mkframe diag 0 0 7 one_frame >>= fun s => fail diag (modframe 8 s)) = some 99 ∧
    bt_redoip one_frame one_frame.maxfr = 99 := by
  decide

/-- C3, amended: for every `n >= 0` and every `R`, when `mkframe(n, R)` does not
overflow and the old `maxfr` is not below `nondstackmin`, `mkframe(n, R)`
followed immediately by `fail()` returns, pops the new frame (`maxfr` and
`curfr` are the old `maxfr` again) and transfers control to the `redoip` stored
in the frame that was at `maxfr` before the `mkframe`; a `modframe(R2)` in
between changes none of this. -/
theorem mkframe_fail_resumes_below (cfg : Config) (prednm : Word) (n : Nat) (R : Code)
    (s : Machine)
    (hov : cfg.speed = true ∨ s.maxfr + (NONDET_FIXED_SIZE cfg + n) < s.nondstackend)
    (hun : cfg.speed = true ∨ s.nondstackmin ≤ s.maxfr) :
    ∃ s1 s2, mkframe cfg prednm n R s = .ok s1 ∧ fail cfg s1 = .ok s2 ∧
      s2.pc = bt_redoip s s.maxfr ∧ s2.maxfr = s.maxfr ∧ s2.curfr = s.maxfr ∧
      ∀ R2, ∃ s3, fail cfg (modframe R2 s1) = .ok s3 ∧
        s3.pc = bt_redoip s s.maxfr ∧ s3.maxfr = s.maxfr ∧ s3.curfr = s.maxfr := by
  obtain ⟨s1, h1⟩ := mkframe_returns cfg prednm n R s hov
  obtain ⟨hmax, hcur, -, hprev, -, -, hmem, -, hmin, -, -⟩ := mkframe_ok h1
  have hsz : 4 ≤ NONDET_FIXED_SIZE cfg := by
    unfold NONDET_FIXED_SIZE; split_ifs <;> omega
  have hun1 : cfg.speed = true ∨ s1.nondstackmin ≤ s1.mem (s1.curfr + PREVFR) := by
    rw [hcur, hprev, hmin]; exact hun
  have hredo : s1.mem (s.maxfr + REDOIP) = s.mem s.maxfr := by
    have := hmem s.maxfr (by omega)
    simpa [REDOIP] using this
  refine ⟨s1, _, h1, fail_ok cfg s1 hun1, ?_, ?_, ?_, ?_⟩
  · simp only [bt_redoip, hcur, hprev, hredo]; simp [REDOIP]
  · simp only [hcur, hprev]
  · simp only [hcur, hprev]
  · intro R2
    have hne : s.maxfr ≠ s1.maxfr := by omega
    have hne1 : s1.maxfr + PREVFR ≠ s1.maxfr := by simp [PREVFR]
    have hp2 : (modframe R2 s1).mem ((modframe R2 s1).curfr + PREVFR) = s.maxfr := by
      simp [modframe, Machine.store, hcur, REDOIP, Function.update_apply, hne1, hprev]
    have hun2 : cfg.speed = true ∨
        (modframe R2 s1).nondstackmin ≤ (modframe R2 s1).mem ((modframe R2 s1).curfr + PREVFR) := by
      rw [hp2]; simpa [modframe, Machine.store, hmin] using hun
    refine ⟨_, fail_ok cfg _ hun2, ?_, ?_, ?_⟩
    · simp only [hp2, bt_redoip]
      simp [modframe, Machine.store, hcur, REDOIP, Function.update_apply, hne] at hredo ⊢
      exact hredo
    · simp only [hp2]
    · simp only [hp2]

/-- Witness of C3, amended: `mkframe(0, 0, 7)` then `fail()` on `one_frame`. -/
theorem mkframe_fail_resumes_below_witness :
    (diag.speed = true ∨
      one_frame.maxfr + (NONDET_FIXED_SIZE diag + (0 : Nat)) < one_frame.nondstackend) ∧
    (diag.speed = true ∨ one_frame.nondstackmin ≤ one_frame.maxfr) ∧
    ∃ s1 s2, mkframe diag 0 (0 : Nat) 7 one_frame = .ok s1 ∧ fail diag s1 = .ok s2 ∧
      s2.pc = bt_redoip one_frame one_frame.maxfr ∧ s2.maxfr = one_frame.maxfr ∧
      s2.curfr = one_frame.maxfr ∧
      ∀ R2, ∃ s3, fail diag (modframe R2 s1) = .ok s3 ∧
        s3.pc = bt_redoip one_frame one_frame.maxfr ∧ s3.maxfr = one_frame.maxfr ∧
        s3.curfr = one_frame.maxfr :=
  ⟨Or.inr (by decide), Or.inr (by decide),
    mkframe_fail_resumes_below diag 0 0 7 one_frame (Or.inr (by decide)) (Or.inr (by decide))⟩

/-- C4: `succeed()` sets `curfr` to the `succfr` stored in the current frame and
transfers control to the `succip` stored in that (old current) frame; `maxfr`
and the memory (hence every stack word) are unchanged. -/
theorem succeed_contract (s : Machine) :
    (succeed s).curfr = bt_succfr s s.curfr ∧
    (succeed s).pc = bt_succip s s.curfr ∧
    (succeed s).maxfr = s.maxfr ∧
    (succeed s).mem = s.mem :=
  ⟨rfl, rfl, rfl, rfl⟩

/-- C5: `succeed_discard()` sets `maxfr` to the `prevfr` stored in the current
frame, `curfr` to that frame's `succfr`, and transfers control to that frame's
`succip`; and after `mkframe` for A then `mkframe` for B, both returning,
`succeed_discard()` from B leaves `maxfr` and `curfr` at A's frame. -/
theorem succeed_discard_contract :
    (∀ s : Machine,
      (succeed_discard s).maxfr = bt_prevfr s s.curfr ∧
      (succeed_discard s).curfr = bt_succfr s s.curfr ∧
      (succeed_discard s).pc = bt_succip s s.curfr ∧
      (succeed_discard s).mem = s.mem) ∧
    (∀ (cfg : Config) (pA pB : Word) (nA nB : Int) (RA RB : Code) (s sA sB : Machine),
      mkframe cfg pA nA RA s = .ok sA → mkframe cfg pB nB RB sA = .ok sB →
      sA.maxfr = s.maxfr + (NONDET_FIXED_SIZE cfg + nA) ∧
      (succeed_discard sB).maxfr = sA.maxfr ∧
      (succeed_discard sB).curfr = sA.maxfr) := by
  refine ⟨fun s => ⟨rfl, rfl, rfl, rfl⟩, ?_⟩
  intro cfg pA pB nA nB RA RB s sA sB hA hB
  obtain ⟨hmaxA, hcurA, -⟩ := mkframe_ok hA
  obtain ⟨-, hcurB, -, hprevB, -, hsuccB, -⟩ := mkframe_ok hB
  refine ⟨hmaxA, ?_, ?_⟩
  · simp only [succeed_discard, GOTO, bt_prevfr, hcurB, hprevB]
  · simp only [succeed_discard, GOTO, bt_succfr, hcurB, hsuccB, hcurA]

/-- Witness of C5: the frames of `one_frame` (A) and `two_frames` (B). -/
theorem succeed_discard_contract_witness :
    mkframe diag 0 0 99 (blank 0) = .ok one_frame ∧
    mkframe diag 0 2 7 one_frame = .ok two_frames ∧
    one_frame.maxfr = (blank 0).maxfr + (NONDET_FIXED_SIZE diag + 0) ∧
    (succeed_discard two_frames).maxfr = one_frame.maxfr ∧
    (succeed_discard two_frames).curfr = one_frame.maxfr :=
  ⟨rfl, rfl, succeed_discard_contract.2 diag 0 0 0 2 99 7 (blank 0) one_frame two_frames
    rfl rfl⟩

/-- C6, counterexample: the blank machine, every word of memory holding 150,
after `mkframe(0, 0, 99)` is a well-formed chain of one frame (at 105, on the
base 100).  The trace `fail(); fail()` raises no fatal error; its first `fail()`
takes `maxfr` down to 100 and its second `fail()`, run with `curfr` at the base,
takes `maxfr` up to 150: `maxfr` increases at a `fail()`. -/
theorem maxfr_monotone_counterexample :
    WellFormed diag (Traced.after diag [.mkframe 0 0 99] (blank_traced 150)) 100 [105] ∧
    (Traced.after diag [.mkframe 0 0 99] (blank_traced 150)).m.maxfr = 105 ∧
    (run_nd diag [.fail] (Traced.after diag [.mkframe 0 0 99] (blank_traced 150)).m).toOption.map
      (fun s => s.maxfr) = some 100 ∧
    (run_nd diag [.fail, .fail]
      (Traced.after diag [.mkframe 0 0 99] (blank_traced 150)).m).toOption.map
      (fun s => s.maxfr) = some 150 :=
  ⟨⟨⟨rfl, rfl, by decide, Or.inl rfl, rfl⟩, Or.inr (by decide), rfl⟩, rfl, by decide, by decide⟩

/-- C6, amended: along every trace of `mkframe` (`n >= 0`), `modframe`,
`succeed`, `succeed_discard`, `fail` and `redo` that starts from a well-formed
frame chain, raises no fatal error, and runs `succeed`, `succeed_discard` and
`fail` only while the frame at `curfr` is one created by `mkframe`: `maxfr` does
not decrease at a step other than `fail` or `succeed_discard`, does not increase
at a step other than `mkframe`, and every `fail` or `succeed_discard` lowers
`maxfr` to exactly the value it had when the frame then at `curfr` was created by
`mkframe`. -/
theorem maxfr_monotone (cfg : Config) (t : Traced) (base : Int) (frames : List Int)
    (hwf : WellFormed cfg t base frames) (ops : List NdOp) (op : NdOp) (t1 t2 : Traced)
    (h1 : Traced.run cfg ops t = some t1) (h2 : Traced.run cfg [op] t1 = some t2) :
    ((op ≠ .fail ∧ op ≠ .succeed_discard) → t1.m.maxfr ≤ t2.m.maxfr) ∧
    ((∀ p n r, op ≠ .mkframe p n r) → t2.m.maxfr ≤ t1.m.maxfr) ∧
    ((op = .fail ∨ op = .succeed_discard) →
      t2.m.maxfr < t1.m.maxfr ∧ t1.born t1.m.curfr = some t2.m.maxfr) := by
  obtain ⟨frames1, hwf1⟩ := wellformed_run cfg base ops t t1 frames hwf h1
  simp only [Traced.run] at h2
  split_ifs at h2 with hin
  cases hex : t1.exec cfg op with
  | error f => simp [hex] at h2
  | ok t3 =>
    simp only [hex, Option.some.injEq] at h2
    subst h2
    exact (wellformed_step cfg t1 t3 base frames1 op hwf1 hin hex).2

/-- Witness of C6, amended: `sample_trace` on the blank machine, then `fail()`
out of the outer frame, which lowers `maxfr` from 112 to the 100 recorded when
that frame was created. -/
theorem maxfr_monotone_witness :
    WellFormed diag (blank_traced 0) 100 [] ∧
    Traced.run diag sample_trace (blank_traced 0)
      = some (Traced.after diag sample_trace (blank_traced 0)) ∧
    Traced.run diag [.fail] (Traced.after diag sample_trace (blank_traced 0))
      = some (Traced.after diag (sample_trace ++ [.fail]) (blank_traced 0)) ∧
    (Traced.after diag sample_trace (blank_traced 0)).m.maxfr = 112 ∧
    (Traced.after diag sample_trace (blank_traced 0)).m.curfr = 105 ∧
    (Traced.after diag (sample_trace ++ [.fail]) (blank_traced 0)).m.maxfr = 100 ∧
    (((NdOp.fail ≠ .fail ∧ NdOp.fail ≠ .succeed_discard) →
        (Traced.after diag sample_trace (blank_traced 0)).m.maxfr
          ≤ (Traced.after diag (sample_trace ++ [.fail]) (blank_traced 0)).m.maxfr) ∧
      ((∀ p n r, NdOp.fail ≠ .mkframe p n r) →
        (Traced.after diag (sample_trace ++ [.fail]) (blank_traced 0)).m.maxfr
          ≤ (Traced.after diag sample_trace (blank_traced 0)).m.maxfr) ∧
      ((NdOp.fail = .fail ∨ NdOp.fail = .succeed_discard) →
        (Traced.after diag (sample_trace ++ [.fail]) (blank_traced 0)).m.maxfr
          < (Traced.after diag sample_trace (blank_traced 0)).m.maxfr ∧
        (Traced.after diag sample_trace (blank_traced 0)).born
          (Traced.after diag sample_trace (blank_traced 0)).m.curfr
          = some (Traced.after diag (sample_trace ++ [.fail]) (blank_traced 0)).m.maxfr)) :=
  ⟨⟨rfl, Or.inl rfl, rfl⟩, rfl, rfl, by decide, by decide, by decide,
    maxfr_monotone diag (blank_traced 0) 100 [] ⟨rfl, Or.inl rfl, rfl⟩ sample_trace .fail
      _ _ rfl rfl⟩

/-- C7: in every sequence of `push` and `pop` that raises no overflow or
underflow, each `pop` returns the most recently pushed value not yet popped:
the word `(Word)(w)` that the `push(w)` stored, which is `w` itself whenever
`w` is a value of `Word` (from 0 to `2 ^ 32 - 1`); `push(w)` followed by
`pop()` returns that word and restores `sp` (the `pop` returns whenever the `sp`
before the `push` was not below `detstackmin`); under `SPEED` every sequence
returns. -/
theorem det_stack_lifo (cfg : Config) :
    (∀ (ops : List DetOp) (s : Machine) (vs : List Word) (s1 : Machine),
      run_det cfg ops s = .ok (vs, s1) →
      List.Forall₂
        (fun v e => ∀ w, e = some w → v = to_word w ∧ (0 ≤ w → w < 2 ^ 32 → v = w))
        vs (lifo_expected ops [])) ∧
    (∀ (w : Int) (s s1 : Machine), push cfg w s = .ok s1 →
      (cfg.speed = true ∨ s.detstackmin ≤ s.sp) →
      ∃ s2, pop cfg s1 = .ok (to_word w, s2) ∧ s2.sp = s.sp ∧
        (0 ≤ w → w < 2 ^ 32 → pop cfg s1 = .ok (w, s2))) ∧
    (∀ (ops : List DetOp) (s : Machine), ∃ vs s1, run_det fast ops s = .ok (vs, s1)) := by
  refine ⟨?_, ?_, run_det_returns⟩
  · intro ops s vs s1 h
    refine (run_det_lifo cfg ops s [] vs s1 (by simp) h).imp ?_
    intro v e hv w he
    have hvw := hv w he
    exact ⟨hvw, fun h0 h1 => by rw [hvw, to_word_of_word w h0 h1]⟩
  · intro w s s1 hp hmin
    obtain ⟨hsp, hmem, hdmin, -⟩ := push_ok hp
    obtain ⟨s2, h2⟩ := pop_returns cfg s1 (by rw [hsp, hdmin]; rcases hmin with h | h
                                              · exact Or.inl h
                                              · right; omega)
    have hw : s1.mem (s1.sp - 1) = to_word w := by
      have e : s.sp + 1 - 1 = s.sp := by omega
      rw [hsp, hmem, e, Function.update_same]
    rw [hw] at h2
    refine ⟨s2, h2, by rw [(pop_ok h2).1, hsp]; omega, fun h0 h1 => ?_⟩
    rw [h2, to_word_of_word w h0 h1]

/-- Witness of C7: `sample_det_ops` on the blank machine pops 6, 7, 5, the
values pushed; `wide_det_ops` pushes -1 and `2 ^ 32 + 5` and pops 5 and
`2 ^ 32 - 1`, these values converted to `Word`. -/
theorem det_stack_lifo_witness :
    (run_det diag sample_det_ops (blank 0)).toOption.map Prod.fst = some [6, 7, 5] ∧
    lifo_expected sample_det_ops [] = [some 6, some 7, some 5] ∧
    List.Forall₂
      (fun v e => ∀ w, e = some w → v = to_word w ∧ (0 ≤ w → w < 2 ^ 32 → v = w))
      [6, 7, 5] (lifo_expected sample_det_ops []) ∧
    (run_det diag wide_det_ops (blank 0)).toOption.map Prod.fst = some [5, 4294967295] ∧
    lifo_expected wide_det_ops [] = [some 4294967301, some (-1)] ∧
    List.Forall₂
      (fun v e => ∀ w, e = some w → v = to_word w ∧ (0 ≤ w → w < 2 ^ 32 → v = w))
      [5, 4294967295] (lifo_expected wide_det_ops []) :=
  ⟨by decide, by decide, (det_stack_lifo diag).1 sample_det_ops (blank 0) [6, 7, 5] _ rfl,
    by decide, by decide,
    (det_stack_lifo diag).1 wide_det_ops (blank 0) [5, 4294967295] _ rfl⟩

/-- C8: without conservative GC, `restore_hp(m)` immediately after `mark_hp(m)`
changes nothing, and after any sequence of `tag_incr_hp` allocations that
returned since `mark_hp(m)`, `restore_hp(m)` sets `hp` to exactly the value it
had when the mark was taken (the machine is then the marked one, up to the
high-water mark `heapmax`). -/
theorem heap_rollback (mkword : Word → Word → Word) (cfg : Config) :
    (∀ s : Machine, restore_hp (mark_hp s) s = s) ∧
    (∀ (allocs : List (Word × Int)) (s : Machine) (dests : List Word) (s1 : Machine),
      allocate_all mkword cfg allocs s = .ok (dests, s1) →
      (restore_hp (mark_hp s) s1).hp = s.hp ∧
      restore_hp (mark_hp s) s1 = { s with heapmax := s1.heapmax }) := by
  refine ⟨fun s => rfl, ?_⟩
  intro allocs s dests s1 h
  refine ⟨rfl, ?_⟩
  rw [allocate_all_ok mkword cfg allocs s dests s1 h]
  rfl

/-- Witness of C8: two allocations, of 2 and of 3 words, on the blank machine,
then the rollback. -/
theorem heap_rollback_witness :
    allocate_all sample_mkword diag [(1, 2), (0, 3)] (blank 0)
      = .ok ([4001, 4008], after_allocs) ∧
    (restore_hp (mark_hp (blank 0)) after_allocs).hp = (blank 0).hp ∧
    restore_hp (mark_hp (blank 0)) after_allocs
      = { blank 0 with heapmax := after_allocs.heapmax } :=
  ⟨rfl, (heap_rollback sample_mkword diag).2 [(1, 2), (0, 3)] (blank 0) [4001, 4008]
    after_allocs rfl⟩

/-- C9: without conservative GC, `tag_incr_hp(dest, tag, count)` assigns
`mkword(tag, old hp)` to `dest`, advances `hp` by exactly `count`, and then runs
the heap overflow check on the new `hp`: the check aborts exactly when, without
`SPEED`, the new `hp` has reached `heapend`, and otherwise it returns, with
`heapmax` raised to the new `hp` when that is higher (left alone under
`SPEED`). -/
theorem tag_incr_hp_contract (mkword : Word → Word → Word) (cfg : Config) (tag : Word)
    (count : Int) (s : Machine) :
    (tag_incr_hp mkword cfg tag count s).1 = mkword tag s.hp ∧
    (tag_incr_hp mkword cfg tag count s).2.final.hp = s.hp + count ∧
    (tag_incr_hp mkword cfg tag count s).2 =
      heap_overflow_check cfg { s with hp := s.hp + count } ∧
    (fatal_message (tag_incr_hp mkword cfg tag count s).2 =
      if cfg.speed = false ∧ s.heapend ≤ s.hp + count then some "heap overflow" else none) ∧
    (tag_incr_hp mkword cfg tag count s).2.final.heapmax =
      (if cfg.speed = false ∧ s.hp + count < s.heapend ∧ s.heapmax < s.hp + count
        then s.hp + count else s.heapmax) ∧
    (tag_incr_hp mkword cfg tag count s).2.final.mem = s.mem := by
  refine ⟨rfl, ?_, rfl, ?_, ?_, ?_⟩ <;>
    rcases cfg with ⟨_ | _⟩ <;>
    simp only [tag_incr_hp, heap_overflow_check, fatal_error, Bool.false_eq_true, if_true,
      if_false] <;>
    (try split_ifs) <;>
    simp_all [Result.final, fatal_message]
  all_goals omega

/-- C10, counterexample: with `sp = detstackmin` and `detstackend =
detstackmin + 1` (so `k = 1`), the first push already raises the fatal stack
overflow, where the claim has it complete without error. -/
theorem push_overflow_counterexample :
    one_word_stack.sp = one_word_stack.detstackmin ∧
    one_word_stack.detstackend = one_word_stack.detstackmin + 1 ∧
    fatal_message (push_all diag [7] one_word_stack) = some "stack overflow" := by
  decide

/-- C10, amended: without `SPEED`, for every `k`, starting with `sp =
detstackmin` and `detstackend = detstackmin + k`: any fewer than `k` pushes all
return, and the push that brings `sp` to `detstackend` — push number `k` when
`k >= 1`, the first push when `k = 0` — is the first to raise the fatal stack
overflow. -/
theorem push_overflow_at_end (k : Nat) (s : Machine) (h0 : s.sp = s.detstackmin)
    (hk : s.detstackend = s.detstackmin + k) :
    (∀ ws : List Word, ws.length < k →
      ∃ s1, push_all diag ws s = .ok s1 ∧ s1.sp = s.sp + ws.length) ∧
    (∀ (ws : List Word) (w : Word), ws.length + 1 = max k 1 →
      fatal_message (push_all diag (ws ++ [w]) s) = some "stack overflow") := by
  constructor
  · intro ws hlen
    obtain ⟨s1, h1, hsp, -⟩ := push_all_returns diag ws s (by rw [hk, h0]; omega)
    exact ⟨s1, h1, hsp⟩
  · intro ws w hlen
    rw [push_all_append]
    rcases Nat.eq_zero_or_pos k with hz | hpos
    · have hws : ws = [] := by
        apply List.eq_nil_of_length_eq_zero
        rw [hz] at hlen; simpa using hlen
      subst hws
      simp only [push_all]
      exact push_overflows w s (by rw [hk, h0, hz]; simp)
    · have hl : ws.length + 1 = k := by
        rw [max_eq_left hpos] at hlen; exact hlen
      obtain ⟨s1, h1, hsp, hend⟩ := push_all_returns diag ws s (by rw [hk, h0]; omega)
      rw [h1]
      exact push_overflows w s1 (by rw [hend, hsp, hk, h0, ← hl]; push_cast; omega)

/-- Witness of C10, amended: a det stack zone of 3 words on the blank machine;
2 pushes return and the third raises the overflow. -/
theorem push_overflow_at_end_witness :
    ({ blank 0 with detstackend := 3 } : Machine).sp
      = ({ blank 0 with detstackend := 3 } : Machine).detstackmin ∧
    ({ blank 0 with detstackend := 3 } : Machine).detstackend
      = ({ blank 0 with detstackend := 3 } : Machine).detstackmin + (3 : Nat) ∧
    (∀ ws : List Word, ws.length < 3 →
      ∃ s1, push_all diag ws { blank 0 with detstackend := 3 } = .ok s1 ∧
        s1.sp = ({ blank 0 with detstackend := 3 } : Machine).sp + ws.length) ∧
    (∀ (ws : List Word) (w : Word), ws.length + 1 = max 3 1 →
      fatal_message (push_all diag (ws ++ [w]) { blank 0 with detstackend := 3 })
        = some "stack overflow") :=
  ⟨rfl, rfl, push_overflow_at_end 3 { blank 0 with detstackend := 3 } rfl rfl⟩

/-- C11: without `SPEED`, `pop()` and `decr_sp(n)` raise the fatal stack
underflow exactly when the resulting `sp` (`sp - 1`, `sp - n`) lies below
`detstackmin`; popping with `sp = detstackmin` is fatal, and popping the only
word pushed on an empty stack returns it: the word `(Word)(w)` that `push(w)`
stored, which is `w` itself whenever `w` is a value of `Word`. -/
theorem underflow_exactly_below_min :
    (∀ s : Machine, fatal_message (pop diag s) =
      if s.sp - 1 < s.detstackmin then some "stack underflow" else none) ∧
    (∀ (n : Int) (s : Machine), fatal_message (decr_sp diag n s) =
      if s.sp - n < s.detstackmin then some "stack underflow" else none) ∧
    (∀ s : Machine, s.sp = s.detstackmin →
      fatal_message (pop diag s) = some "stack underflow") ∧
    (∀ (w : Int) (s s1 : Machine), s.sp = s.detstackmin → push diag w s = .ok s1 →
      ∃ s2, pop diag s1 = .ok (to_word w, s2) ∧ s2.sp = s.detstackmin ∧
        (0 ≤ w → w < 2 ^ 32 → pop diag s1 = .ok (w, s2))) := by
  refine ⟨?_, ?_, ?_, ?_⟩
  · intro s
    simp only [pop, detstack_underflow_check, diag, Bool.false_eq_true, if_false, fatal_error]
    split_ifs <;> rfl
  · intro n s
    simp only [decr_sp, detstack_underflow_check, diag, Bool.false_eq_true, if_false,
      fatal_error]
    split_ifs <;> rfl
  · intro s h
    have hlt : s.sp - 1 < s.detstackmin := by omega
    simp [pop, detstack_underflow_check, diag, fatal_error, fatal_message, hlt]
  · intro w s s1 h hp
    obtain ⟨hsp, hmem, hdmin, -⟩ := push_ok hp
    obtain ⟨s2, h2⟩ := pop_returns diag s1 (Or.inr (by rw [hsp, hdmin]; omega))
    have hw : s1.mem (s1.sp - 1) = to_word w := by
      have e : s.sp + 1 - 1 = s.sp := by omega
      rw [hsp, hmem, e, Function.update_same]
    rw [hw] at h2
    refine ⟨s2, h2, by rw [(pop_ok h2).1, hsp]; omega, fun h0 h1 => ?_⟩
    rw [h2, to_word_of_word w h0 h1]

/-- Witness of C11: one word pushed on the blank machine's empty det stack. -/
theorem underflow_exactly_below_min_witness :
    (blank 0).sp = (blank 0).detstackmin ∧
    fatal_message (pop diag (blank 0)) = some "stack underflow" ∧
    ∃ s2, pop diag (push diag 7 (blank 0)).final = .ok (7, s2) ∧
      s2.sp = (blank 0).detstackmin ∧
      (0 ≤ (7 : Int) → (7 : Int) < 2 ^ 32 →
        pop diag (push diag 7 (blank 0)).final = .ok (7, s2)) :=
  ⟨rfl, underflow_exactly_below_min.2.2.1 (blank 0) rfl,
    underflow_exactly_below_min.2.2.2 7 (blank 0) (push diag 7 (blank 0)).final rfl rfl⟩

/-- C12: without `SPEED`, `fail()` raises the fatal nondet stack underflow
exactly when the `prevfr` of the frame at `curfr` lies below `nondstackmin`;
it then hands no label over (`pc` is as before), and otherwise it returns with
control at the `redoip` of the frame at that `prevfr`. -/
theorem fail_underflow_exactly (s : Machine) :
    (fatal_message (fail diag s) =
      if bt_prevfr s s.curfr < s.nondstackmin then some "nondstack underflow" else none) ∧
    (control (fail diag s) =
      if bt_prevfr s s.curfr < s.nondstackmin then none
      else some (bt_redoip s (bt_prevfr s s.curfr))) ∧
    (bt_prevfr s s.curfr < s.nondstackmin → (fail diag s).final.pc = s.pc) := by
  refine ⟨?_, ?_, ?_⟩ <;>
    simp only [fail, nondstack_underflow_check, diag, Bool.false_eq_true, if_false,
      fatal_error, bind, Except.bind, pure, Except.pure, GOTO, bt_redoip] <;>
    split_ifs <;>
    simp_all [fatal_message, control, Except.toOption, Result.final]

/-- Witness of C12: failing with `curfr` at the base of the blank machine, all of
whose memory holds 0. -/
theorem fail_underflow_exactly_witness :
    bt_prevfr (blank 0) (blank 0).curfr < (blank 0).nondstackmin ∧
    (fail diag (blank 0)).final.pc = (blank 0).pc :=
  ⟨by decide, (fail_underflow_exactly (blank 0)).2.2 (by decide)⟩

/-- C13: after `incr_sp(3)` has returned and `detstackvar(1..3)` have been
written, `call(target, L)` transfers control to `target`, and the `proceed()`
the target then executes lands control at `L`, with `sp` as it was just before
the call and the three det stack slots (indeed all of memory) unchanged. -/
theorem det_call_scenario (cfg : Config) (s s1 : Machine) (v1 v2 v3 : Word)
    (target L : Code) (h : incr_sp cfg 3 s = .ok s1) :
    (call target L (write_frame3 v1 v2 v3 s1)).pc = target ∧
    (proceed (call target L (write_frame3 v1 v2 v3 s1))).pc = L ∧
    (proceed (call target L (write_frame3 v1 v2 v3 s1))).sp = (write_frame3 v1 v2 v3 s1).sp ∧
    (write_frame3 v1 v2 v3 s1).sp = s.sp + 3 ∧
    detstackvar (proceed (call target L (write_frame3 v1 v2 v3 s1))) 1 = v1 ∧
    detstackvar (proceed (call target L (write_frame3 v1 v2 v3 s1))) 2 = v2 ∧
    detstackvar (proceed (call target L (write_frame3 v1 v2 v3 s1))) 3 = v3 ∧
    (proceed (call target L (write_frame3 v1 v2 v3 s1))).mem = (write_frame3 v1 v2 v3 s1).mem := by
  have hsp : s1.sp = s.sp + 3 := by
    rcases cfg with ⟨_ | _⟩ <;>
      simp only [incr_sp, detstack_overflow_check, fatal_error, Bool.false_eq_true, if_true,
        if_false] at h <;>
      (try split_ifs at h) <;>
      simp only [Except.ok.injEq, reduceCtorEq] at h <;>
      subst h <;> rfl
  refine ⟨rfl, rfl, rfl, hsp, ?_, ?_, ?_, rfl⟩ <;>
    simp [detstackvar, proceed, call, GOTO, write_frame3, set_detstackvar, Machine.store,
      Function.update_apply]

/-- Witness of C13: the scenario on the blank machine. -/
theorem det_call_scenario_witness :
    incr_sp diag 3 (blank 0) = .ok (incr_sp diag 3 (blank 0)).final ∧
    (call 40 41 (write_frame3 1 2 3 (incr_sp diag 3 (blank 0)).final)).pc = 40 ∧
    (proceed (call 40 41 (write_frame3 1 2 3 (incr_sp diag 3 (blank 0)).final))).pc = 41 ∧
    (proceed (call 40 41 (write_frame3 1 2 3 (incr_sp diag 3 (blank 0)).final))).sp
      = (write_frame3 1 2 3 (incr_sp diag 3 (blank 0)).final).sp ∧
    (write_frame3 1 2 3 (incr_sp diag 3 (blank 0)).final).sp = (blank 0).sp + 3 ∧
    detstackvar (proceed (call 40 41 (write_frame3 1 2 3 (incr_sp diag 3 (blank 0)).final))) 1
      = 1 ∧
    detstackvar (proceed (call 40 41 (write_frame3 1 2 3 (incr_sp diag 3 (blank 0)).final))) 2
      = 2 ∧
    detstackvar (proceed (call 40 41 (write_frame3 1 2 3 (incr_sp diag 3 (blank 0)).final))) 3
      = 3 ∧
    (proceed (call 40 41 (write_frame3 1 2 3 (incr_sp diag 3 (blank 0)).final))).mem
      = (write_frame3 1 2 3 (incr_sp diag 3 (blank 0)).final).mem :=
  ⟨rfl, det_call_scenario diag (blank 0) _ 1 2 3 40 41 rfl⟩

/-- C14: `call`, `tailcall` and `proceed` only transfer control: none of them
changes `sp`, `hp`, `maxfr`, `curfr`, a zone bound or a word of memory; `call`
sets `succip` to the continuation given, `tailcall` and `proceed` leave `succip`
as it is; control goes to the procedure called, respectively to `succip`. -/
theorem control_transfers_pure (proc succ_cont : Code) (s : Machine) :
    call proc succ_cont s = { s with succip := succ_cont, pc := proc } ∧
    tailcall proc s = { s with pc := proc } ∧
    proceed s = { s with pc := s.succip } ∧
    ((call proc succ_cont s).sp = s.sp ∧ (call proc succ_cont s).hp = s.hp ∧
      (call proc succ_cont s).maxfr = s.maxfr ∧ (call proc succ_cont s).curfr = s.curfr ∧
      (call proc succ_cont s).mem = s.mem ∧ (call proc succ_cont s).succip = succ_cont) ∧
    ((tailcall proc s).sp = s.sp ∧ (tailcall proc s).hp = s.hp ∧
      (tailcall proc s).maxfr = s.maxfr ∧ (tailcall proc s).curfr = s.curfr ∧
      (tailcall proc s).mem = s.mem ∧ (tailcall proc s).succip = s.succip) ∧
    ((proceed s).sp = s.sp ∧ (proceed s).hp = s.hp ∧
      (proceed s).maxfr = s.maxfr ∧ (proceed s).curfr = s.curfr ∧
      (proceed s).mem = s.mem ∧ (proceed s).succip = s.succip) :=
  ⟨rfl, rfl, rfl, ⟨rfl, rfl, rfl, rfl, rfl, rfl⟩, ⟨rfl, rfl, rfl, rfl, rfl, rfl⟩,
    ⟨rfl, rfl, rfl, rfl, rfl, rfl⟩⟩

/-- C15: `modframe(R)` changes one word of memory, the `redoip` slot of the
frame at `curfr`, which then holds `R`, and nothing else: the registers
(`maxfr`, `curfr`, `succip`, ...) are unchanged, so no frame is created, and so
are the frame's `prevfr`, `succip` and `succfr` slots, its saved variables and
every word at another address, hence every other frame. -/
theorem modframe_contract (cfg : Config) (R : Code) (s : Machine) :
    modframe R s = { s with mem := Function.update s.mem (s.curfr + REDOIP) R } ∧
    bt_redoip (modframe R s) s.curfr = R ∧
    (modframe R s).maxfr = s.maxfr ∧ (modframe R s).curfr = s.curfr ∧
    (modframe R s).succip = s.succip ∧
    bt_prevfr (modframe R s) s.curfr = bt_prevfr s s.curfr ∧
    bt_succip (modframe R s) s.curfr = bt_succip s s.curfr ∧
    bt_succfr (modframe R s) s.curfr = bt_succfr s s.curfr ∧
    (∀ n : Nat, bt_var cfg (modframe R s) s.curfr n = bt_var cfg s s.curfr n) ∧
    (∀ a : Int, a ≠ s.curfr → (modframe R s).mem a = s.mem a) := by
  have hsz := nondet_fixed_size_ge cfg
  refine ⟨rfl, ?_, rfl, rfl, rfl, ?_, ?_, ?_, ?_, ?_⟩
  · simp [bt_redoip, modframe, Machine.store]
  · simp [bt_prevfr, modframe, Machine.store, REDOIP, PREVFR, Function.update_apply]
  · simp [bt_succip, modframe, Machine.store, REDOIP, SUCCIP, Function.update_apply]
  · simp [bt_succfr, modframe, Machine.store, REDOIP, SUCCFR, Function.update_apply]
  · intro n
    have hne : s.curfr + (SAVEVAL cfg - (n : Int)) ≠ s.curfr + REDOIP := by
      simp only [SAVEVAL, REDOIP]; omega
    simp [bt_var, modframe, Machine.store, Function.update_apply, hne]
  · intro a ha
    have hne : a ≠ s.curfr + REDOIP := by simp only [REDOIP]; omega
    simp [modframe, Machine.store, Function.update_apply, hne]

/-- C16: `redo()` sets `curfr` to `maxfr` and transfers control to the `redoip`
stored in the frame at `maxfr`; `maxfr` and the memory are unchanged, so nothing
is popped; and a `mkframe(n, R)` that returned, followed immediately by
`redo()`, resumes at `R`. -/
theorem redo_contract :
    (∀ s : Machine,
      (redo s).pc = bt_redoip s s.maxfr ∧ (redo s).curfr = s.maxfr ∧
      (redo s).maxfr = s.maxfr ∧ (redo s).mem = s.mem) ∧
    (∀ (cfg : Config) (prednm : Word) (n : Int) (R : Code) (s s1 : Machine),
      mkframe cfg prednm n R s = .ok s1 →
      (redo s1).pc = R ∧ (redo s1).maxfr = s1.maxfr ∧ (redo s1).mem = s1.mem) := by
  refine ⟨fun s => ⟨rfl, rfl, rfl, rfl⟩, ?_⟩
  intro cfg prednm n R s s1 h
  obtain ⟨-, -, hredo, -⟩ := mkframe_ok h
  refine ⟨?_, rfl, rfl⟩
  simp only [redo, GOTO, bt_redoip, REDOIP]
  rw [← hredo]; congr 1; omega

/-- Witness of C16: `redo()` right after the `mkframe(0, 2, 7)` of `two_frames`. -/
theorem redo_contract_witness :
    mkframe diag 0 2 7 one_frame = .ok two_frames ∧
    (redo two_frames).pc = 7 ∧ (redo two_frames).maxfr = two_frames.maxfr ∧
    (redo two_frames).mem = two_frames.mem :=
  ⟨rfl, redo_contract.2 diag 0 2 7 one_frame two_frames rfl⟩

/-- C17: without `SPEED`, every sequence of `push`, `pop`, `incr_sp(n)` and
`decr_sp(n)` (`n >= 0`) that raises no fatal error preserves the zone invariant
`detstackmin <= sp <= detstackmax <= detstackend` and the zone bounds, and
leaves in `detstackmax` the highest of the earlier mark and the values `sp` took
after each operation. -/
theorem det_zone_invariant (ops : List SpOp) :
    ∀ (s : Machine) (sps : List Int) (s1 : Machine), zone_ok s →
      run_sp diag ops s = .ok (sps, s1) →
      zone_ok s1 ∧ s1.detstackmax = sps.foldl max s.detstackmax ∧
      s1.detstackmin = s.detstackmin ∧ s1.detstackend = s.detstackend := by
  induction ops with
  | nil =>
    intro s sps s1 hz h
    simp only [run_sp, Except.ok.injEq, Prod.mk.injEq] at h
    obtain ⟨h1, h2⟩ := h
    subst h1; subst h2
    exact ⟨hz, rfl, rfl, rfl⟩
  | cons op ops ih =>
    intro s sps s1 hz h
    simp only [run_sp] at h
    cases hop : op.exec diag s with
    | error f => simp [hop] at h
    | ok s2 =>
      simp only [hop] at h
      cases hr : run_sp diag ops s2 with
      | error f => simp [hr] at h
      | ok r =>
        obtain ⟨sps2, s3⟩ := r
        simp only [hr, Except.ok.injEq, Prod.mk.injEq] at h
        obtain ⟨h1, h2⟩ := h
        subst h1; subst h2
        obtain ⟨hz2, hmax2, hmin2, hend2⟩ := sp_op_zone hz hop
        obtain ⟨hz3, hmax3, hmin3, hend3⟩ := ih s2 sps2 s3 hz2 hr
        refine ⟨hz3, ?_, by rw [hmin3, hmin2], by rw [hend3, hend2]⟩
        rw [hmax3, hmax2, List.foldl_cons]

/-- Witness of C17: `sample_sp_ops` on the blank machine; `sp` goes 3, 4, 3, 1, 2
and `detstackmax` ends at 4. -/
theorem det_zone_invariant_witness :
    zone_ok (blank 0) ∧
    (run_sp diag sample_sp_ops (blank 0)).toOption.map Prod.fst = some [3, 4, 3, 1, 2] ∧
    (zone_ok (Result.final ((run_sp diag sample_sp_ops (blank 0)).map Prod.snd)) ∧
      (Result.final ((run_sp diag sample_sp_ops (blank 0)).map Prod.snd)).detstackmax
        = [3, 4, 3, 1, 2].foldl max (blank 0).detstackmax ∧
      (Result.final ((run_sp diag sample_sp_ops (blank 0)).map Prod.snd)).detstackmin
        = (blank 0).detstackmin ∧
      (Result.final ((run_sp diag sample_sp_ops (blank 0)).map Prod.snd)).detstackend
        = (blank 0).detstackend) ∧
    (Result.final ((run_sp diag sample_sp_ops (blank 0)).map Prod.snd)).detstackmax = 4 :=
  ⟨by decide, by decide,
    det_zone_invariant sample_sp_ops (blank 0) [3, 4, 3, 1, 2] _ (by decide) rfl, by decide⟩

/-- C18: `MR_setjmp(env, label)` leaves the engine as it is, and an
`MR_longjmp(env)` on the buffer it filled, from whatever engine state, resumes
at `label` with `MR_succip`, `MR_sp`, `MR_curfr`, `MR_maxfr` and
`MR_eng_jmp_buf` (and, when the trail is in use, `MR_trail_ptr`,
`MR_ticket_counter` and `MR_ticket_high_water`) equal to their values at the
`MR_setjmp`; this for any register macros that leave `MR_eng_jmp_buf`, a field of
the engine structure, alone. -/
theorem longjmp_restores (rm : RegMacros) (use_trail : Bool) (buf : MR_jmp_buf)
    (label : Code) (e0 e1 : Engine)
    (hregs : ∀ regs e, (rm.MR_restore_regs_from_mem regs e).MR_eng_jmp_buf = e.MR_eng_jmp_buf) :
    (MR_setjmp rm use_trail buf label e0).2 = e0 ∧
    (MR_longjmp rm use_trail (MR_setjmp rm use_trail buf label e0).1 e1).pc = label ∧
    (MR_longjmp rm use_trail (MR_setjmp rm use_trail buf label e0).1 e1).MR_succip
      = e0.MR_succip ∧
    (MR_longjmp rm use_trail (MR_setjmp rm use_trail buf label e0).1 e1).MR_sp = e0.MR_sp ∧
    (MR_longjmp rm use_trail (MR_setjmp rm use_trail buf label e0).1 e1).MR_curfr
      = e0.MR_curfr ∧
    (MR_longjmp rm use_trail (MR_setjmp rm use_trail buf label e0).1 e1).MR_maxfr
      = e0.MR_maxfr ∧
    (MR_longjmp rm use_trail (MR_setjmp rm use_trail buf label e0).1 e1).MR_eng_jmp_buf
      = e0.MR_eng_jmp_buf ∧
    (use_trail = true →
      (MR_longjmp rm use_trail (MR_setjmp rm use_trail buf label e0).1 e1).MR_trail_ptr
        = e0.MR_trail_ptr ∧
      (MR_longjmp rm use_trail (MR_setjmp rm use_trail buf label e0).1 e1).MR_ticket_counter
        = e0.MR_ticket_counter ∧
      (MR_longjmp rm use_trail (MR_setjmp rm use_trail buf label e0).1 e1).MR_ticket_high_water
        = e0.MR_ticket_high_water) := by
  cases use_trail <;>
    simp [MR_setjmp, MR_longjmp, hregs]

/-- Witness of C18: `MR_setjmp` in `sample_engine`, `MR_longjmp` from
`other_engine`, with the trail in use. -/
theorem longjmp_restores_witness :
    (∀ regs e, (copy_regs.MR_restore_regs_from_mem regs e).MR_eng_jmp_buf
      = e.MR_eng_jmp_buf) ∧
    (MR_longjmp copy_regs true (MR_setjmp copy_regs true empty_jmp_buf 50 sample_engine).1
      other_engine).pc = 50 ∧
    (MR_longjmp copy_regs true (MR_setjmp copy_regs true empty_jmp_buf 50 sample_engine).1
      other_engine).MR_sp = 3 ∧
    (MR_longjmp copy_regs true (MR_setjmp copy_regs true empty_jmp_buf 50 sample_engine).1
      other_engine).MR_eng_jmp_buf = 1 ∧
    (MR_longjmp copy_regs true (MR_setjmp copy_regs true empty_jmp_buf 50 sample_engine).1
      other_engine).MR_ticket_high_water = 8 :=
  ⟨fun _ _ => rfl,
    (longjmp_restores copy_regs true empty_jmp_buf 50 sample_engine other_engine
      (fun _ _ => rfl)).2.1,
    by decide, by decide, by decide⟩

/-- C19: on every line without quote and without backslash,
`MR_trace_break_into_words` returns, the words it leaves are exactly the
maximal runs of non-space characters of the line, in order (the non-empty
pieces of the line split at its spaces), and the value it returns is their
number, which is 0 when every character of the line is a space. -/
theorem break_into_words_plain (isspace : Char → Bool) (line : List Char)
    (hnul : NUL ∉ line) (hq : MR_MDB_QUOTE_CHAR ∉ line) (he : MR_MDB_ESCAPE_CHAR ∉ line) :
    (∃ line1 offs, MR_trace_break_into_words isspace line
        = some (.ok (line1, offs, (runs isspace line []).length)) ∧
      offs.map (cstring line1) = runs isspace line []) ∧
    runs isspace line [] = (line.splitOnP isspace).filter (fun w => !w.isEmpty) ∧
    ((∀ c ∈ line, isspace c = true) → (runs isspace line []).length = 0) := by
  refine ⟨?_, runs_eq_splitOnP isspace line, fun h => by rw [runs_all_space isspace line h]; rfl⟩
  exact (break_into_words_spec isspace line hnul).2 _
    (words_of_plain isspace (line.length + 1) line hq he (Nat.lt_succ_self _))

/-- Witness of C19: `plain_line` breaks into `step`, `10` and `now`. -/
theorem break_into_words_plain_witness :
    NUL ∉ plain_line ∧ MR_MDB_QUOTE_CHAR ∉ plain_line ∧ MR_MDB_ESCAPE_CHAR ∉ plain_line ∧
    runs c_isspace plain_line [] = ["step".toList, "10".toList, "now".toList] ∧
    words_left (MR_trace_break_into_words c_isspace plain_line)
      = some ["step".toList, "10".toList, "now".toList] ∧
    (∃ line1 offs, MR_trace_break_into_words c_isspace plain_line
        = some (.ok (line1, offs, (runs c_isspace plain_line []).length)) ∧
      offs.map (cstring line1) = runs c_isspace plain_line []) :=
  ⟨by decide, by decide, by decide, by decide, by decide,
    (break_into_words_plain c_isspace plain_line (by decide) (by decide) (by decide)).1⟩

/-- C20: on every line with balanced unescaped quotes and no backslash at its
very end, `MR_trace_break_into_words` returns, and the words it leaves are, in
order, the source tokens of the line (a token ends only at an unquoted,
unescaped space), each with its unescaped quote characters and its escaping
backslashes removed and every other character kept in order; this for a
classification of spaces that counts neither the quote nor the backslash as a
space. -/
theorem break_into_words_tokens (isspace : Char → Bool) (line : List Char)
    (hsq : isspace MR_MDB_QUOTE_CHAR = false) (hse : isspace MR_MDB_ESCAPE_CHAR = false)
    (hnul : NUL ∉ line) (hbal : unescaped_quotes line false % 2 = 0)
    (hlast : line.getLast? ≠ some MR_MDB_ESCAPE_CHAR) :
    ∃ line1 offs, MR_trace_break_into_words isspace line
        = some (.ok (line1, offs, (source_tokens isspace line none false false).length)) ∧
      offs.map (cstring line1)
        = (source_tokens isspace line none false false).map fun t => unquote t false := by
  have h := (break_into_words_spec isspace line hnul).2 _
    (words_of_tokens isspace hsq hse (line.length + 1) line (Nat.lt_succ_self _) hlast hbal)
  simpa using h

/-- Witness of C20: `quoted_line` breaks into `print`, `a bc d`, `x` quote `y`,
and the empty word. -/
theorem break_into_words_tokens_witness :
    c_isspace MR_MDB_QUOTE_CHAR = false ∧ c_isspace MR_MDB_ESCAPE_CHAR = false ∧
    NUL ∉ quoted_line ∧ unescaped_quotes quoted_line false % 2 = 0 ∧
    quoted_line.getLast? ≠ some MR_MDB_ESCAPE_CHAR ∧
    (source_tokens c_isspace quoted_line none false false).map (fun t => unquote t false)
      = ["print".toList, "a bc d".toList, "x".toList ++ [MR_MDB_QUOTE_CHAR] ++ "y".toList, []] ∧
    words_left (MR_trace_break_into_words c_isspace quoted_line)
      = some ["print".toList, "a bc d".toList,
          "x".toList ++ [MR_MDB_QUOTE_CHAR] ++ "y".toList, []] ∧
    (∃ line1 offs, MR_trace_break_into_words c_isspace quoted_line
        = some (.ok (line1, offs,
            (source_tokens c_isspace quoted_line none false false).length)) ∧
      offs.map (cstring line1)
        = (source_tokens c_isspace quoted_line none false false).map
            fun t => unquote t false) :=
  ⟨by decide, by decide, by decide, by decide, by decide, by decide, by decide,
    break_into_words_tokens c_isspace quoted_line (by decide) (by decide) (by decide)
      (by decide) (by decide)⟩

set_option maxRecDepth 100000 in
/-- C21, counterexample: the only word of `long_number_line` is 81 digits
followed by `step`; `MR_trace_parse_line` returns no words for it, whether
`char` is signed or not, but the message "too large a number". -/
theorem parse_line_command_first_counterexample :
    words_left (MR_trace_break_into_words c_isspace long_number_line)
      = some [List.replicate 81 '7' ++ "step".toList] ∧
    words_returned (MR_trace_parse_line true c_isspace c_isdigit natural_number
      blank_count_buf long_number_line) = none ∧
    words_returned (MR_trace_parse_line false c_isspace c_isdigit natural_number
      blank_count_buf long_number_line) = none ∧
    message_returned (MR_trace_parse_line true c_isspace c_isdigit natural_number
      blank_count_buf long_number_line) = some "too large a number" := by
  decide

/-- C21, amended: for every line that `MR_trace_break_into_words` breaks into
words, the first word `w0` and the later words `rest`, the count of words
fitting a `char`: when `w0` is a non-empty run of fewer than `MR_NUMBER_LEN` digits
followed by a remainder that starts with a non-digit, `MR_trace_parse_line`
returns the words remainder, digits, `rest`; when `w0` is a natural number of
fewer than `MR_NUMBER_LEN` digits and the second word is not a natural number,
it returns the first two words exchanged and the later words in order; and when
`w0` starts with more than `MR_NUMBER_LEN` digits it returns the message "too
large a number".  A natural number is a non-empty word of digits. -/
theorem parse_line_command_first (char_signed : Bool) (isspace isdigit : Char → Bool)
    (is_natural_number : List Char → Option Int) (count_buf line w0 : List Char)
    (rest : List (List Char))
    (hnat : ∀ w, (is_natural_number w).isSome = (!w.isEmpty && w.all isdigit))
    (hd0 : isdigit NUL = false) (hcb : count_buf.length = MR_NUMBER_LEN) (hnul : NUL ∉ line)
    (hw : words_left (MR_trace_break_into_words isspace line) = some (w0 :: rest)) :
    (∀ digits c r, w0 = digits ++ c :: r → digits ≠ [] → (∀ d ∈ digits, isdigit d = true) →
      isdigit c = false → digits.length < MR_NUMBER_LEN → rest.length + 2 ≤ 127 →
      words_returned (MR_trace_parse_line char_signed isspace isdigit is_natural_number
          count_buf line)
        = some ((c :: r) :: digits :: rest, (rest.length : Int) + 2)) ∧
    (∀ w1 rest1, rest = w1 :: rest1 → (is_natural_number w0).isSome = true →
      (is_natural_number w1).isSome = false → w0.length < MR_NUMBER_LEN →
      rest.length + 1 ≤ 127 →
      words_returned (MR_trace_parse_line char_signed isspace isdigit is_natural_number
          count_buf line)
        = some (w1 :: w0 :: rest1, (rest.length : Int) + 1)) ∧
    (∀ digits rem, w0 = digits ++ rem → (∀ d ∈ digits, isdigit d = true) →
      MR_NUMBER_LEN < digits.length → rest.length + 1 ≤ 127 →
      message_returned (MR_trace_parse_line char_signed isspace isdigit is_natural_number
          count_buf line)
        = some "too large a number") := by
  obtain ⟨line1, offs, e1, e2⟩ := break_into_words_of_left isspace line hnul _ hw
  cases offs with
  | nil => simp at e2
  | cons o0 otl =>
    simp only [List.map_cons, List.cons.injEq] at e2
    obtain ⟨hs0, hsr⟩ := e2
    have hrl : rest.length = otl.length := by rw [← hsr, List.length_map]
    have hcount : (((w0 :: rest).length : Nat) : Int) = ((otl.length + 1 : Nat) : Int) := by
      rw [List.length_cons, hrl]
    refine ⟨?_, ?_, ?_⟩
    · intro digits c r hw0 hne hdig hc hlen hn
      obtain ⟨cb, stores, s1, s2, s3⟩ := separate_number_split char_signed isdigit line1
        count_buf o0 otl digits c r (by rw [hs0, hw0]) hne hdig hc hlen hcb (by omega)
      have hp : (is_natural_number (word_string line1 cb (.in_count_buf 0))).isSome = true := by
        rw [hnat]
        simp only [word_string, s2, Bool.and_eq_true, Bool.not_eq_true', List.isEmpty_eq_false,
          List.all_eq_true]
        exact ⟨hne, hdig⟩
      have hrem : cstring line1 (o0 + digits.length) = c :: r := by
        rw [cstring_drop line1 _ o0 digits.length hs0 (by rw [hw0]; simp), hw0]
        simp
      have hq : (is_natural_number (word_string line1 cb
          (.in_line (o0 + digits.length)))).isSome = false := by
        rw [hnat]
        simp only [word_string, hrem, List.all_cons, hc, Bool.false_and, Bool.and_false]
      unfold MR_trace_parse_line
      simp only [e1, hcount, s1]
      rw [exchange_number_swaps _ _ _ _ _ _ _ (by omega) hp hq]
      simp only [words_returned, List.map_cons, word_string_in_line, word_string, s2, hrem,
        hsr, hrl]
    · intro w1 rest1 hr hn0 hn1 hlen hn
      have hw0 : w0 ≠ [] ∧ ∀ d ∈ w0, isdigit d = true := by
        rw [hnat] at hn0
        simpa using hn0
      obtain ⟨cb, stores, s1, s3⟩ := separate_number_whole char_signed isdigit line1
        count_buf o0 otl w0 hs0 hw0.1 hw0.2 hd0 hlen hcb (by omega)
      cases otl with
      | nil => rw [hr] at hsr; simp at hsr
      | cons o1 otl1 =>
        rw [hr] at hsr
        simp only [List.map_cons, List.cons.injEq] at hsr
        obtain ⟨hs1, hsr1⟩ := hsr
        simp only [List.map_cons] at s1
        unfold MR_trace_parse_line
        simp only [e1, hcount, List.map_cons, s1]
        rw [exchange_number_swaps is_natural_number line1 cb (.in_line o0) (.in_line o1) _ _
          (by simp only [List.length_cons]; push_cast; omega)
          (by simp only [word_string, hs0]; exact hn0)
          (by simp only [word_string, hs1]; exact hn1)]
        simp only [words_returned, List.map_cons, word_string_in_line, word_string, hs0, hs1,
          hsr1, hrl, List.length_cons]
    · intro digits rem hw0 hdig hbig hn
      obtain ⟨cb, stores, s1, s3⟩ := separate_number_rejects char_signed isdigit line1
        count_buf o0 otl digits rem (by rw [hs0, hw0]) hdig hbig (by omega)
      unfold MR_trace_parse_line
      simp only [e1, hcount, s1, message_returned]

set_option maxRecDepth 100000 in
/-- Witness of C21, amended: `10step now` and `10 step now` both give the words
`step`, `10`, `now`, and `long_number_line` is rejected. -/
theorem parse_line_command_first_witness :
    words_left (MR_trace_break_into_words c_isspace numbered_line)
      = some ["10step".toList, "now".toList] ∧
    words_returned (MR_trace_parse_line true c_isspace c_isdigit natural_number
        blank_count_buf numbered_line)
      = some (["step".toList, "10".toList, "now".toList], 3) ∧
    words_left (MR_trace_break_into_words c_isspace number_first_line)
      = some ["10".toList, "step".toList, "now".toList] ∧
    words_returned (MR_trace_parse_line true c_isspace c_isdigit natural_number
        blank_count_buf number_first_line)
      = some (["step".toList, "10".toList, "now".toList], 3) ∧
    message_returned (MR_trace_parse_line true c_isspace c_isdigit natural_number
        blank_count_buf long_number_line)
      = some "too large a number" :=
  ⟨by decide,
    (parse_line_command_first true c_isspace c_isdigit natural_number blank_count_buf
      numbered_line "10step".toList ["now".toList] natural_number_isSome (by decide)
      (by decide) (by decide) (by decide)).1 "10".toList 's' "tep".toList (by decide)
      (by decide) (by decide) (by decide) (by decide) (by decide),
    by decide,
    (parse_line_command_first true c_isspace c_isdigit natural_number blank_count_buf
      number_first_line "10".toList ["step".toList, "now".toList] natural_number_isSome
      (by decide) (by decide) (by decide) (by decide)).2.1 "step".toList ["now".toList] rfl
      (by decide) (by decide) (by decide) (by decide),
    (parse_line_command_first true c_isspace c_isdigit natural_number blank_count_buf
      long_number_line (List.replicate 81 '7' ++ "step".toList) [] natural_number_isSome
      (by decide) (by decide) (by decide) (by decide)).2.2 (List.replicate 81 '7')
      "step".toList rfl
      (by decide) (by decide) (by decide)⟩

set_option maxRecDepth 1000000 in
/-- C22, the failing input: `many_words` is broken into 256 words, and
`MR_trace_parse_line` fills them all into `*words` and reports 0 in
`*word_count`, whether `char` is signed or not. -/
theorem parse_line_count_truncated :
    (∃ line1 offs, MR_trace_break_into_words c_isspace many_words
        = some (.ok (line1, offs, 256)) ∧
      offs.map (cstring line1) = List.replicate 256 ['a']) ∧
    ∀ char_signed, words_returned (MR_trace_parse_line char_signed c_isspace c_isdigit
        natural_number blank_count_buf many_words)
      = some (List.replicate 256 ['a'], 0) := by
  have hr : runs c_isspace many_words [] = List.replicate 256 ['a'] := by decide
  have hnul : NUL ∉ many_words := by decide
  have hw : words_of c_isspace (many_words.length + 1) many_words
      = .ok (List.replicate 256 ['a']) := by
    rw [words_of_plain c_isspace _ many_words (by decide) (by decide) (Nat.lt_succ_self _), hr]
  refine ⟨?_, ?_⟩
  · have := (break_into_words_spec c_isspace many_words hnul).2 _ hw
    simpa using this
  · intro char_signed
    have hc : to_char char_signed ((List.replicate 256 ['a']).length : Int) = 0 := by
      cases char_signed <;> decide
    have := parse_line_count_converted char_signed c_isspace c_isdigit natural_number
      blank_count_buf many_words _ hnul hw (by rw [hc])
    rw [hc] at this
    exact this

/-- C23: for every line that contains no unquoted, unescaped semicolon and
every incoming quoted flag, `MR_trace_continue_line` returns true if and only
if the end of the line is inside quotes or the last character is an unescaped
backslash. -/
theorem continue_line_returns (line : List Char) (quoted : Bool) (hnul : NUL ∉ line)
    (hsemi : has_open_semicolon line quoted false = false) :
    ∃ r, MR_trace_continue_line line quoted = some r ∧
      (r.returned = true ↔
        ends_inside_quotes line quoted = true ∨ ends_in_open_backslash line false = true) ∧
      r.quoted = ends_inside_quotes line quoted ∧ r.inserted = none := by
  obtain ⟨r, e1, e2, e3, e4⟩ := continue_loop_spec line line (line.length + 1) 0 quoted false
    rfl hnul (Nat.lt_succ_self _) hsemi
  refine ⟨r, e1, ?_, e2, e4⟩
  rw [e3, e2]
  simp [ends_inside_quotes]

/-- Witness of C23: `open_quote_line` has its only semicolon inside quotes and
ends inside them; the call returns true and leaves the line as it is. -/
theorem continue_line_returns_witness :
    NUL ∉ open_quote_line ∧ has_open_semicolon open_quote_line false false = false ∧
    MR_trace_continue_line open_quote_line false = some ⟨open_quote_line, true, none, true⟩ ∧
    ∃ r, MR_trace_continue_line open_quote_line false = some r ∧
      (r.returned = true ↔ ends_inside_quotes open_quote_line false = true
        ∨ ends_in_open_backslash open_quote_line false = true) ∧
      r.quoted = ends_inside_quotes open_quote_line false ∧ r.inserted = none :=
  ⟨by decide, by decide, by decide,
    continue_line_returns open_quote_line false (by decide) (by decide)⟩

/-- C24, the failing input: of the three variables of `shadowed_vars` the first
and the last are both named `X`, and after the call none of the three has
`MR_var_is_ambiguous` set; without the head variable `Y` between them, in
`adjacent_vars`, both are marked. -/
theorem shadowed_name_not_marked :
    (point_vars (MR_trace_set_level_from_layout 0 shadowed_vars)).map
        (fun v => (v.MR_value_var.MR_var_fullname, v.MR_value_var.MR_var_hlds_number,
          v.MR_value_var.MR_var_is_ambiguous))
      = [("X".toList, 1, false), ("Y".toList, 2, false), ("X".toList, 3, false)] ∧
    (point_vars (MR_trace_set_level_from_layout 0 adjacent_vars)).map
        (fun v => (v.MR_value_var.MR_var_fullname, v.MR_value_var.MR_var_hlds_number,
          v.MR_value_var.MR_var_is_ambiguous))
      = [("X".toList, 1, true), ("X".toList, 3, true)] := by
  decide

/-- C25: on two values as `MR_trace_set_level_from_layout` builds them, the
result of `MR_trace_compare_value_details` is negative, zero or positive as the
documented order has the first value before, with or after the second:
attributes before program variables; attributes by attribute number; among
variables, head variables before all others and in argument order, then by
basename in `strcmp` order, then within one basename by numerically increasing
suffix with the unsuffixed variable last, and finally by HLDS number. -/
theorem compare_value_details_documented (value1 value2 : MR_ValueDetails)
    (h1 : value1.built) (h2 : value2.built) :
    sign_of (MR_trace_compare_value_details value1 value2) = documented_order value1 value2 := by
  unfold MR_trace_compare_value_details documented_order
  unfold MR_ValueDetails.built at h1 h2
  cases k1 : value1.MR_value_kind <;> cases k2 : value2.MR_value_kind <;>
    simp only [k1, k2] at h1 h2 ⊢
  · simp only [ne_eq, not_true_eq_false, if_false]
    exact sign_of_unsigned_sub _ _ h1 h2
  · rfl
  · rfl
  · simp only [ne_eq, not_true_eq_false, if_false]
    exact compare_var_details_spec _ _ ⟨h1.1, h1.2.1⟩ ⟨h2.1, h2.2.1⟩ h1.2.2.1 h2.2.2.1
      ⟨h1.2.2.2.1, h1.2.2.2.2⟩ ⟨h2.2.2.2.1, h2.2.2.2.2⟩

/-- Witness of C25: `X2` comes before `X`, both variables of the body. -/
theorem compare_value_details_documented_witness :
    (sample_var "X" (some 2) 0 4).built ∧ (sample_var "X" none 0 3).built ∧
    sign_of (MR_trace_compare_value_details (sample_var "X" (some 2) 0 4)
      (sample_var "X" none 0 3)) = .lt ∧
    documented_order (sample_var "X" (some 2) 0 4) (sample_var "X" none 0 3) = .lt :=
  ⟨by simp [MR_ValueDetails.built, sample_var], by simp [MR_ValueDetails.built, sample_var],
    (compare_value_details_documented _ _ (by simp [MR_ValueDetails.built, sample_var])
      (by simp [MR_ValueDetails.built, sample_var])).trans (by decide),
    by decide⟩

set_option maxRecDepth 100000 in
/-- C26, the failing input: on the one word of `eighty_digits`,
`MR_trace_parse_line` stores to the indices 0 to 80 of `count_buf`, the last of
them `MR_NUMBER_LEN`, and returns NULL. -/
theorem count_buf_store_past_end :
    stores_made (MR_trace_parse_line true c_isspace c_isdigit natural_number
      blank_count_buf eighty_digits) = some (List.range (MR_NUMBER_LEN + 1)) ∧
    message_returned (MR_trace_parse_line true c_isspace c_isdigit natural_number
      blank_count_buf eighty_digits) = none ∧
    blank_count_buf.length = MR_NUMBER_LEN := by
  decide

/-- C27, on the code: whenever `MR_trace_options_retry` reports failure,
`MR_trace_cmd_retry` goes on to read `ancestor_level`, which was never
assigned, and, unless the value read is 0 at an entry port, calls
`MR_trace_retry` with it and with the options as the failed parse left them. -/
theorem retry_after_failed_options (getopt : List (List Char) → List Char × Nat)
    (is_natural_number : List Char → Option Int) (ctx : RetryContext)
    (words : List (List Char)) (word_count : Int) (cmd : MR_Trace_Cmd_Info)
    (hfail : (MR_trace_options_retry getopt .MR_RETRY_IO_INTERACTIVE false words
      word_count).1 = false) :
    (MR_trace_cmd_retry getopt is_natural_number ctx words word_count cmd).read_unassigned
      = true ∧
    (¬ (ctx.indeterminate = 0 ∧ ctx.port_is_entry = true) →
      (MR_trace_cmd_retry getopt is_natural_number ctx words word_count cmd).retry_called
        = some (ctx.indeterminate,
            (MR_trace_options_retry getopt .MR_RETRY_IO_INTERACTIVE false words
              word_count).2.1,
            (MR_trace_options_retry getopt .MR_RETRY_IO_INTERACTIVE false words
              word_count).2.2.1)) := by
  unfold MR_trace_cmd_retry
  rcases ho : MR_trace_options_retry getopt .MR_RETRY_IO_INTERACTIVE false words word_count
    with ⟨ok, across_io, assume_all_io_is_tabled, words1, word_count1⟩
  rw [ho] at hfail
  simp only at hfail
  subst hfail
  simp only [Option.getD_none, Option.isNone_none]
  by_cases hc : ctx.indeterminate = 0 ∧ ctx.port_is_entry = true
  · simp only [hc, and_self, if_true, not_true_eq_false, false_implies]
  · simp only [hc, if_false, not_false_eq_true, true_implies]
    rcases hr : ctx.MR_trace_retry ctx.indeterminate across_io assume_all_io_is_tabled
      with ⟨result, problem⟩
    cases result <;> simp

/-- Witness of C27, the failing input: on the words `retry` and `-x`,
`MR_trace_options_retry` reports failure; `MR_trace_cmd_retry` then reads
`ancestor_level`, never assigned, calls `MR_trace_retry` with the value read,
and here returns `STOP_INTERACTING`. -/
theorem retry_after_failed_options_witness :
    (MR_trace_options_retry sample_getopt .MR_RETRY_IO_INTERACTIVE false
      ["retry".toList, "-x".toList] 2).1 = false ∧
    (MR_trace_cmd_retry sample_getopt natural_number (sample_context false 7)
      ["retry".toList, "-x".toList] 2 sample_cmd).read_unassigned = true ∧
    (MR_trace_cmd_retry sample_getopt natural_number (sample_context false 7)
      ["retry".toList, "-x".toList] 2 sample_cmd).retry_called
        = some (7, .MR_RETRY_IO_INTERACTIVE, false) ∧
    (MR_trace_cmd_retry sample_getopt natural_number (sample_context false 7)
      ["retry".toList, "-x".toList] 2 sample_cmd).returned = .STOP_INTERACTING :=
  ⟨by decide,
    (retry_after_failed_options sample_getopt natural_number (sample_context false 7)
      ["retry".toList, "-x".toList] 2 sample_cmd (by decide)).1,
    (retry_after_failed_options sample_getopt natural_number (sample_context false 7)
      ["retry".toList, "-x".toList] 2 sample_cmd (by decide)).2 (by decide),
    by decide⟩

end Mercury
